import Mathlib

/-!
# htmx-portfolio: the blog pipeline of `blogs.go` and `homepage.go`

A shallow embedding of the three HTTP entry points (`HomePageHandler`,
`BlogListHandler`, `BlogContentHandler`), of `LoadBlogPosts` and of
`IsHTMXRequest`, together with the library calls they are built from
(`strings.SplitN`, `strings.TrimPrefix`, `filepath.Join`, `filepath.Walk`,
`http.Header.Get`, `sort.Slice`).

Go strings are byte strings; they are embedded as `List Char`.  Every marker the
program looks for (`---`, `.md`, `/content/`) is ASCII, so splitting on
characters and splitting on bytes cut a UTF-8 text at the same places.

The YAML decoder, the Markdown renderer and the template engine are third-party
packages; the handlers take them as parameters, and so does `BlogListHandler`
take `sort.Slice`.  Go's own `sort.Slice` is modelled as `goSortSlice`
(`pdqsort_func`), and proved to sort.

The file has two parts: the definitions, then the theorems.
-/

namespace HtmxPortfolio

/-! ## Package `strings` -/

/-- Go `strings.Index(s, sep)`: position of the first occurrence of `sep` in `s`
(`none` stands for the result `-1`). -/
def Index : List Char → List Char → Option Nat
  | [], sep => if sep.isPrefixOf [] then some 0 else none
  | c :: s, sep =>
    if sep.isPrefixOf (c :: s) then some 0 else (Index s sep).map (· + 1)

/-- Go `strings.Count(s, sep)` for a non-empty `sep`: the number of
non-overlapping occurrences, found left to right.  The first argument bounds the
number of rounds of the loop (`s.length + 1` always suffices). -/
def countLoop (sep : List Char) : Nat → List Char → Nat
  | 0, _ => 0
  | k + 1, s =>
    match Index s sep with
    | none => 0
    | some m => 1 + countLoop sep k (s.drop (m + sep.length))

/-- Go `strings.Count(s, sep)`; for the empty separator the result is the number
of characters plus one. -/
def Count (s sep : List Char) : Nat :=
  if sep = [] then s.length + 1 else countLoop sep (s.length + 1) s

/-- Go `strings.explode(s, n)`: up to `n` one-character strings, the last one
holding the unsplit rest. -/
def explode : List Char → Nat → List (List Char)
  | [], _ => []
  | _ :: _, 0 => []
  | c :: s, 1 => [c :: s]
  | c :: s, k + 2 => [c] :: explode s (k + 1)

/-- The loop of Go `strings.genSplit`: `k` more cuts may be made at the first
occurrences of `sep`; what is left is the last element. -/
def splitLoop (sep : List Char) : Nat → List Char → List (List Char)
  | 0, s => [s]
  | k + 1, s =>
    match Index s sep with
    | none => [s]
    | some m => s.take m :: splitLoop sep k (s.drop (m + sep.length))

/-- Go `strings.genSplit(s, sep, 0, n)`, the body of `strings.SplitN`. -/
def genSplit (s sep : List Char) (n : Int) : List (List Char) :=
  if n = 0 then []
  else if sep = [] then
    explode s (if n < 0 then s.length else min n.toNat s.length)
  else
    let n1 : Nat := if n < 0 then Count s sep + 1 else n.toNat
    let n2 : Nat := if n1 > s.length + 1 then s.length + 1 else n1
    splitLoop sep (n2 - 1) s

/-- Go `strings.SplitN(s, sep, n)`. -/
def SplitN (s sep : List Char) (n : Int) : List (List Char) :=
  genSplit s sep n

/-- Go `strings.TrimPrefix(s, p)`. -/
def TrimPrefix (s p : List Char) : List Char :=
  if p.isPrefixOf s then s.drop p.length else s

/-- Go `strings.HasSuffix(s, suffix)`. -/
def HasSuffix (s suffix : List Char) : Bool :=
  suffix.isSuffixOf s

/-- Go `strings.TrimSuffix(s, suffix)`. -/
def TrimSuffix (s suffix : List Char) : List Char :=
  if HasSuffix s suffix then s.take (s.length - suffix.length) else s

/-- The metadata fence `"---"` both handlers split on. -/
def fence : List Char := ['-', '-', '-']

/-- The call `strings.SplitN(string(content), "---", 3)` of `blogs.go`. -/
def splitFrontMatter (content : List Char) : List (List Char) :=
  SplitN content fence 3

/-! ## Package `path/filepath` (Unix) -/

/-- The elements of a path, cut at every separator `/`. -/
def pathElements : List Char → List (List Char)
  | [] => [[]]
  | c :: s =>
    if c = '/' then [] :: pathElements s
    else
      match pathElements s with
      | [] => [[c]]
      | e :: es => (c :: e) :: es

/-- One element of Go `filepath.Clean`, pushed on the stack of elements kept so
far (innermost first): empty and `.` elements vanish, `..` removes the element
before it, or is kept at the front of a path that is not rooted. -/
def cleanStep (rooted : Bool) (stack : List (List Char)) (e : List Char) :
    List (List Char) :=
  if e = [] ∨ e = ['.'] then stack
  else if e = ['.', '.'] then
    match stack with
    | [] => if rooted then [] else [e]
    | top :: rest => if top = ['.', '.'] then e :: top :: rest else rest
  else e :: stack

/-- Go `filepath.Clean(path)`. -/
def Clean (path : List Char) : List Char :=
  if path = [] then ['.']
  else
    let rooted : Bool := path.head? = some '/'
    let kept := ((pathElements path).foldl (cleanStep rooted) []).reverse
    let body := List.intercalate ['/'] kept
    if rooted then '/' :: body
    else if body = [] then ['.'] else body

/-- Go `filepath.Join(elem...)`: leading empty elements are dropped, the rest is
joined with `/` and cleaned. -/
def Join (elem : List (List Char)) : List Char :=
  match elem.dropWhile List.isEmpty with
  | [] => []
  | e :: es => Clean (List.intercalate ['/'] (e :: es))

/-- Go `filepath.Base(path)`: the last element of the path. -/
def Base (path : List Char) : List Char :=
  if path = [] then ['.']
  else
    match ((pathElements path).filter (fun e => !e.isEmpty)).getLast? with
    | none => ['/']
    | some e => e

/-! ## The file system -/

/-- What `os.Lstat`, `readDirNames` and `ioutil.ReadFile` find at one path. -/
inductive FsNode where
  /-- Not a directory; the payload is what `ioutil.ReadFile` returns for it. -/
  | file : Except String (List Char) → FsNode
  /-- A directory with its entries in the order `readDirNames` lists them. -/
  | dir : List (List Char × FsNode) → FsNode
  /-- A directory whose listing fails with the given error. -/
  | unreadableDir : String → FsNode
  /-- A name for which `os.Lstat` fails with the given error. -/
  | noStat : String → FsNode

/-- Go `os.FileInfo`, as far as the program reads it. -/
structure FileInfo where
  /-- Result of `info.Name()`: the base name. -/
  name : List Char
  /-- Result of `info.IsDir()`. -/
  isDir : Bool
deriving DecidableEq, Repr

/-- One call `walkFn(path, info, err)` made by `filepath.Walk`, together with
what `ioutil.ReadFile(path)` answers should the callback ask. -/
structure Visit where
  path : List Char
  info : FileInfo
  err : Option String
  read : Except String (List Char)

/-- Go `filepath.walk(path, info, walkFn)`: the calls it makes, in order, as long
as the callback keeps returning `nil`.  A file is visited once; a directory is
visited and then each of its entries under `Join(path, name)`; a listing or
`Lstat` failure is reported to the callback in the `err` argument (the info
passed with a failed `Lstat` is nil and is shown here as a non-directory). -/
def walk (path name : List Char) : FsNode → List Visit
  | .file r => [⟨path, ⟨name, false⟩, none, r⟩]
  | .dir es =>
    ⟨path, ⟨name, true⟩, none, .error "is a directory"⟩ :: walkEntries path es
  | .unreadableDir e => [⟨path, ⟨name, true⟩, some e, .error "is a directory"⟩]
  | .noStat e => [⟨path, ⟨name, false⟩, some e, .error e⟩]
where
  /-- The loop of `walk` over the names of a directory. -/
  walkEntries (path : List Char) : List (List Char × FsNode) → List Visit
    | [] => []
    | (n, node) :: rest => walk (Join [path, n]) n node ++ walkEntries path rest

/-- Go `filepath.Walk(root, walkFn)` on the node found at `root`. -/
def Walk (root : List Char) (node : FsNode) : List Visit :=
  walk root (Base root) node

/-- The entry `name` of a node. -/
def FsNode.child : FsNode → List Char → FsNode
  | .dir es, name =>
    match es.find? (fun e => e.1 = name) with
    | some e => e.2
    | none => .noStat "no such file or directory"
  | .file _, _ => .noStat "not a directory"
  | .unreadableDir _, _ => .noStat "permission denied"
  | .noStat e, _ => .noStat e

/-- The node a relative path leads to from the working directory `cwd`. -/
def FsNode.resolve (cwd : FsNode) (path : List Char) : FsNode :=
  ((pathElements (Clean path)).filter (fun e => e ≠ ['.'])).foldl FsNode.child cwd

/-- Go `ioutil.ReadFile(path)` for a path below the working directory `cwd`. -/
def FsNode.ReadFile (cwd : FsNode) (path : List Char) : Except String (List Char) :=
  match cwd.resolve path with
  | .file r => r
  | .dir _ => .error "is a directory"
  | .unreadableDir _ => .error "is a directory"
  | .noStat e => .error e

/-- The driver of `filepath.Walk` for a callback that never returns `SkipDir`:
the calls are made in order and the first non-nil error ends the walk and is
returned. -/
def runWalk {σ : Type} (walkFn : σ → Visit → σ × Option String) :
    σ → List Visit → σ × Option String
  | s, [] => (s, none)
  | s, v :: vs =>
    match walkFn s v with
    | (s1, some e) => (s1, some e)
    | (s1, none) => runWalk walkFn s1 vs

/-! ## Package `net/http`: requests and headers -/

/-- Go `textproto.validHeaderFieldByte`: the token characters of RFC 7230. -/
def validHeaderFieldByte (c : Char) : Bool :=
  c.isAlphanum || c ∈ "!#$%&'*+-.^_`|~".toList

/-- The rewriting loop of Go `textproto.canonicalMIMEHeaderKey`: the first letter
and every letter after a hyphen in upper case, all others in lower case. -/
def canonicalLoop : Bool → List Char → List Char
  | _, [] => []
  | upper, c :: s =>
    let c1 := if upper then c.toUpper else c.toLower
    c1 :: canonicalLoop (c1 = '-') s

/-- Go `textproto.CanonicalMIMEHeaderKey(s)`: a key holding a byte that is not a
token character is returned unchanged. -/
def CanonicalMIMEHeaderKey (s : List Char) : List Char :=
  if s.all validHeaderFieldByte then canonicalLoop true s else s

/-- Go `http.Header`, a map from canonical keys to the values received under
them (no values for a key that is absent). -/
abbrev Header := List Char → List (List Char)

/-- Go `http.Header.Get(key)`: the first value stored under the canonical form of
`key`, or the empty string. -/
def Header.Get (h : Header) (key : List Char) : List Char :=
  match h (CanonicalMIMEHeaderKey key) with
  | [] => []
  | v :: _ => v

/-- The header map the server builds from the header fields of a request, in the
order they were received: each field is filed under the canonical form of its
name. -/
def readMIMEHeader (fields : List (List Char × List Char)) : Header :=
  fun key => (fields.filter (fun f => CanonicalMIMEHeaderKey f.1 = key)).map (·.2)

/-- Go `http.Request`, as far as the handlers read it. -/
structure Request where
  /-- The field `r.URL.Path`. -/
  path : List Char
  /-- The field `r.Header`. -/
  header : Header

/-- The request the server hands to a handler for the given path and received
header fields. -/
def Request.received (path : List Char) (fields : List (List Char × List Char)) :
    Request :=
  ⟨path, readMIMEHeader fields⟩

/-- Names compared without regard to the case of ASCII letters. -/
def equalFold (a b : List Char) : Bool :=
  a.map Char.toLower = b.map Char.toLower

/-- `IsHTMXRequest` of `blogs.go`. -/
def IsHTMXRequest (r : Request) : Bool :=
  r.header.Get "HX-Request".toList = "true".toList

/-! ## Documents, third-party packages and view data -/

/-- Go `time.Time`, as an instant on the time line (seconds from the Unix epoch);
`t.After(u)` compares instants. -/
abbrev Time := Int

/-- Go `t.After(u)`. -/
def Time.After (t u : Time) : Bool := decide (u < t)

/-- Go `t.Before(u)`. -/
def Time.Before (t u : Time) : Bool := decide (t < u)

/-- `BlogPost` of `blogs.go`. -/
structure BlogPost where
  Title : List Char
  Date : Time
  Description : List Char
  Image : List Char
  FileName : List Char
  Content : List Char
deriving DecidableEq, Repr

/-- The local `metaData` struct of `BlogContentHandler`: title, description and
image, and no date. -/
structure MetaData where
  Title : List Char
  Description : List Char
  Image : List Char
deriving DecidableEq, Repr

/-- Package `gopkg.in/yaml.v2`: `yaml.Unmarshal(in, &out)` into a zero value of
each of the two types the program decodes into. -/
structure Yaml where
  /-- `yaml.Unmarshal(in, &post)` with `var post BlogPost`. -/
  unmarshalPost : List Char → Except String BlogPost
  /-- `yaml.Unmarshal(in, &metaData)` with the local struct of the content handler. -/
  unmarshalMeta : List Char → Except String MetaData

/-- Package `blackfriday`: `blackfriday.Run(input)`. -/
abbrev Markdown := List Char → List Char

/-- A value stored in the `map[string]interface{}` handed to the templates. -/
inductive Value where
  | str : List Char → Value
  | html : List Char → Value
  | posts : List BlogPost → Value
  | bool : Bool → Value
deriving DecidableEq, Repr

/-- The `map[string]interface{}` handed to the templates, as its key-value pairs. -/
abbrev ViewData := List (String × Value)

/-- Package `html/template`. -/
structure Templates where
  /-- Whether `template.New(..).Funcs(..).ParseFiles(files...)` succeeds. -/
  parseFiles : List String → Bool
  /-- `tmpl.ExecuteTemplate(w, name, data)`: what is written to `w`, and the
  error if execution fails. -/
  executeTemplate : String → ViewData → List Char × Option String

/-- What a handler does with the response writer. -/
inductive Reply where
  /-- `http.NotFound(w, r)`. -/
  | notFound : Reply
  /-- `http.Error(w, msg, code)` as the only output. -/
  | error : String → Nat → Reply
  /-- `tmpl.ExecuteTemplate(w, "base.html", data)` was called with the given
  data and wrote the given output; when it failed,
  `http.Error(w, msg, http.StatusInternalServerError)` follows. -/
  | executed : ViewData → List Char → Option String → Reply

/-- The status code of the response: `http.NotFound` and `http.Error` set theirs;
the first byte a template writes commits status 200. -/
def Reply.status : Reply → Nat
  | .notFound => 404
  | .error _ code => code
  | .executed _ _ none => 200
  | .executed _ out (some _) => if out = [] then 500 else 200

/-- The data the handler passed to `ExecuteTemplate`, if it got that far. -/
def Reply.viewData : Reply → Option ViewData
  | .executed data _ _ => some data
  | _ => none

/-! ## `blogs.go` and `homepage.go` -/

/-- The extension `".md"`. -/
def mdExt : List Char := ['.', 'm', 'd']

/-- The template files `BlogContentHandler` parses. -/
def contentTemplates : List String :=
  ["templates/base.html", "templates/header.html", "templates/blogpost.html",
   "templates/footer.html", "templates/hero.html", "templates/homepage.html",
   "templates/bloglist.html"]

/-- The template files `BlogListHandler` parses. -/
def listTemplates : List String :=
  ["templates/base.html", "templates/header.html", "templates/bloglist.html",
   "templates/footer.html", "templates/homepage.html", "templates/hero.html",
   "templates/blogpost.html"]

/-- The template files `HomePageHandler` parses. -/
def homeTemplates : List String :=
  ["templates/base.html", "templates/header.html", "templates/homepage.html",
   "templates/footer.html", "templates/hero.html", "templates/bloglist.html",
   "templates/blogpost.html"]

/-- The end of all three handlers: `tmpl.ExecuteTemplate(w, "base.html", data)`,
followed by `http.Error(w, msg, 500)` when it fails. -/
def execute (T : Templates) (data : ViewData) (msg : String) : Reply :=
  match T.executeTemplate "base.html" data with
  | (out, none) => .executed data out none
  | (out, some _) => .executed data out (some msg)

/-- The path `BlogContentHandler` reads for a post name:
`filepath.Join("posts", postName+".md")`. -/
def contentFilePath (postName : List Char) : List Char :=
  Join ["posts".toList, postName ++ mdExt]

/-- `BlogContentHandler` of `blogs.go`; `readFile` is `ioutil.ReadFile`. -/
def BlogContentHandler (Y : Yaml) (md : Markdown) (T : Templates)
    (readFile : List Char → Except String (List Char)) (r : Request) : Reply :=
  let postName := TrimPrefix r.path "/content/".toList
  if postName = [] then .notFound
  else
    match readFile (contentFilePath postName) with
    | .error _ => .error "File not found." 404
    | .ok fileContent =>
      let parts := SplitN fileContent fence 3
      if parts.length < 3 then .error "Error processing blog post." 500
      else
        match Y.unmarshalMeta (parts.getD 1 []) with
        | .error _ => .error "Error processing metadata" 500
        | .ok metaData =>
          let markdownBody := parts.getD 2 []
          let htmlContent := md markdownBody
          if T.parseFiles contentTemplates = false then
            .error "Error loading template" 500
          else
            execute T
              [("Title", .str metaData.Title),
               ("PageType", .str "blogpost".toList),
               ("Content", .html htmlContent)]
              "Error rendering template"

/-- The callback `LoadBlogPosts` hands to `filepath.Walk`; the posts collected so
far are the state it closes over. -/
def loadWalkFn (Y : Yaml) (md : Markdown) (posts : List BlogPost) (v : Visit) :
    List BlogPost × Option String :=
  match v.err with
  | some e => (posts, some e)
  | none =>
    if !v.info.isDir && HasSuffix v.info.name mdExt then
      match v.read with
      | .error e => (posts, some e)
      | .ok content =>
        let parts := SplitN content fence 3
        if parts.length < 3 then (posts, none)
        else
          match Y.unmarshalPost (parts.getD 1 []) with
          | .error e => (posts, some e)
          | .ok post =>
            let markdownBody := parts.getD 2 []
            let htmlContent := md markdownBody
            (posts ++ [{ post with
                          Content := htmlContent
                          FileName := TrimSuffix v.info.name mdExt }], none)
    else (posts, none)

/-- The walk of `LoadBlogPosts` over a given sequence of calls: the slice
`posts` and the error that `return posts, err` hands back. -/
def loadVisits (Y : Yaml) (md : Markdown) (visits : List Visit) :
    List BlogPost × Option String :=
  runWalk (loadWalkFn Y md) [] visits

/-- `LoadBlogPosts(postsDir)` of `blogs.go`, where `node` is what the file system
holds at `postsDir`. -/
def LoadBlogPosts (Y : Yaml) (md : Markdown) (node : FsNode) (postsDir : List Char) :
    List BlogPost × Option String :=
  loadVisits Y md (Walk postsDir node)

/-- Go `sort.Slice(x, less)` on a slice of posts: from the comparison and the
slice to the slice as it is left in place. -/
abbrev SliceSort := (BlogPost → BlogPost → Bool) → List BlogPost → List BlogPost

/-- The comparison `BlogListHandler` gives to `sort.Slice`:
`posts[i].Date.After(posts[j].Date)`. -/
def dateAfter (p q : BlogPost) : Bool := p.Date.After q.Date

/-- `BlogListHandler` of `blogs.go`; `node` is what the file system holds at
`posts`. -/
def BlogListHandler (Y : Yaml) (md : Markdown) (T : Templates) (sortSlice : SliceSort)
    (node : FsNode) (r : Request) : Reply :=
  let isHTMX := IsHTMXRequest r
  match LoadBlogPosts Y md node "posts".toList with
  | (_, some _) => .error "Error loading blog posts" 500
  | (posts, none) =>
    let posts := sortSlice dateAfter posts
    if T.parseFiles listTemplates = false then .error "Error loading template" 500
    else
      execute T
        [("Title", .str "Blog Posts".toList),
         ("Posts", .posts posts),
         ("PageType", .str "bloglist".toList),
         ("IsHTMX", .bool isHTMX)]
        "Error rendering template"

/-- `HomePageHandler` of `homepage.go`. -/
def HomePageHandler (T : Templates) (r : Request) : Reply :=
  let isHTMX := IsHTMXRequest r
  if T.parseFiles homeTemplates = false then .error "Error loading templates" 500
  else
    execute T
      [("Title", .str "Home Page".toList),
       ("PageType", .str "homepage".toList),
       ("IsHTMX", .bool isHTMX)]
      "Error rendering page"

/-! ## Package `sort`

`sort.Slice(x, less)` runs `pdqsort_func` on the slice (Go 1.19 and later).  The
slice is a list that `data.Swap` updates; `data.Less(i, j)` applies the
comparison to the elements at the two positions.  Loops carry a counter that
bounds their rounds; each bound is the length of the range the loop scans. -/

/-- Go `data.Less(i, j)`. -/
def lessAt {α : Type} (less : α → α → Bool) (data : List α) (i j : Nat) : Bool :=
  match data[i]?, data[j]? with
  | some x, some y => less x y
  | _, _ => false

/-- Go `data.Swap(i, j)`. -/
def swapAt {α : Type} (data : List α) (i j : Nat) : List α :=
  match data[i]?, data[j]? with
  | some x, some y => (data.set i y).set j x
  | _, _ => data

/-- The inner loop of `insertionSort_func`:
`for j := i; j > a && data.Less(j, j-1); j-- { data.Swap(j, j-1) }`. -/
def insertionInner {α : Type} (less : α → α → Bool) (a : Nat) : Nat → List α → List α
  | 0, data => data
  | j + 1, data =>
    if j + 1 > a && lessAt less data (j + 1) j then
      insertionInner less a j (swapAt data (j + 1) j)
    else data

/-- The outer loop of `insertionSort_func`, `for i := a + 1; i < b; i++`, with
the number of rounds still to run. -/
def insertionOuter {α : Type} (less : α → α → Bool) (a : Nat) :
    Nat → Nat → List α → List α
  | 0, _, data => data
  | n + 1, i, data => insertionOuter less a n (i + 1) (insertionInner less a i data)

/-- Go `insertionSort_func(data, a, b)`. -/
def insertionSort_func {α : Type} (less : α → α → Bool) (data : List α) (a b : Nat) :
    List α :=
  insertionOuter less a (b - (a + 1)) (a + 1) data

/-- Go `siftDown_func(data, lo, hi, first)`, from the root `lo`. -/
def siftDown_func {α : Type} (less : α → α → Bool) (hi first : Nat) :
    Nat → Nat → List α → List α
  | 0, _, data => data
  | fuel + 1, root, data =>
    let child := 2 * root + 1
    if child ≥ hi then data
    else
      let child :=
        if child + 1 < hi && lessAt less data (first + child) (first + child + 1) then child + 1
        else child
      if !lessAt less data (first + root) (first + child) then data
      else siftDown_func less hi first fuel child (swapAt data (first + root) (first + child))

/-- Go `heapSort_func(data, a, b)`. -/
def heapSort_func {α : Type} (less : α → α → Bool) (data : List α) (a b : Nat) : List α :=
  let first := a
  let lo := 0
  let hi := b - a
  let data := (List.range ((hi - 1) / 2 + 1)).reverse.foldl
    (fun d i => siftDown_func less hi first hi i d) data
  (List.range hi).reverse.foldl
    (fun d i => siftDown_func less i first hi lo (swapAt d first (first + i))) data

/-- Go `bits.Len(x)`: the number of bits needed to write `x`. -/
def bitsLen : Nat → Nat → Nat
  | 0, _ => 0
  | fuel + 1, x => if x = 0 then 0 else 1 + bitsLen fuel (x / 2)

/-- Go `(*xorshift).Next` on a 64-bit state. -/
def xorshiftNext (r : Nat) : Nat :=
  let r := r ^^^ ((r <<< 13) % 2 ^ 64)
  let r := r ^^^ (r >>> 7)
  r ^^^ ((r <<< 17) % 2 ^ 64)

/-- Go `breakPatterns_func(data, a, b)`. -/
def breakPatterns_func {α : Type} (data : List α) (a b : Nat) : List α :=
  let length := b - a
  if length ≥ 8 then
    let modulus := 2 ^ bitsLen (length + 1) length
    let idx := a + (length / 4) * 2 - 1
    let step := fun (s : List α × Nat) (i : Nat) =>
      let random := xorshiftNext s.2
      let other := random % modulus
      let other := if other ≥ length then other - length else other
      (swapAt s.1 (idx - 1 + i) (a + other), random)
    ((List.range 3).foldl step (data, length)).1
  else data

/-- Go `sortedHint`. -/
inductive SortedHint where
  | unknownHint
  | increasingHint
  | decreasingHint
deriving DecidableEq, Repr

/-- Go `order2_func(data, a, b, swaps)`. -/
def order2_func {α : Type} (less : α → α → Bool) (data : List α) (a b swaps : Nat) :
    Nat × Nat × Nat :=
  if lessAt less data b a then (b, a, swaps + 1) else (a, b, swaps)

/-- Go `median_func(data, a, b, c, swaps)`. -/
def median_func {α : Type} (less : α → α → Bool) (data : List α) (a b c swaps : Nat) :
    Nat × Nat :=
  let (a, b, swaps) := order2_func less data a b swaps
  let (b, c, swaps) := order2_func less data b c swaps
  let (_, b, swaps) := order2_func less data a b swaps
  let _ := c
  (b, swaps)

/-- Go `medianAdjacent_func(data, a, swaps)`. -/
def medianAdjacent_func {α : Type} (less : α → α → Bool) (data : List α) (a swaps : Nat) :
    Nat × Nat :=
  median_func less data (a - 1) a (a + 1) swaps

/-- The end of Go `choosePivot_func`: the hint read off the number of swaps the
medians needed (`maxSwaps` is `4 * 3`). -/
def hintOfSwaps (swaps : Nat) : SortedHint :=
  if swaps = 0 then .increasingHint
  else if swaps = 4 * 3 then .decreasingHint
  else .unknownHint

/-- The Tukey ninther step of Go `choosePivot_func`: each of `i`, `j`, `k` is
replaced by the median of its neighbourhood; the last component counts swaps. -/
def nintherStep {α : Type} (less : α → α → Bool) (data : List α) (i j k : Nat) :
    Nat × Nat × Nat × Nat :=
  let r1 := medianAdjacent_func less data i 0
  let r2 := medianAdjacent_func less data j r1.2
  let r3 := medianAdjacent_func less data k r2.2
  (r1.1, r2.1, r3.1, r3.2)

/-- Go `choosePivot_func(data, a, b)`. -/
def choosePivot_func {α : Type} (less : α → α → Bool) (data : List α) (a b : Nat) :
    Nat × SortedHint :=
  let l := b - a
  let i := a + l / 4 * 1
  let j := a + l / 4 * 2
  let k := a + l / 4 * 3
  if l ≥ 8 then
    let c := if l ≥ 50 then nintherStep less data i j k else (i, j, k, 0)
    let m := median_func less data c.1 c.2.1 c.2.2.1 c.2.2.2
    (m.1, hintOfSwaps m.2)
  else (j, hintOfSwaps 0)

/-- Go `reverseRange_func(data, a, b)`, as the loop over `i` and `j`. -/
def reverseLoop {α : Type} : Nat → Nat → Nat → List α → List α
  | 0, _, _, data => data
  | fuel + 1, i, j, data =>
    if i < j then reverseLoop fuel (i + 1) (j - 1) (swapAt data i j) else data

/-- Go `reverseRange_func(data, a, b)`. -/
def reverseRange_func {α : Type} (data : List α) (a b : Nat) : List α :=
  reverseLoop (b - a) a (b - 1) data

/-- The loop `for i < b && !data.Less(i, i-1) { i++ }`. -/
def scanSorted {α : Type} (less : α → α → Bool) (b : Nat) : Nat → Nat → List α → Nat
  | 0, i, _ => i
  | fuel + 1, i, data =>
    if i < b && !lessAt less data i (i - 1) then scanSorted less b fuel (i + 1) data else i

/-- The loop `for j := i - 1; j >= 1; j-- { if !data.Less(j, j-1) { break }; data.Swap(j, j-1) }`. -/
def shiftSmaller {α : Type} (less : α → α → Bool) : Nat → List α → List α
  | 0, data => data
  | j + 1, data =>
    if !lessAt less data (j + 1) j then data
    else shiftSmaller less j (swapAt data (j + 1) j)

/-- The loop `for j := i + 1; j < b; j++ { if !data.Less(j, j-1) { break }; data.Swap(j, j-1) }`. -/
def shiftGreater {α : Type} (less : α → α → Bool) (b : Nat) : Nat → Nat → List α → List α
  | 0, _, data => data
  | fuel + 1, j, data =>
    if j < b then
      if !lessAt less data j (j - 1) then data
      else shiftGreater less b fuel (j + 1) (swapAt data j (j - 1))
    else data

/-- Go `partialInsertionSort_func(data, a, b)`: the loop over at most `maxSteps`
out-of-order pairs, with the position `i` reached so far. -/
def partialInsertionLoop {α : Type} (less : α → α → Bool) (a b : Nat) :
    Nat → Nat → List α → List α × Bool
  | 0, _, data => (data, false)
  | steps + 1, i, data =>
    let i := scanSorted less b b i data
    if i = b then (data, true)
    else if b - a < 50 then (data, false)
    else
      let data := swapAt data i (i - 1)
      let data := if i - a ≥ 2 then shiftSmaller less (i - 1) data else data
      let data := if b - i ≥ 2 then shiftGreater less b b (i + 1) data else data
      partialInsertionLoop less a b steps i data

/-- Go `partialInsertionSort_func(data, a, b)`. -/
def partialInsertionSort_func {α : Type} (less : α → α → Bool) (data : List α) (a b : Nat) :
    List α × Bool :=
  partialInsertionLoop less a b 5 (a + 1) data

/-- The loop `for i <= j && data.Less(i, a) { i++ }`. -/
def scanLess {α : Type} (less : α → α → Bool) (a j : Nat) : Nat → Nat → List α → Nat
  | 0, i, _ => i
  | fuel + 1, i, data =>
    if i ≤ j && lessAt less data i a then scanLess less a j fuel (i + 1) data else i

/-- The loop `for i <= j && !data.Less(j, a) { j-- }`. -/
def scanNotLess {α : Type} (less : α → α → Bool) (a i : Nat) : Nat → Nat → List α → Nat
  | 0, j, _ => j
  | fuel + 1, j, data =>
    if i ≤ j && !lessAt less data j a then scanNotLess less a i fuel (j - 1) data else j

/-- The main loop of `partition_func`. -/
def partitionLoop {α : Type} (less : α → α → Bool) (a b : Nat) :
    Nat → Nat → Nat → List α → List α × Nat
  | 0, _, j, data => (data, j)
  | fuel + 1, i, j, data =>
    let i := scanLess less a j (b - a) i data
    let j := scanNotLess less a i (b - a) j data
    if i > j then (data, j)
    else partitionLoop less a b fuel (i + 1) (j - 1) (swapAt data i j)

/-- Go `partition_func(data, a, b, pivot)`: the slice, the new position of the
pivot and whether the range was already partitioned. -/
def partition_func {α : Type} (less : α → α → Bool) (data : List α) (a b pivot : Nat) :
    List α × Nat × Bool :=
  let data := swapAt data a pivot
  let i := scanLess less a (b - 1) (b - a) (a + 1) data
  let j := scanNotLess less a i (b - a) (b - 1) data
  if i > j then (swapAt data j a, j, true)
  else
    let data := swapAt data i j
    let (data, j) := partitionLoop less a b (b - a) (i + 1) (j - 1) data
    (swapAt data j a, j, false)

/-- The loop `for i <= j && !data.Less(a, i) { i++ }`. -/
def scanEqual {α : Type} (less : α → α → Bool) (a j : Nat) : Nat → Nat → List α → Nat
  | 0, i, _ => i
  | fuel + 1, i, data =>
    if i ≤ j && !lessAt less data a i then scanEqual less a j fuel (i + 1) data else i

/-- The loop `for i <= j && data.Less(a, j) { j-- }`. -/
def scanGreater {α : Type} (less : α → α → Bool) (a i : Nat) : Nat → Nat → List α → Nat
  | 0, j, _ => j
  | fuel + 1, j, data =>
    if i ≤ j && lessAt less data a j then scanGreater less a i fuel (j - 1) data else j

/-- The loop of `partitionEqual_func`. -/
def partitionEqualLoop {α : Type} (less : α → α → Bool) (a b : Nat) :
    Nat → Nat → Nat → List α → List α × Nat
  | 0, i, _, data => (data, i)
  | fuel + 1, i, j, data =>
    let i := scanEqual less a j (b - a) i data
    let j := scanGreater less a i (b - a) j data
    if i > j then (data, i)
    else partitionEqualLoop less a b fuel (i + 1) (j - 1) (swapAt data i j)

/-- Go `partitionEqual_func(data, a, b, pivot)`. -/
def partitionEqual_func {α : Type} (less : α → α → Bool) (data : List α) (a b pivot : Nat) :
    List α × Nat :=
  partitionEqualLoop less a b (b - a) (a + 1) (b - 1) (swapAt data a pivot)

/-- Go `pdqsort_func(data, a, b, limit)`: one round of its loop per unit of the
counter, which `b - a + 1` covers because every round and every recursive call
works on a shorter range.  The two flags are `wasBalanced` and `wasPartitioned`. -/
def pdqsort_func {α : Type} (less : α → α → Bool) :
    Nat → List α → Nat → Nat → Nat → Bool → Bool → List α
  | 0, data, _, _, _, _, _ => data
  | fuel + 1, data, a, b, limit, wasBalanced, wasPartitioned =>
    let length := b - a
    if length ≤ 12 then insertionSort_func less data a b
    else if limit = 0 then heapSort_func less data a b
    else
      let data := if !wasBalanced then breakPatterns_func data a b else data
      let limit := if !wasBalanced then limit - 1 else limit
      let choice := choosePivot_func less data a b
      let decreasing : Bool := choice.2 = .decreasingHint
      let data := if decreasing then reverseRange_func data a b else data
      let pivot := if decreasing then (b - 1) - (choice.1 - a) else choice.1
      let hint := if decreasing then SortedHint.increasingHint else choice.2
      let attempt :=
        if wasBalanced && wasPartitioned && hint = .increasingHint then
          partialInsertionSort_func less data a b
        else (data, false)
      if attempt.2 then attempt.1
      else if a > 0 && !lessAt less attempt.1 (a - 1) pivot then
        let equal := partitionEqual_func less attempt.1 a b pivot
        pdqsort_func less fuel equal.1 equal.2 b limit wasBalanced wasPartitioned
      else
        let parted := partition_func less attempt.1 a b pivot
        let mid := parted.2.1
        let alreadyPartitioned := parted.2.2
        let leftLen := mid - a
        let rightLen := b - mid
        let balanceThreshold := length / 8
        if leftLen < rightLen then
          pdqsort_func less fuel (pdqsort_func less fuel parted.1 a mid limit true true)
            (mid + 1) b limit (leftLen ≥ balanceThreshold) alreadyPartitioned
        else
          pdqsort_func less fuel (pdqsort_func less fuel parted.1 (mid + 1) b limit true true)
            a mid limit (rightLen ≥ balanceThreshold) alreadyPartitioned

/-- Go `sort.Slice(x, less)` on a list: `pdqsort_func` on the whole slice with
`limit := bits.Len(uint(length))`. -/
def goSortSlice {α : Type} (less : α → α → Bool) (x : List α) : List α :=
  pdqsort_func less (x.length + 1) x 0 x.length (bitsLen (x.length + 1) x.length) true true

/-- Go's requirements on `Less`: a strict ordering that is transitive and whose
"not less" is transitive as well. -/
structure LessOrdering {α : Type} (less : α → α → Bool) : Prop where
  irrefl : ∀ a, less a a = false
  trans : ∀ a b c, less a b = true → less b c = true → less a c = true
  negTrans : ∀ a b c, less a b = false → less b c = false → less a c = false

/-- The documented contract of `sort.Slice`: for a comparison that meets the
requirements, the slice is rearranged and no element is less than one before
it.  The order of equal elements is left open. -/
structure SortSliceContract (sortSlice : SliceSort) : Prop where
  perm : ∀ less xs, LessOrdering less → (sortSlice less xs).Perm xs
  sorted : ∀ less xs, LessOrdering less →
    (sortSlice less xs).Pairwise (fun p q => less q p = false)

/-- Insertion sort of a whole slice, as a `sort.Slice`. -/
def insertionSlice : SliceSort :=
  fun less xs => insertionSort_func less xs 0 xs.length

/-! ## A decoder for flat front matter

The theorems below hold for every decoder.  To run the program on concrete
files, `flatYaml` decodes the blocks of the file format contract, plain
`key: value` lines, the way `yaml.v2` decodes them into the two structs: keys
are the lower-cased field names, a key the struct does not have is ignored, a
missing key leaves the zero value, and a `date` that is not a calendar date
cannot be stored in a `time.Time`. -/

/-- Space, tab or carriage return. -/
def isBlank (c : Char) : Bool := c = ' ' ∨ c = '\t' ∨ c = '\r'

/-- A text without its leading and trailing blanks. -/
def trimBlank (s : List Char) : List Char :=
  ((s.dropWhile isBlank).reverse.dropWhile isBlank).reverse

/-- The lines of a text. -/
def textLines : List Char → List (List Char)
  | [] => [[]]
  | c :: s =>
    if c = '\n' then [] :: textLines s
    else
      match textLines s with
      | [] => [[c]]
      | l :: ls => (c :: l) :: ls

/-- One line of a flat mapping: nothing for a blank line or a comment, else the
key and the value around the first colon, which must end the line or be followed
by a space. -/
def keyValue (line : List Char) : Except String (Option (List Char × List Char)) :=
  let t := trimBlank line
  if t = [] ∨ t.head? = some '#' then .ok none
  else
    match Index t [':'] with
    | none => .error "yaml: cannot unmarshal !!str into struct"
    | some m =>
      let rest := t.drop (m + 1)
      if rest = [] ∨ rest.head? = some ' ' then .ok (some (trimBlank (t.take m), trimBlank rest))
      else .error "yaml: cannot unmarshal !!str into struct"

/-- The number written by a non-empty run of decimal digits. -/
def digitsValue (s : List Char) : Option Nat :=
  if s ≠ [] ∧ s.all Char.isDigit then
    some (s.foldl (fun n c => 10 * n + (c.toNat - '0'.toNat)) 0)
  else none

/-- Days from 1970-01-01 to the given date of the proleptic Gregorian calendar. -/
def daysFromCivil (y m d : Int) : Int :=
  let y1 := if m ≤ 2 then y - 1 else y
  let era := y1 / 400
  let yoe := y1 - era * 400
  let mp := if m > 2 then m - 3 else m + 9
  let doy := (153 * mp + 2) / 5 + d - 1
  let doe := yoe * 365 + yoe / 4 - yoe / 100 + doy
  era * 146097 + doe - 719468

/-- The length of a month. -/
def daysInMonth (y m : Nat) : Nat :=
  if m = 2 then (if y % 4 = 0 ∧ (y % 100 ≠ 0 ∨ y % 400 = 0) then 29 else 28)
  else if m = 4 ∨ m = 6 ∨ m = 9 ∨ m = 11 then 30 else 31

/-- A timestamp in the date-only form `YYYY-MM-DD`, at midnight UTC. -/
def parseDate (v : List Char) : Option Time :=
  match v with
  | [y1, y2, y3, y4, '-', m1, m2, '-', d1, d2] =>
    match digitsValue [y1, y2, y3, y4], digitsValue [m1, m2], digitsValue [d1, d2] with
    | some y, some m, some d =>
      if 1 ≤ m ∧ m ≤ 12 ∧ 1 ≤ d ∧ d ≤ daysInMonth y m then
        some (daysFromCivil y m d * 86400)
      else none
    | _, _, _ => none
  | _ => none

/-- The zero `time.Time`: January 1 of year 1, 00:00 UTC. -/
def zeroTime : Time := -62135596800

/-- The zero `BlogPost`. -/
def zeroPost : BlogPost := ⟨[], zeroTime, [], [], [], []⟩

/-- One key of the mapping stored into a `BlogPost`. -/
def setPostField (p : BlogPost) (k v : List Char) : Except String BlogPost :=
  if k = "title".toList then .ok { p with Title := v }
  else if k = "date".toList then
    if v = [] then .ok p
    else
      match parseDate v with
      | some t => .ok { p with Date := t }
      | none => .error "yaml: cannot unmarshal !!str into time.Time"
  else if k = "description".toList then .ok { p with Description := v }
  else if k = "image".toList then .ok { p with Image := v }
  else if k = "filename".toList then .ok { p with FileName := v }
  else if k = "content".toList then .ok { p with Content := v }
  else .ok p

/-- One key of the mapping stored into the `metaData` struct. -/
def setMetaField (p : MetaData) (k v : List Char) : MetaData :=
  if k = "title".toList then { p with Title := v }
  else if k = "description".toList then { p with Description := v }
  else if k = "image".toList then { p with Image := v }
  else p

/-- The lines of a block decoded one after the other into a struct. -/
def decodeLines {α : Type} (set : α → List Char → List Char → Except String α) :
    α → List (List Char) → Except String α
  | a, [] => .ok a
  | a, l :: ls =>
    match keyValue l with
    | .error e => .error e
    | .ok none => decodeLines set a ls
    | .ok (some (k, v)) =>
      match set a k v with
      | .error e => .error e
      | .ok a1 => decodeLines set a1 ls

/-- The decoder for flat front matter. -/
def flatYaml : Yaml where
  unmarshalPost := fun s => decodeLines setPostField zeroPost (textLines s)
  unmarshalMeta := fun s =>
    decodeLines (fun p k v => .ok (setMetaField p k v)) ⟨[], [], []⟩ (textLines s)

/-! ## Sample collaborators and files -/

/-- A renderer that returns its input unchanged. -/
def plainMarkdown : Markdown := fun s => s

/-- A template set that parses and whose execution writes nothing and succeeds. -/
def quietTemplates : Templates where
  parseFiles := fun _ => true
  executeTemplate := fun _ _ => ([], none)

/-- A post with a well-formed fence structure whose `date` is not a date. -/
def badDateFile : List Char :=
  "---\ntitle: Hello\ndate: tomorrow\n---\n# Hi\n".toList

/-- A valid post. -/
def helloFile : List Char :=
  "---\ntitle: Hello\ndate: 2024-06-01\n---\n# Hi\n".toList

/-- A valid post preceded by text before its first fence. -/
def preambleFile : List Char :=
  "draft\n---\ntitle: Hello\n---\n# Hi\n".toList

/-- A file with a single fence. -/
def oneFenceFile : List Char :=
  "---\ntitle: Hello\n".toList

/-- A file system that holds one file, at the given path. -/
def singleFile (path content : List Char) : List Char → Except String (List Char) :=
  fun p => if p = path then .ok content else .error "no such file or directory"

/-! ## Kinds of visited files -/

/-- A visit to a readable `.md` file whose content splits into fewer than three
parts on the fence. -/
def Visit.malformed (v : Visit) : Bool :=
  v.err.isNone && !v.info.isDir && HasSuffix v.info.name mdExt &&
    match v.read with
    | .ok c => decide ((splitFrontMatter c).length < 3)
    | .error _ => false

/-- A visit to a readable `.md` file with at least three fence segments whose
metadata segment fails to decode. -/
def Visit.badMetadata (Y : Yaml) (v : Visit) : Bool :=
  v.err.isNone && !v.info.isDir && HasSuffix v.info.name mdExt &&
    match v.read with
    | .ok c =>
      decide (3 ≤ (splitFrontMatter c).length) &&
        match Y.unmarshalPost ((splitFrontMatter c).getD 1 []) with
        | .error _ => true
        | .ok _ => false
    | .error _ => false

/-- The visit `filepath.Walk` makes to a readable file. -/
def fileVisit (path name content : List Char) : Visit :=
  ⟨path, ⟨name, false⟩, none, .ok content⟩

/-- A directory `posts` with a valid post `a.md` followed by `b.md`, whose date
does not decode. -/
def goodThenBadTree : FsNode :=
  .dir [("a.md".toList, .file (.ok helloFile)), ("b.md".toList, .file (.ok badDateFile))]

/-- A directory `posts` whose only post starts with text before the first fence. -/
def preambleTree : FsNode :=
  .dir [("draft.md".toList, .file (.ok preambleFile))]

/-- A working directory whose only post lies in a subdirectory:
`posts/notes/trip.md`. -/
def nestedTree : FsNode :=
  .dir [("posts".toList,
    .dir [("notes".toList, .dir [("trip.md".toList, .file (.ok helloFile))])])]

/-! ## Insertion from the back -/

/-- Insertion of `x` into a list given back to front: `x` passes every element it
is less than and stops before the first one it is not less than. -/
def insertRev {α : Type} (less : α → α → Bool) (x : α) : List α → List α
  | [] => [x]
  | y :: t => if less x y then y :: insertRev less x t else x :: y :: t

/-- What one round of the outer loop of `insertionSort_func` does to the sorted
front of the slice: `x` is inserted from the back. -/
def insertBack {α : Type} (less : α → α → Bool) (x : α) (front : List α) : List α :=
  (insertRev less x front.reverse).reverse

/-! ## Sample listings -/

/-- A post file with the given title and date and an empty body. -/
def postFile (title date : String) : List Char :=
  "---\ntitle: ".toList ++ title.toList ++ "\ndate: ".toList ++ date.toList ++ "\n---\n".toList

/-- The document the listing builds from `postFile` stored under `slug.md`. -/
def postDoc (title : String) (date : Time) (slug : String) : BlogPost :=
  ⟨title.toList, date, [], [], slug.toList, "\n".toList⟩

/-- A directory `posts` of four posts, scanned in the order `a`, `b`, `c`, `d`,
with the dates 2023-01-01, 2024-06-01, 2024-06-01 and 2020-01-01. -/
def fourPostsTree : FsNode :=
  .dir [("a.md".toList, .file (.ok (postFile "A" "2023-01-01"))),
        ("b.md".toList, .file (.ok (postFile "B" "2024-06-01"))),
        ("c.md".toList, .file (.ok (postFile "C" "2024-06-01"))),
        ("d.md".toList, .file (.ok (postFile "D" "2020-01-01")))]

/-- A directory `posts` of thirteen posts, scanned in the order `p01` to `p13`:
the first two are dated 2023-01-01, the other eleven 2024-06-01. -/
def thirteenPostsTree : FsNode :=
  .dir [("p01.md".toList, .file (.ok (postFile "P01" "2023-01-01"))),
        ("p02.md".toList, .file (.ok (postFile "P02" "2023-01-01"))),
        ("p03.md".toList, .file (.ok (postFile "P03" "2024-06-01"))),
        ("p04.md".toList, .file (.ok (postFile "P04" "2024-06-01"))),
        ("p05.md".toList, .file (.ok (postFile "P05" "2024-06-01"))),
        ("p06.md".toList, .file (.ok (postFile "P06" "2024-06-01"))),
        ("p07.md".toList, .file (.ok (postFile "P07" "2024-06-01"))),
        ("p08.md".toList, .file (.ok (postFile "P08" "2024-06-01"))),
        ("p09.md".toList, .file (.ok (postFile "P09" "2024-06-01"))),
        ("p10.md".toList, .file (.ok (postFile "P10" "2024-06-01"))),
        ("p11.md".toList, .file (.ok (postFile "P11" "2024-06-01"))),
        ("p12.md".toList, .file (.ok (postFile "P12" "2024-06-01"))),
        ("p13.md".toList, .file (.ok (postFile "P13" "2024-06-01")))]

/-- The titles of the posts in the view data of a reply, in order. -/
def Reply.postTitles (reply : Reply) : Option (List (List Char)) :=
  match reply.viewData with
  | some data =>
    match data.lookup "Posts" with
    | some (.posts ps) => some (ps.map (·.Title))
    | _ => none
  | none => none

/-! ## Specification of in-place sorting on a range -/

/-- The slice `data2` is a rearrangement of `data` that leaves every position
outside `[a, b)` as it was. -/
def RangePerm {α : Type} (data data2 : List α) (a b : Nat) : Prop :=
  data2.Perm data ∧ ∀ i, (i < a ∨ b ≤ i) → data2[i]? = data[i]?

/-- No element of `data[a:b]` is less than one before it in that range. -/
def SortedRange {α : Type} (less : α → α → Bool) (data : List α) (a b : Nat) : Prop :=
  ∀ i j x y, a ≤ i → i < j → j < b → data[i]? = some x → data[j]? = some y →
    less y x = false

/-- Every element of `data[a:b]` satisfies `P`. -/
def RangeAll {α : Type} (P : α → Prop) (data : List α) (a b : Nat) : Prop :=
  ∀ i x, a ≤ i → i < b → data[i]? = some x → P x

/-- The element just before the range, if there is one, is not greater than any
element of `data[a:b]`: what `pdqsort_func` relies on when it compares with
`data[a-1]`. -/
def LowerBound {α : Type} (less : α → α → Bool) (data : List α) (a b : Nat) : Prop :=
  ∀ w, 0 < a → data[a - 1]? = some w → RangeAll (fun x => less x w = false) data a b

/-- The postcondition of `partition_func`: `data[mid]` is the pivot, everything
before it in the range is less than the pivot and nothing after it is. -/
def Partitioned {α : Type} (less : α → α → Bool) (data : List α) (a mid b : Nat) : Prop :=
  ∃ p, data[mid]? = some p ∧
    RangeAll (fun x => less x p = true) data a mid ∧
    RangeAll (fun x => less x p = false) data (mid + 1) b

/-- In the heap stored in `data[first : first + n]`, node `i` is not less than
either of its children `2i+1` and `2i+2`. -/
def HeapAt {α : Type} (less : α → α → Bool) (data : List α) (first n i : Nat) : Prop :=
  ∀ c, (c = 2 * i + 1 ∨ c = 2 * i + 2) → c < n →
    lessAt less data (first + i) (first + c) = false

/-- Every element of `data[a:m]` is not greater than any element of `data[m:b]`. -/
def RangeLe {α : Type} (less : α → α → Bool) (data : List α) (a m b : Nat) : Prop :=
  ∀ i j x y, a ≤ i → i < m → m ≤ j → j < b → data[i]? = some x → data[j]? = some y →
    less y x = false

/-! ## Splitting on the fence -/


theorem Index_nil (sep : List Char) : Index [] sep = if sep = [] then some 0 else none := by
  cases sep <;> simp [Index]

theorem prefix_append_of_length_le {sep x : List Char} (r : List Char)
    (h : sep.length ≤ x.length) : sep <+: x ++ r ↔ sep <+: x := by
  rw [List.prefix_iff_eq_take, List.prefix_iff_eq_take, List.take_append_of_le_length h]

/-- The result of `Index` is the least position at which `sep` starts. -/
theorem Index_eq_some_iff (s sep : List Char) (m : Nat) :
    Index s sep = some m ↔
      (sep <+: s.drop m ∧ m ≤ s.length ∧ ∀ j, j < m → ¬ sep <+: s.drop j) := by
  induction s generalizing m with
  | nil =>
    rw [Index_nil]
    constructor
    · intro h
      split at h
      · next hs => cases h; subst hs; simp
      · cases h
    · rintro ⟨h1, h2, -⟩
      have hm : m = 0 := by simpa using h2
      subst hm
      have : sep = [] := by simpa using h1
      simp [this]
  | cons c s ih =>
    unfold Index
    by_cases hp : sep.isPrefixOf (c :: s) = true
    · rw [if_pos hp]
      have hp2 : sep <+: c :: s := List.isPrefixOf_iff_prefix.mp hp
      constructor
      · intro h; cases h; simp [hp2]
      · rintro ⟨-, -, h3⟩
        cases m with
        | zero => rfl
        | succ k => exact absurd hp2 (by simpa using h3 0 (Nat.succ_pos k))
    · rw [if_neg hp]
      have hp2 : ¬ sep <+: c :: s := fun h => hp (List.isPrefixOf_iff_prefix.mpr h)
      cases m with
      | zero =>
        constructor
        · intro h
          cases hI : Index s sep <;> simp [hI] at h
        · rintro ⟨h1, -, -⟩
          exact absurd (by simpa using h1) hp2
      | succ k =>
        have := ih k
        constructor
        · intro h
          have hk : Index s sep = some k := by
            cases hI : Index s sep with
            | none => simp [hI] at h
            | some v => simp [hI] at h; simp [h]
          obtain ⟨a1, a2, a3⟩ := (ih k).mp hk
          refine ⟨by simpa using a1, by simpa using a2, ?_⟩
          intro j hj
          cases j with
          | zero => simpa using hp2
          | succ i => simpa using a3 i (by omega)
        · rintro ⟨h1, h2, h3⟩
          have hk : Index s sep = some k := by
            refine (ih k).mpr ⟨by simpa using h1, by simpa using h2, ?_⟩
            intro j hj
            simpa using h3 (j + 1) (by omega)
          simp [hk]

theorem Index_eq_none_iff (s sep : List Char) :
    Index s sep = none ↔ ¬ sep <:+: s := by
  induction s with
  | nil =>
    rw [Index_nil]
    by_cases h : sep = [] <;> simp [h]
  | cons c s ih =>
    unfold Index
    by_cases hp : sep.isPrefixOf (c :: s) = true
    · rw [if_pos hp]
      have hp2 : sep <+: c :: s := List.isPrefixOf_iff_prefix.mp hp
      simp [hp2.isInfix]
    · rw [if_neg hp]
      have hp2 : ¬ sep <+: c :: s := fun h => hp (List.isPrefixOf_iff_prefix.mpr h)
      rw [List.infix_cons_iff]
      simp [hp2, ih]


theorem fence_length : fence.length = 3 := rfl

/-- An occurrence at position `m` cuts the text in three. -/
theorem Index_some_decomp {s sep : List Char} {m : Nat} (h : Index s sep = some m) :
    s = s.take m ++ sep ++ s.drop (m + sep.length) := by
  obtain ⟨h1, -, -⟩ := (Index_eq_some_iff s sep m).mp h
  obtain ⟨t, ht⟩ := h1
  have h2 : s.drop (m + sep.length) = t := by
    rw [← List.drop_drop, ← ht]
    simp
  rw [h2, List.append_assoc, ht, List.take_append_drop]

/-- Any occurrence of `sep` forces `Index` to find one at or before it. -/
theorem Index_of_occurrence (a sep b : List Char) :
    ∃ m, Index (a ++ sep ++ b) sep = some m ∧ m ≤ a.length := by
  cases h : Index (a ++ sep ++ b) sep with
  | none =>
    exact absurd ⟨a, b, rfl⟩ ((Index_eq_none_iff _ _).mp h)
  | some m =>
    refine ⟨m, rfl, ?_⟩
    obtain ⟨-, -, h3⟩ := (Index_eq_some_iff _ _ _).mp h
    by_contra hlt
    exact h3 a.length (by omega) (by simp [List.append_assoc])

/-- Whether the first occurrence sits right after `p` does not depend on what
follows the separator. -/
theorem Index_append_sep_tail {p sep : List Char} (r r2 : List Char)
    (h : Index (p ++ sep ++ r) sep = some p.length) :
    Index (p ++ sep ++ r2) sep = some p.length := by
  obtain ⟨-, -, h3⟩ := (Index_eq_some_iff _ _ _).mp h
  refine (Index_eq_some_iff _ _ _).mpr ⟨by simp [List.append_assoc], by simp, ?_⟩
  intro j hj hpre
  apply h3 j hj
  have e1 : ∀ t, (p ++ sep ++ t).drop j = (p.drop j ++ sep) ++ t := by
    intro t
    rw [List.append_assoc, List.drop_append_of_le_length (by omega), List.append_assoc]
  rw [e1] at hpre ⊢
  have hl : sep.length ≤ (p.drop j ++ sep).length := by simp
  exact (prefix_append_of_length_le r hl).mpr ((prefix_append_of_length_le r2 hl).mp hpre)

theorem Index_take_no_infix {s sep : List Char} {m : Nat} (hs : sep ≠ [])
    (h : Index s sep = some m) : ¬ sep <:+: s.take m := by
  obtain ⟨-, hm, h3⟩ := (Index_eq_some_iff _ _ _).mp h
  rintro ⟨a, b, hab⟩
  have hlen : a.length + sep.length + b.length = m := by
    have := congrArg List.length hab
    simp [List.length_take] at this
    omega
  have hpos : 0 < sep.length := List.length_pos.mpr hs
  apply h3 a.length (by omega)
  have : s = a ++ sep ++ (b ++ s.drop m) := by
    conv_lhs => rw [← List.take_append_drop m s, ← hab]
    simp [List.append_assoc]
  rw [this]
  simp [List.append_assoc]

/-- With fewer than three characters the clamp of `genSplit` is harmless: there
is no fence to find. -/
theorem splitFrontMatter_eq_loop (c : List Char) :
    splitFrontMatter c = splitLoop fence 2 c := by
  unfold splitFrontMatter SplitN genSplit
  have h0 : ¬ ((3 : Int) = 0) := by decide
  have h1 : ¬ (fence = []) := by decide
  have h2 : ¬ ((3 : Int) < 0) := by decide
  simp only [h0, h1, h2, if_false]
  by_cases hc : (3 : Int).toNat > c.length + 1
  · simp only [hc, if_true]
    have hlen : c.length < 2 := by
      have : (3 : Int).toNat = 3 := rfl
      omega
    have hnone : Index c fence = none := by
      rw [Index_eq_none_iff]
      rintro ⟨a, b, hab⟩
      have := congrArg List.length hab
      simp [fence_length] at this
      omega
    have e : ∀ k, splitLoop fence k c = [c] := by
      intro k
      cases k <;> simp [splitLoop, hnone]
    rw [e, e]
  · simp only [hc, if_false]
    rfl


/-- What the two rounds of the splitting loop return, by cases on the two
searches for the fence. -/
theorem splitLoop_two (c : List Char) :
    splitLoop fence 2 c =
      match Index c fence with
      | none => [c]
      | some m =>
        match Index (c.drop (m + 3)) fence with
        | none => [c.take m, c.drop (m + 3)]
        | some k => [c.take m, (c.drop (m + 3)).take k, (c.drop (m + 3)).drop (k + 3)] := by
  unfold splitLoop
  cases h1 : Index c fence with
  | none => rfl
  | some m =>
    simp only [fence_length]
    unfold splitLoop
    cases h2 : Index (c.drop (m + 3)) fence with
    | none => rfl
    | some k => simp [splitLoop, fence_length]

/-- C4. Splitting a file content on the fence `---` into at most three parts
gives three parts exactly when the content holds two non-overlapping fences; the
parts are then cut at the first fence and at the first fence after it, neither
the leading nor the metadata part holds a fence, the body is everything after
the second fence whatever markers it contains, and in every other case fewer
than three parts come back. -/
theorem splitFrontMatter_three_parts (c : List Char) :
    ((splitFrontMatter c).length = 3 ↔ ∃ a b d, c = a ++ fence ++ b ++ fence ++ d) ∧
    ((splitFrontMatter c).length = 3 →
      ∃ p0 p1 p2, splitFrontMatter c = [p0, p1, p2] ∧
        c = p0 ++ fence ++ p1 ++ fence ++ p2 ∧
        Index c fence = some p0.length ∧
        Index (p1 ++ fence ++ p2) fence = some p1.length ∧
        ¬ fence <:+: p0 ∧ ¬ fence <:+: p1 ∧
        ∀ body, splitFrontMatter (p0 ++ fence ++ p1 ++ fence ++ body) = [p0, p1, body]) ∧
    ((splitFrontMatter c).length ≠ 3 →
      1 ≤ (splitFrontMatter c).length ∧ (splitFrontMatter c).length < 3) := by
  have hne : fence ≠ [] := by decide
  -- the shape of the result when both searches succeed
  have key : ∀ m k, Index c fence = some m → Index (c.drop (m + 3)) fence = some k →
      ∃ p0 p1 p2, splitFrontMatter c = [p0, p1, p2] ∧
        c = p0 ++ fence ++ p1 ++ fence ++ p2 ∧
        Index c fence = some p0.length ∧
        Index (p1 ++ fence ++ p2) fence = some p1.length ∧
        ¬ fence <:+: p0 ∧ ¬ fence <:+: p1 ∧
        ∀ body, splitFrontMatter (p0 ++ fence ++ p1 ++ fence ++ body) = [p0, p1, body] := by
    intro m k h1 h2
    have d1 := Index_some_decomp h1
    have d2 := Index_some_decomp h2
    rw [fence_length] at d1 d2
    obtain ⟨-, hm, -⟩ := (Index_eq_some_iff _ _ _).mp h1
    obtain ⟨-, hk, -⟩ := (Index_eq_some_iff _ _ _).mp h2
    have l0 : (c.take m).length = m := by simp [hm]
    have l1 : ((c.drop (m + 3)).take k).length = k := by
      rw [List.length_take]; exact Nat.min_eq_left hk
    have e2 : (c.drop (m + 3)).take k ++ fence ++ (c.drop (m + 3)).drop (k + 3)
        = c.drop (m + 3) := d2.symm
    have i1 : Index (c.take m ++ fence ++ c.drop (m + 3)) fence = some (c.take m).length := by
      rw [← d1, l0]; exact h1
    have i2 : Index ((c.drop (m + 3)).take k ++ fence ++ (c.drop (m + 3)).drop (k + 3)) fence
        = some ((c.drop (m + 3)).take k).length := by
      rw [e2, l1]; exact h2
    refine ⟨c.take m, (c.drop (m + 3)).take k, (c.drop (m + 3)).drop (k + 3), ?_, ?_, ?_, i2,
      Index_take_no_infix hne h1, Index_take_no_infix hne h2, ?_⟩
    · rw [splitFrontMatter_eq_loop, splitLoop_two, h1]
      simp only [h2]
    · conv_lhs => rw [d1]
      conv_lhs => rw [d2]
      simp [List.append_assoc]
    · rw [l0]; exact h1
    · intro body
      set p0 := c.take m
      set p1 := (c.drop (m + 3)).take k
      have j1 : Index (p0 ++ fence ++ (p1 ++ fence ++ body)) fence = some p0.length :=
        Index_append_sep_tail _ _ i1
      have j2 : Index (p1 ++ fence ++ body) fence = some p1.length :=
        Index_append_sep_tail _ _ i2
      have dr : (p0 ++ fence ++ (p1 ++ fence ++ body)).drop (p0.length + 3)
          = p1 ++ fence ++ body := by
        rw [show p0.length + 3 = (p0 ++ fence).length by simp [fence_length]]
        exact List.drop_left _ _
      have tk : (p0 ++ fence ++ (p1 ++ fence ++ body)).take p0.length = p0 := by
        rw [List.append_assoc]; exact List.take_left _ _
      have e : p0 ++ fence ++ p1 ++ fence ++ body = p0 ++ fence ++ (p1 ++ fence ++ body) := by
        simp [List.append_assoc]
      rw [e, splitFrontMatter_eq_loop, splitLoop_two, j1]
      simp only [dr, j2, tk]
      have tk2 : (p1 ++ fence ++ body).take p1.length = p1 := by
        rw [List.append_assoc]; exact List.take_left _ _
      have dr2 : (p1 ++ fence ++ body).drop (p1.length + 3) = body := by
        rw [show p1.length + 3 = (p1 ++ fence).length by simp [fence_length]]
        exact List.drop_left _ _
      rw [tk2, dr2]
  have len3 : (splitFrontMatter c).length = 3 →
      ∃ m k, Index c fence = some m ∧ Index (c.drop (m + 3)) fence = some k := by
    intro h
    rw [splitFrontMatter_eq_loop, splitLoop_two] at h
    cases h1 : Index c fence with
    | none => simp [h1] at h
    | some m =>
      cases h2 : Index (c.drop (m + 3)) fence with
      | none => simp [h1, h2] at h
      | some k => exact ⟨m, k, rfl, h2⟩
  refine ⟨⟨?_, ?_⟩, ?_, ?_⟩
  · intro h
    obtain ⟨m, k, h1, h2⟩ := len3 h
    obtain ⟨p0, p1, p2, -, hc, -⟩ := key m k h1 h2
    exact ⟨p0, p1, p2, hc⟩
  · rintro ⟨a, b, d, hc⟩
    have hc2 : c = a ++ fence ++ (b ++ fence ++ d) := by simp [hc, List.append_assoc]
    obtain ⟨m, h1, hma⟩ := Index_of_occurrence a fence (b ++ fence ++ d)
    rw [← hc2] at h1
    -- the second fence lies in what follows the first cut
    have hdrop : c.drop (m + 3) = (c.drop (m + 3)).take (a.length + b.length - m) ++ fence ++ d := by
      have hl : c.length = a.length + 3 + b.length + 3 + d.length := by
        rw [hc]; simp [fence_length]; omega
      have e1 : c.drop (m + 3) =
          (c.drop (m + 3)).take (a.length + b.length - m) ++
            (c.drop (m + 3)).drop (a.length + b.length - m) :=
        (List.take_append_drop _ _).symm
      have e2 : (c.drop (m + 3)).drop (a.length + b.length - m) = fence ++ d := by
        rw [List.drop_drop]
        have : m + 3 + (a.length + b.length - m) = (a ++ fence ++ b).length := by
          simp [fence_length]; omega
        have hc3 : c = (a ++ fence ++ b) ++ (fence ++ d) := by simp [hc, List.append_assoc]
        rw [this]
        conv_lhs => rw [hc3]
        exact List.drop_left _ _
      rw [e2] at e1
      rw [List.append_assoc]
      exact e1
    obtain ⟨k, h2, -⟩ := Index_of_occurrence
      ((c.drop (m + 3)).take (a.length + b.length - m)) fence d
    rw [← hdrop] at h2
    obtain ⟨p0, p1, p2, hs, -⟩ := key m k h1 h2
    rw [hs]; rfl
  · intro h
    obtain ⟨m, k, h1, h2⟩ := len3 h
    exact key m k h1 h2
  · intro h
    rw [splitFrontMatter_eq_loop, splitLoop_two] at h ⊢
    cases h1 : Index c fence with
    | none => simp
    | some m =>
      cases h2 : Index (c.drop (m + 3)) fence with
      | none => simp [h2]
      | some k => simp [h1, h2] at h


/-! ## The direct fetch -/

/-- A split on the fence never has more than three parts. -/
theorem splitFrontMatter_length_le (c : List Char) : (splitFrontMatter c).length ≤ 3 := by
  by_cases h : (splitFrontMatter c).length = 3
  · omega
  · have := ((splitFrontMatter_three_parts c).2.2 h).2
    omega

/-- A split that is not short has exactly three parts. -/
theorem splitFrontMatter_cases (c : List Char) :
    (splitFrontMatter c).length < 3 ∨ ∃ p0 p1 p2, splitFrontMatter c = [p0, p1, p2] := by
  by_cases h : (splitFrontMatter c).length = 3
  · right
    obtain ⟨p0, p1, p2, hs, -⟩ := (splitFrontMatter_three_parts c).2.1 h
    exact ⟨p0, p1, p2, hs⟩
  · left
    exact ((splitFrontMatter_three_parts c).2.2 h).2

/-- C1, as the code has it. `BlogContentHandler` answers by the first matching
case of: 404 for an empty post name; 404 when reading `posts/<name>.md` fails;
500 when the content splits into fewer than three parts; 500 when the metadata
part fails to decode into the handler's own struct (title, description and
image, not the date); otherwise it parses the templates and executes
`base.html` with the title, the page type `blogpost` and the rendered body. -/
theorem BlogContentHandler_first_matching_case (Y : Yaml) (md : Markdown) (T : Templates)
    (readFile : List Char → Except String (List Char)) (r : Request) :
    (TrimPrefix r.path "/content/".toList = [] →
      BlogContentHandler Y md T readFile r = .notFound ∧
      (BlogContentHandler Y md T readFile r).status = 404) ∧
    (TrimPrefix r.path "/content/".toList ≠ [] →
      (∀ e, readFile (Join ["posts".toList, TrimPrefix r.path "/content/".toList ++ mdExt])
          = .error e →
        BlogContentHandler Y md T readFile r = .error "File not found." 404) ∧
      (∀ c, readFile (Join ["posts".toList, TrimPrefix r.path "/content/".toList ++ mdExt])
          = .ok c →
        ((splitFrontMatter c).length < 3 →
          BlogContentHandler Y md T readFile r = .error "Error processing blog post." 500) ∧
        (∀ p0 p1 p2, splitFrontMatter c = [p0, p1, p2] →
          (∀ e, Y.unmarshalMeta p1 = .error e →
            BlogContentHandler Y md T readFile r = .error "Error processing metadata" 500) ∧
          (∀ m, Y.unmarshalMeta p1 = .ok m →
            BlogContentHandler Y md T readFile r =
              if T.parseFiles contentTemplates = false then
                .error "Error loading template" 500
              else
                execute T
                  [("Title", .str m.Title), ("PageType", .str "blogpost".toList),
                   ("Content", .html (md p2))]
                  "Error rendering template")))) := by
  refine ⟨?_, ?_⟩
  · intro h
    simp only [BlogContentHandler, h, if_true, Reply.status, and_self]
  · intro h
    refine ⟨?_, ?_⟩
    · intro e he
      simp only [BlogContentHandler, h, if_false, contentFilePath, he]
    · intro c hc
      refine ⟨?_, ?_⟩
      · intro hl
        have hl2 : (SplitN c fence 3).length < 3 := hl
        simp only [BlogContentHandler, h, if_false, contentFilePath, hc, hl2, if_true]
      · intro p0 p1 p2 hs
        have hs2 : SplitN c fence 3 = [p0, p1, p2] := hs
        have hl : ¬ ([p0, p1, p2].length < 3) := by simp
        have g1 : [p0, p1, p2].getD 1 [] = p1 := rfl
        have g2 : [p0, p1, p2].getD 2 [] = p2 := rfl
        refine ⟨?_, ?_⟩
        · intro e he
          simp only [BlogContentHandler, h, if_false, contentFilePath, hc, hs2, hl, g1, he]
        · intro m hm
          simp only [BlogContentHandler, h, if_false, contentFilePath, hc, hs2, hl, g1, g2, hm]

/-- C1, as the claim states it, fails: the metadata of `badDateFile` does not
decode into the document's fields (its date is not a date), yet the direct fetch
does not answer 500; it executes the page template and the response is a 200. -/
theorem BlogContentHandler_renders_bad_date :
    TrimPrefix "/content/hello".toList "/content/".toList ≠ [] ∧
    singleFile "posts/hello.md".toList badDateFile
        (Join ["posts".toList, TrimPrefix "/content/hello".toList "/content/".toList ++ mdExt])
      = .ok badDateFile ∧
    splitFrontMatter badDateFile
      = ["".toList, "\ntitle: Hello\ndate: tomorrow\n".toList, "\n# Hi\n".toList] ∧
    flatYaml.unmarshalPost "\ntitle: Hello\ndate: tomorrow\n".toList
      = .error "yaml: cannot unmarshal !!str into time.Time" ∧
    BlogContentHandler flatYaml plainMarkdown quietTemplates
        (singleFile "posts/hello.md".toList badDateFile)
        (Request.received "/content/hello".toList [])
      = .executed
          [("Title", .str "Hello".toList), ("PageType", .str "blogpost".toList),
           ("Content", .html "\n# Hi\n".toList)] [] none ∧
    (BlogContentHandler flatYaml plainMarkdown quietTemplates
        (singleFile "posts/hello.md".toList badDateFile)
        (Request.received "/content/hello".toList [])).status = 200 := by
  refine ⟨by decide, by rfl, by decide, by rfl, by rfl, by rfl⟩

/-! ## The listing -/

/-- The callback appends to the posts it is given: its result on any state is its
result on the empty state, put after that state. -/
theorem loadWalkFn_append (Y : Yaml) (md : Markdown) (posts : List BlogPost) (v : Visit) :
    loadWalkFn Y md posts v =
      (posts ++ (loadWalkFn Y md [] v).1, (loadWalkFn Y md [] v).2) := by
  unfold loadWalkFn
  cases v.err with
  | some e => simp
  | none =>
    by_cases hmd : (!v.info.isDir && HasSuffix v.info.name mdExt) = true
    · simp only [hmd, if_true]
      cases v.read with
      | error e => simp
      | ok c =>
        by_cases hl : (SplitN c fence 3).length < 3
        · simp [hl]
        · simp only [hl, if_false]
          cases Y.unmarshalPost ((SplitN c fence 3).getD 1 []) with
          | error e => simp
          | ok post => simp
    · simp [hmd]

/-- A malformed file leaves the posts alone and reports no error. -/
theorem loadWalkFn_malformed (Y : Yaml) (md : Markdown) (posts : List BlogPost) (v : Visit)
    (h : v.malformed = true) : loadWalkFn Y md posts v = (posts, none) := by
  unfold Visit.malformed at h
  simp only [Bool.and_eq_true] at h
  obtain ⟨⟨⟨h1, h2⟩, h3⟩, h4⟩ := h
  have he : v.err = none := by simpa using h1
  unfold loadWalkFn
  simp only [he, h2, h3, Bool.and_self, if_true]
  cases hr : v.read with
  | error e => simp [hr] at h4
  | ok c =>
    simp only [hr, decide_eq_true_eq] at h4
    have h5 : (SplitN c fence 3).length < 3 := h4
    simp [h5]

theorem runWalk_filter_malformed (Y : Yaml) (md : Markdown) (posts : List BlogPost)
    (visits : List Visit) :
    runWalk (loadWalkFn Y md) posts visits =
      runWalk (loadWalkFn Y md) posts (visits.filter (fun v => !v.malformed)) := by
  induction visits generalizing posts with
  | nil => rfl
  | cons v vs ih =>
    by_cases hm : v.malformed = true
    · simp only [List.filter_cons, hm, Bool.not_true, Bool.false_eq_true, if_false]
      rw [← ih]
      simp only [runWalk, loadWalkFn_malformed Y md posts v hm]
    · have hm2 : v.malformed = false := by simpa using hm
      simp only [List.filter_cons, hm2, Bool.not_false, if_true, runWalk]
      rcases hv : loadWalkFn Y md posts v with ⟨s1, _ | e⟩
      · simp only [ih]
      · rfl

/-- C2. A readable `.md` file that splits into fewer than three segments
contributes neither a document nor an error: loading any sequence of visits
gives the same documents and the same error as loading it with those files
removed, for `LoadBlogPosts` on any directory as well; and one such file plus
two valid files, wherever it stands among them, load as exactly the two valid
documents and no error. -/
theorem loadVisits_skips_malformed (Y : Yaml) (md : Markdown) :
    (∀ visits, loadVisits Y md visits
        = loadVisits Y md (visits.filter (fun v => !v.malformed))) ∧
    (∀ node postsDir, LoadBlogPosts Y md node postsDir
        = loadVisits Y md ((Walk postsDir node).filter (fun v => !v.malformed))) ∧
    (∀ m v1 v2 d1 d2, m.malformed = true →
      loadWalkFn Y md [] v1 = ([d1], none) → loadWalkFn Y md [] v2 = ([d2], none) →
      loadVisits Y md [m, v1, v2] = ([d1, d2], none) ∧
      loadVisits Y md [v1, m, v2] = ([d1, d2], none) ∧
      loadVisits Y md [v1, v2, m] = ([d1, d2], none)) := by
  refine ⟨fun visits => runWalk_filter_malformed Y md [] visits,
    fun node postsDir => runWalk_filter_malformed Y md [] _, ?_⟩
  intro m v1 v2 d1 d2 hm h1 h2
  have e2 : loadWalkFn Y md [d1] v2 = ([d1, d2], none) := by
    rw [loadWalkFn_append, h2]; rfl
  refine ⟨?_, ?_, ?_⟩
  · simp only [loadVisits, runWalk, loadWalkFn_malformed Y md _ m hm, h1, e2]
  · simp only [loadVisits, runWalk, loadWalkFn_malformed Y md _ m hm, h1, e2]
  · simp only [loadVisits, runWalk, loadWalkFn_malformed Y md _ m hm, h1, e2]

/-- An instance of C2 on files: a one-fence file between two valid posts. -/
theorem loadVisits_skips_malformed_example :
    (fileVisit "posts/b.md".toList "b.md".toList oneFenceFile).malformed = true ∧
    loadVisits flatYaml plainMarkdown
      [fileVisit "posts/a.md".toList "a.md".toList helloFile,
       fileVisit "posts/b.md".toList "b.md".toList oneFenceFile,
       fileVisit "posts/c.md".toList "c.md".toList preambleFile]
      = ([⟨"Hello".toList, 1717200000, [], [], "a".toList, "\n# Hi\n".toList⟩,
          ⟨"Hello".toList, zeroTime, [], [], "c".toList, "\n# Hi\n".toList⟩], none) :=
  ⟨by decide,
   ((loadVisits_skips_malformed flatYaml plainMarkdown).2.2 _ _ _ _ _
      (by decide) (by rfl) (by rfl)).2.1⟩

/-- A file with bad metadata makes the callback return an error and leave the
posts as they are. -/
theorem loadWalkFn_badMetadata (Y : Yaml) (md : Markdown) (posts : List BlogPost) (v : Visit)
    (h : v.badMetadata Y = true) : ∃ e, loadWalkFn Y md posts v = (posts, some e) := by
  unfold Visit.badMetadata at h
  simp only [Bool.and_eq_true] at h
  obtain ⟨⟨⟨h1, h2⟩, h3⟩, h4⟩ := h
  have he : v.err = none := by simpa using h1
  unfold loadWalkFn
  simp only [he, h2, h3, Bool.and_self, if_true]
  cases hr : v.read with
  | error e => simp [hr] at h4
  | ok c =>
    rw [hr] at h4
    have h4b := (Bool.and_eq_true _ _).mp h4
    obtain ⟨h5a, h6⟩ := h4b
    have h5 : 3 ≤ (splitFrontMatter c).length := of_decide_eq_true h5a
    have h7 : ¬ (SplitN c fence 3).length < 3 := by
      have : 3 ≤ (SplitN c fence 3).length := h5
      omega
    simp only [h7, if_false]
    have h8 : Y.unmarshalPost ((SplitN c fence 3).getD 1 []) =
        Y.unmarshalPost ((splitFrontMatter c).getD 1 []) := rfl
    rw [h8]
    cases hu : Y.unmarshalPost ((splitFrontMatter c).getD 1 []) with
    | error e => exact ⟨e, rfl⟩
    | ok p =>
      rw [hu] at h6
      exact absurd h6 Bool.false_ne_true

/-- An error of the callback leaves the posts as they are. -/
theorem loadWalkFn_error_state (Y : Yaml) (md : Markdown) (posts posts1 : List BlogPost)
    (v : Visit) (e : String) (h : loadWalkFn Y md posts v = (posts1, some e)) :
    posts1 = posts := by
  rw [loadWalkFn_append] at h
  have h2 := (Prod.mk.injEq _ _ _ _).mp h
  unfold loadWalkFn at h2
  revert h2
  cases v.err with
  | some e1 => simp; intro h _; exact h.symm
  | none =>
    by_cases hmd : (!v.info.isDir && HasSuffix v.info.name mdExt) = true
    · simp only [hmd, if_true]
      cases v.read with
      | error e1 => simp; intro h _; exact h.symm
      | ok c =>
        by_cases hl : (SplitN c fence 3).length < 3
        · simp [hl]
        · simp only [hl, if_false]
          cases Y.unmarshalPost ((SplitN c fence 3).getD 1 []) with
          | error e1 => simp; intro h _; exact h.symm
          | ok post => simp
    · simp [hmd]

/-- A walk that ends in an error stopped at one visit: the visits before it ran
without error and produced the posts that are returned. -/
theorem runWalk_error_split (Y : Yaml) (md : Markdown) (posts0 posts : List BlogPost)
    (visits : List Visit) (e : String)
    (h : runWalk (loadWalkFn Y md) posts0 visits = (posts, some e)) :
    ∃ before v after, visits = before ++ v :: after ∧
      runWalk (loadWalkFn Y md) posts0 before = (posts, none) ∧
      loadWalkFn Y md posts v = (posts, some e) := by
  induction visits generalizing posts0 with
  | nil => simp [runWalk] at h
  | cons v vs ih =>
    simp only [runWalk] at h
    rcases hv : loadWalkFn Y md posts0 v with ⟨s1, _ | e1⟩
    · rw [hv] at h
      obtain ⟨before, w, after, h1, h2, h3⟩ := ih s1 h
      refine ⟨v :: before, w, after, by rw [h1]; rfl, ?_, h3⟩
      simp only [runWalk, hv]
      exact h2
    · rw [hv] at h
      have hs : s1 = posts0 := loadWalkFn_error_state Y md posts0 s1 v e1 hv
      have h2 := (Prod.mk.injEq _ _ _ _).mp h
      obtain ⟨h3, h4⟩ := h2
      have h5 : e1 = e := by simpa using h4
      subst hs h5
      subst h3
      exact ⟨[], v, vs, rfl, rfl, hv⟩

/-- A walk that meets a file with bad metadata ends in an error. -/
theorem runWalk_badMetadata (Y : Yaml) (md : Markdown) (posts0 : List BlogPost)
    (visits : List Visit) (h : ∃ v ∈ visits, v.badMetadata Y = true) :
    ∃ e, (runWalk (loadWalkFn Y md) posts0 visits).2 = some e := by
  induction visits generalizing posts0 with
  | nil => simp at h
  | cons v vs ih =>
    simp only [runWalk]
    rcases hv : loadWalkFn Y md posts0 v with ⟨s1, _ | e1⟩
    · obtain ⟨w, hw, hb⟩ := h
      rcases List.mem_cons.mp hw with rfl | hw2
      · obtain ⟨e, he⟩ := loadWalkFn_badMetadata Y md posts0 w hb
        rw [he] at hv
        simp at hv
      · exact ih s1 ⟨w, hw2, hb⟩
    · exact ⟨e1, rfl⟩

/-! ## A file whose metadata does not decode -/

/-- C3, as the code has it. When some visited `.md` file has at least three
fence segments and a metadata segment that fails to decode, `LoadBlogPosts`
returns a non-nil error; the slice it returns beside the error holds exactly the
documents of the files visited before the visit that failed, and none of those
after it; `BlogListHandler` discards that slice and answers 500 with no
listing. -/
theorem LoadBlogPosts_bad_metadata_fails (Y : Yaml) (md : Markdown) (T : Templates)
    (sortSlice : SliceSort) (node : FsNode) (r : Request)
    (h : ∃ v ∈ Walk "posts".toList node, v.badMetadata Y = true) :
    (∃ e, (LoadBlogPosts Y md node "posts".toList).2 = some e) ∧
    BlogListHandler Y md T sortSlice node r = .error "Error loading blog posts" 500 ∧
    (BlogListHandler Y md T sortSlice node r).viewData = none ∧
    ∃ before v after e, Walk "posts".toList node = before ++ v :: after ∧
      loadVisits Y md before = ((LoadBlogPosts Y md node "posts".toList).1, none) ∧
      loadWalkFn Y md (LoadBlogPosts Y md node "posts".toList).1 v
        = ((LoadBlogPosts Y md node "posts".toList).1, some e) := by
  obtain ⟨e, he⟩ := runWalk_badMetadata Y md [] _ h
  have hL : LoadBlogPosts Y md node "posts".toList
      = ((LoadBlogPosts Y md node "posts".toList).1, some e) := by
    have : (LoadBlogPosts Y md node "posts".toList).2 = some e := he
    rw [← this]
  have hB : BlogListHandler Y md T sortSlice node r = .error "Error loading blog posts" 500 := by
    unfold BlogListHandler
    rw [hL]
  refine ⟨⟨e, he⟩, hB, by rw [hB]; rfl, ?_⟩
  obtain ⟨before, v, after, h1, h2, h3⟩ := runWalk_error_split Y md [] _ _ e hL
  exact ⟨before, v, after, e, h1, h2, h3⟩

/-- C3, as the claim states it, fails: `b.md` has bad metadata, and
`LoadBlogPosts` returns the document of `a.md`, visited before it, alongside the
error. -/
theorem LoadBlogPosts_returns_documents_with_error :
    (fileVisit "posts/b.md".toList "b.md".toList badDateFile).badMetadata flatYaml = true ∧
    (Walk "posts".toList goodThenBadTree).map (·.path)
      = ["posts".toList, "posts/a.md".toList, "posts/b.md".toList] ∧
    LoadBlogPosts flatYaml plainMarkdown goodThenBadTree "posts".toList
      = ([⟨"Hello".toList, 1717200000, [], [], "a".toList, "\n# Hi\n".toList⟩],
         some "yaml: cannot unmarshal !!str into time.Time") := by
  refine ⟨by rfl, by decide, by rfl⟩

/-- An instance of the amended C3: the directory of `goodThenBadTree`. -/
theorem LoadBlogPosts_bad_metadata_fails_example :
    (∃ v ∈ Walk "posts".toList goodThenBadTree, v.badMetadata flatYaml = true) ∧
    BlogListHandler flatYaml plainMarkdown quietTemplates goSortSlice goodThenBadTree
        (Request.received "/blog".toList [])
      = .error "Error loading blog posts" 500 :=
  have hx : ∃ v ∈ Walk "posts".toList goodThenBadTree, v.badMetadata flatYaml = true :=
    ⟨(Walk "posts".toList goodThenBadTree).get ⟨2, by decide⟩, List.get_mem _ _ _, by rfl⟩
  ⟨hx, (LoadBlogPosts_bad_metadata_fails flatYaml plainMarkdown quietTemplates goSortSlice
      goodThenBadTree (Request.received "/blog".toList []) hx).2.1⟩

/-! ## The segments of an accepted file -/

/-- What the callback does with a readable `.md` file, by the shape of its split. -/
theorem loadWalkFn_file (Y : Yaml) (md : Markdown) (posts : List BlogPost) (v : Visit)
    (c : List Char) (he : v.err = none) (hd : v.info.isDir = false)
    (hs : HasSuffix v.info.name mdExt = true) (hr : v.read = .ok c) :
    loadWalkFn Y md posts v =
      if (splitFrontMatter c).length < 3 then (posts, none)
      else
        match Y.unmarshalPost ((splitFrontMatter c).getD 1 []) with
        | .error e => (posts, some e)
        | .ok post =>
          (posts ++ [{ post with
                        Content := md ((splitFrontMatter c).getD 2 [])
                        FileName := TrimSuffix v.info.name mdExt }], none) := by
  unfold loadWalkFn
  simp only [he, hd, hs, hr, Bool.not_false, Bool.and_self, if_true]
  rfl

/-- C5, as the code has it. Every file the listing or the direct fetch accepts
splits on the fence into exactly three segments, a leading one, the metadata
and the body; the leading segment is not looked at, so it need not be empty,
and a file is accepted or not whatever stands before its first fence; a file
that splits into fewer than three segments is skipped by the listing and is a
500 for the direct fetch. -/
theorem accepted_files_have_three_segments (Y : Yaml) (md : Markdown) :
    (∀ posts v posts1, loadWalkFn Y md posts v = (posts1, none) → posts1 ≠ posts →
      ∃ c p0 p1 p2 post, v.read = .ok c ∧ splitFrontMatter c = [p0, p1, p2] ∧
        Y.unmarshalPost p1 = .ok post ∧
        posts1 = posts ++ [{ post with
                              Content := md p2
                              FileName := TrimSuffix v.info.name mdExt }]) ∧
    (∀ T readFile r data out err,
      BlogContentHandler Y md T readFile r = .executed data out err →
      ∃ c p0 p1 p2 m,
        readFile (contentFilePath (TrimPrefix r.path "/content/".toList)) = .ok c ∧
        splitFrontMatter c = [p0, p1, p2] ∧ Y.unmarshalMeta p1 = .ok m ∧
        data = [("Title", .str m.Title), ("PageType", .str "blogpost".toList),
                ("Content", .html (md p2))]) ∧
    (∀ posts v c, v.err = none → v.read = .ok c → (splitFrontMatter c).length < 3 →
      loadWalkFn Y md posts v = (posts, none)) ∧
    (∀ T readFile r c, TrimPrefix r.path "/content/".toList ≠ [] →
      readFile (contentFilePath (TrimPrefix r.path "/content/".toList)) = .ok c →
      (splitFrontMatter c).length < 3 →
      BlogContentHandler Y md T readFile r = .error "Error processing blog post." 500) ∧
    (∀ posts path info c1 c2 p0 q0 p1 p2,
      splitFrontMatter c1 = [p0, p1, p2] → splitFrontMatter c2 = [q0, p1, p2] →
      loadWalkFn Y md posts ⟨path, info, none, .ok c1⟩
        = loadWalkFn Y md posts ⟨path, info, none, .ok c2⟩) := by
  refine ⟨?_, ?_, ?_, ?_, ?_⟩
  · intro posts v posts1 h hne
    unfold loadWalkFn at h
    revert h
    cases v.err with
    | some e => simp
    | none =>
      by_cases hmd : (!v.info.isDir && HasSuffix v.info.name mdExt) = true
      · simp only [hmd, if_true]
        cases hr : v.read with
        | error e => simp
        | ok c =>
          rcases splitFrontMatter_cases c with hl | ⟨p0, p1, p2, hs⟩
          · have hl2 : (SplitN c fence 3).length < 3 := hl
            simp only [hl2, if_true]
            intro h
            exact absurd ((Prod.mk.injEq _ _ _ _).mp h).1.symm hne
          · have hs2 : SplitN c fence 3 = [p0, p1, p2] := hs
            have hl : ¬ ([p0, p1, p2].length < 3) := by simp
            have g1 : [p0, p1, p2].getD 1 [] = p1 := rfl
            have g2 : [p0, p1, p2].getD 2 [] = p2 := rfl
            simp only [hs2, hl, if_false, g1, g2]
            cases hu : Y.unmarshalPost p1 with
            | error e => simp
            | ok post =>
              intro h
              exact ⟨c, p0, p1, p2, post, rfl, hs, hu, ((Prod.mk.injEq _ _ _ _).mp h).1.symm⟩
      · simp only [hmd]
        intro h
        exact absurd ((Prod.mk.injEq _ _ _ _).mp h).1.symm hne
  · intro T readFile r data out err h
    have hc := BlogContentHandler_first_matching_case Y md T readFile r
    by_cases hn : TrimPrefix r.path "/content/".toList = []
    · rw [(hc.1 hn).1] at h
      cases h
    · obtain ⟨h1, h2⟩ := hc.2 hn
      cases hr : readFile (Join ["posts".toList, TrimPrefix r.path "/content/".toList ++ mdExt]) with
      | error e =>
        rw [h1 e hr] at h
        cases h
      | ok c =>
        obtain ⟨h3, h4⟩ := h2 c hr
        rcases splitFrontMatter_cases c with hl | ⟨p0, p1, p2, hs⟩
        · rw [h3 hl] at h
          cases h
        · obtain ⟨h5, h6⟩ := h4 p0 p1 p2 hs
          cases hu : Y.unmarshalMeta p1 with
          | error e =>
            rw [h5 e hu] at h
            cases h
          | ok m =>
            rw [h6 m hu] at h
            refine ⟨c, p0, p1, p2, m, hr, hs, hu, ?_⟩
            by_cases hp : T.parseFiles contentTemplates = false
            · rw [if_pos hp] at h
              cases h
            · rw [if_neg hp] at h
              unfold execute at h
              revert h
              rcases T.executeTemplate "base.html" _ with ⟨o, _ | e⟩
              · intro h
                injection h with h1 _ _
                exact h1.symm
              · intro h
                injection h with h1 _ _
                exact h1.symm
  · intro posts v c he hr hl
    unfold loadWalkFn
    have hl2 : (SplitN c fence 3).length < 3 := hl
    simp only [he, hr, hl2, if_true]
    split <;> rfl
  · intro T readFile r c hn hr hl
    exact ((((BlogContentHandler_first_matching_case Y md T readFile r).2 hn).2 c hr).1 hl)
  · intro posts path info c1 c2 p0 q0 p1 p2 h1 h2
    have h1b : SplitN c1 fence 3 = [p0, p1, p2] := h1
    have h2b : SplitN c2 fence 3 = [q0, p1, p2] := h2
    unfold loadWalkFn
    simp only [h1b, h2b]
    rfl

/-- C5, as the claim states it, fails: `preambleFile` has text before its first
fence, so its leading segment is not empty, and both the listing and the direct
fetch accept it as a document. -/
theorem preamble_file_is_accepted :
    splitFrontMatter preambleFile
      = ["draft\n".toList, "\ntitle: Hello\n".toList, "\n# Hi\n".toList] ∧
    LoadBlogPosts flatYaml plainMarkdown preambleTree "posts".toList
      = ([⟨"Hello".toList, zeroTime, [], [], "draft".toList, "\n# Hi\n".toList⟩], none) ∧
    BlogContentHandler flatYaml plainMarkdown quietTemplates
        (singleFile "posts/draft.md".toList preambleFile)
        (Request.received "/content/draft".toList [])
      = .executed
          [("Title", .str "Hello".toList), ("PageType", .str "blogpost".toList),
           ("Content", .html "\n# Hi\n".toList)] [] none := by
  refine ⟨by decide, by rfl, by rfl⟩

/-! ## View data and the fragment flag -/

/-- The data `execute` hands to the templates is the data it was given. -/
theorem execute_viewData (T : Templates) (data : ViewData) (msg : String) :
    (execute T data msg).viewData = some data := by
  unfold execute
  rcases T.executeTemplate "base.html" data with ⟨o, _ | e⟩ <;> rfl

/-- `BlogListHandler` after a successful load. -/
theorem BlogListHandler_loaded (Y : Yaml) (md : Markdown) (T : Templates)
    (sortSlice : SliceSort) (node : FsNode) (r : Request) (posts : List BlogPost)
    (hl : LoadBlogPosts Y md node "posts".toList = (posts, none)) :
    BlogListHandler Y md T sortSlice node r =
      if T.parseFiles listTemplates = false then .error "Error loading template" 500
      else
        execute T
          [("Title", .str "Blog Posts".toList),
           ("Posts", .posts (sortSlice dateAfter posts)),
           ("PageType", .str "bloglist".toList),
           ("IsHTMX", .bool (IsHTMXRequest r))]
          "Error rendering template" := by
  unfold BlogListHandler
  rw [hl]

/-- `BlogListHandler` after a failed load. -/
theorem BlogListHandler_load_error (Y : Yaml) (md : Markdown) (T : Templates)
    (sortSlice : SliceSort) (node : FsNode) (r : Request) (posts : List BlogPost) (e : String)
    (hl : LoadBlogPosts Y md node "posts".toList = (posts, some e)) :
    BlogListHandler Y md T sortSlice node r = .error "Error loading blog posts" 500 := by
  unfold BlogListHandler
  rw [hl]

/-- C8 fails for the direct fetch. For a request with `HX-Request: true`,
`HomePageHandler` and `BlogListHandler` hand the templates the page kind and the
flag `IsHTMX = true`, while the data of `BlogContentHandler` holds `Title`,
`PageType` and `Content` only; in general the first two always pass
`IsHTMXRequest r` under `IsHTMX` and `BlogContentHandler` never has that key. -/
theorem BlogContentHandler_omits_fragment_flag :
    IsHTMXRequest
        (Request.received "/content/hello".toList [("HX-Request".toList, "true".toList)])
      = true ∧
    (BlogContentHandler flatYaml plainMarkdown quietTemplates
        (singleFile "posts/hello.md".toList helloFile)
        (Request.received "/content/hello".toList
          [("HX-Request".toList, "true".toList)])).viewData
      = some [("Title", .str "Hello".toList), ("PageType", .str "blogpost".toList),
              ("Content", .html "\n# Hi\n".toList)] ∧
    (HomePageHandler quietTemplates
        (Request.received "/".toList [("HX-Request".toList, "true".toList)])).viewData
      = some [("Title", .str "Home Page".toList), ("PageType", .str "homepage".toList),
              ("IsHTMX", .bool true)] ∧
    (BlogListHandler flatYaml plainMarkdown quietTemplates goSortSlice (.dir [])
        (Request.received "/blog".toList [("HX-Request".toList, "true".toList)])).viewData
      = some [("Title", .str "Blog Posts".toList), ("Posts", .posts []),
              ("PageType", .str "bloglist".toList), ("IsHTMX", .bool true)] ∧
    (∀ (Y : Yaml) (md : Markdown) (T : Templates)
        (readFile : List Char → Except String (List Char)) (r : Request) (data : ViewData),
      (BlogContentHandler Y md T readFile r).viewData = some data →
        data.lookup "IsHTMX" = none ∧
        data.lookup "PageType" = some (.str "blogpost".toList)) ∧
    (∀ (T : Templates) (r : Request) (data : ViewData),
      (HomePageHandler T r).viewData = some data →
        data.lookup "IsHTMX" = some (.bool (IsHTMXRequest r)) ∧
        data.lookup "PageType" = some (.str "homepage".toList)) ∧
    (∀ (Y : Yaml) (md : Markdown) (T : Templates) (sortSlice : SliceSort) (node : FsNode)
        (r : Request) (data : ViewData),
      (BlogListHandler Y md T sortSlice node r).viewData = some data →
        data.lookup "IsHTMX" = some (.bool (IsHTMXRequest r)) ∧
        data.lookup "PageType" = some (.str "bloglist".toList)) := by
  refine ⟨by decide, by rfl, by rfl, by rfl, ?_, ?_, ?_⟩
  · intro Y md T readFile r data h
    cases hr : BlogContentHandler Y md T readFile r with
    | notFound => rw [hr] at h; cases h
    | error m c => rw [hr] at h; cases h
    | executed d o e =>
      rw [hr] at h
      have hd : d = data := by simpa [Reply.viewData] using h
      obtain ⟨c, p0, p1, p2, m, -, -, -, h4⟩ :=
        (accepted_files_have_three_segments Y md).2.1 T readFile r d o e hr
      rw [← hd, h4]
      exact ⟨by rfl, by rfl⟩
  · intro T r data h
    unfold HomePageHandler at h
    by_cases hp : T.parseFiles homeTemplates = false
    · rw [if_pos hp] at h
      cases h
    · rw [if_neg hp, execute_viewData] at h
      have hd := Option.some.inj h
      rw [← hd]
      exact ⟨by rfl, by rfl⟩
  · intro Y md T sortSlice node r data h
    rcases hl : LoadBlogPosts Y md node "posts".toList with ⟨posts, _ | e⟩
    · rw [BlogListHandler_loaded Y md T sortSlice node r posts hl] at h
      by_cases hp : T.parseFiles listTemplates = false
      · rw [if_pos hp] at h
        cases h
      · rw [if_neg hp, execute_viewData] at h
        have hd := Option.some.inj h
        rw [← hd]
        exact ⟨by rfl, by rfl⟩
    · rw [BlogListHandler_load_error Y md T sortSlice node r posts e hl] at h
      cases h

/-! ## Slugs and paths -/

/-- Stripping the extension of a name that has it and putting it back gives the
name. -/
theorem TrimSuffix_append (name : List Char) (h : HasSuffix name mdExt = true) :
    TrimSuffix name mdExt ++ mdExt = name := by
  unfold TrimSuffix
  rw [if_pos h]
  unfold HasSuffix at h
  obtain ⟨t, ht⟩ := List.isSuffixOf_iff_suffix.mp h
  subst ht
  simp

/-- For a file that lies directly in `posts`, the path the direct fetch builds
from the slug is the path the walk visited. -/
theorem contentFilePath_of_slug (name : List Char) (h : HasSuffix name mdExt = true) :
    contentFilePath (TrimSuffix name mdExt) = Join ["posts".toList, name] := by
  unfold contentFilePath
  rw [TrimSuffix_append name h]

/-- C9 fails for a post in a subdirectory. The walk of `posts` finds
`posts/notes/trip.md` and the listing returns its document with the slug
`trip`; the path the direct fetch builds from that slug is `posts/trip.md`,
which is not the path of the file, and `/content/trip` is answered 404; the file
is served only under `/content/notes/trip`, a name the listing never
produces. -/
theorem nested_post_slug_is_not_fetchable :
    (Walk "posts".toList (nestedTree.resolve "posts".toList)).map (·.path)
      = ["posts".toList, "posts/notes".toList, "posts/notes/trip.md".toList] ∧
    LoadBlogPosts flatYaml plainMarkdown (nestedTree.resolve "posts".toList) "posts".toList
      = ([⟨"Hello".toList, 1717200000, [], [], "trip".toList, "\n# Hi\n".toList⟩], none) ∧
    contentFilePath "trip".toList = "posts/trip.md".toList ∧
    contentFilePath "trip".toList ≠ "posts/notes/trip.md".toList ∧
    BlogContentHandler flatYaml plainMarkdown quietTemplates nestedTree.ReadFile
        (Request.received "/content/trip".toList [])
      = .error "File not found." 404 ∧
    BlogContentHandler flatYaml plainMarkdown quietTemplates nestedTree.ReadFile
        (Request.received "/content/notes/trip".toList [])
      = .executed
          [("Title", .str "Hello".toList), ("PageType", .str "blogpost".toList),
           ("Content", .html "\n# Hi\n".toList)] [] none := by
  refine ⟨by decide, by rfl, by decide, by decide, by rfl, by rfl⟩

/-! ## Insertion sort -/

theorem lessAt_adjacent {α : Type} (less : α → α → Bool) (l r : List α) (y x : α) :
    lessAt less (l ++ y :: x :: r) (l.length + 1) l.length = less x y := by
  unfold lessAt
  have h1 : (l ++ y :: x :: r)[l.length + 1]? = some x := by
    rw [List.getElem?_append_right (by omega)]
    simp
  have h2 : (l ++ y :: x :: r)[l.length]? = some y := by
    rw [List.getElem?_append_right (by omega)]
    simp
  rw [h1, h2]

theorem swapAt_adjacent {α : Type} (l r : List α) (y x : α) :
    swapAt (l ++ y :: x :: r) (l.length + 1) l.length = l ++ x :: y :: r := by
  unfold swapAt
  have h1 : (l ++ y :: x :: r)[l.length + 1]? = some x := by
    rw [List.getElem?_append_right (by omega)]
    simp
  have h2 : (l ++ y :: x :: r)[l.length]? = some y := by
    rw [List.getElem?_append_right (by omega)]
    simp
  rw [h1, h2]
  simp only
  rw [List.set_append_right _ _ (by omega)]
  rw [List.set_append_right _ _ (by simp)]
  simp

theorem insertBack_snoc {α : Type} (less : α → α → Bool) (x y : α) (l : List α) :
    insertBack less x (l ++ [y]) =
      if less x y then insertBack less x l ++ [y] else l ++ [y, x] := by
  unfold insertBack
  simp only [List.reverse_append, List.reverse_cons, List.reverse_nil, List.nil_append,
    List.singleton_append, insertRev]
  split <;> simp

/-- The inner loop of `insertionSort_func` on a slice whose front `l` is followed
by `x` inserts `x` into the front from the back. -/
theorem insertionInner_eq {α : Type} (less : α → α → Bool) (l : List α) (x : α) (r : List α) :
    insertionInner less 0 l.length (l ++ x :: r) = insertBack less x l ++ r := by
  induction l using List.reverseRecOn generalizing r with
  | nil => simp [insertionInner, insertBack, insertRev]
  | append_singleton l y ih =>
    have hlen : (l ++ [y]).length = l.length + 1 := by simp
    have hdata : l ++ [y] ++ x :: r = l ++ y :: x :: r := by simp
    rw [hlen, hdata, insertionInner, lessAt_adjacent, insertBack_snoc]
    by_cases hxy : less x y = true
    · have h0 : (decide (l.length + 1 > 0) && true) = true := by simp
      simp only [hxy, h0, if_true]
      rw [swapAt_adjacent, ih]
      simp
    · have hxy2 : less x y = false := by simpa using hxy
      simp [hxy2]

/-- The outer loop of `insertionSort_func` with a front of `i` elements in place:
the remaining elements are inserted one after the other. -/
theorem insertionOuter_eq {α : Type} (less : α → α → Bool) (front rest : List α) :
    insertionOuter less 0 rest.length front.length (front ++ rest) =
      rest.foldl (fun acc x => insertBack less x acc) front := by
  induction rest generalizing front with
  | nil => simp [insertionOuter]
  | cons x rest ih =>
    simp only [List.length_cons, insertionOuter, List.foldl_cons]
    rw [insertionInner_eq]
    have hl : (insertBack less x front).length = front.length + 1 := by
      have : ∀ t : List α, (insertRev less x t).length = t.length + 1 := by
        intro t
        induction t with
        | nil => rfl
        | cons y t iht =>
          simp only [insertRev]
          split <;> simp [iht]
      simp [insertBack, this]
    rw [← hl]
    exact ih (insertBack less x front)

/-- Insertion sort of a whole slice inserts its elements one after the other. -/
theorem insertionSlice_eq (less : BlogPost → BlogPost → Bool) (xs : List BlogPost) :
    insertionSlice less xs = xs.foldl (fun acc x => insertBack less x acc) [] := by
  unfold insertionSlice insertionSort_func
  cases xs with
  | nil => rfl
  | cons x rest =>
    have h := insertionOuter_eq less [x] rest
    simp only [List.length_cons, List.length_nil, Nat.zero_add, List.singleton_append] at h
    simp only [List.length_cons, Nat.zero_add, Nat.add_sub_cancel, List.foldl_cons]
    rw [h]
    rfl

/-- For at most twelve elements, `sort.Slice` is insertion sort. -/
theorem goSortSlice_short (less : BlogPost → BlogPost → Bool) (xs : List BlogPost)
    (h : xs.length ≤ 12) : goSortSlice less xs = insertionSlice less xs := by
  unfold goSortSlice insertionSlice pdqsort_func
  simp [h]

theorem insertRev_perm {α : Type} (less : α → α → Bool) (x : α) (t : List α) :
    (insertRev less x t).Perm (x :: t) := by
  induction t with
  | nil => exact List.Perm.refl _
  | cons y t ih =>
    simp only [insertRev]
    split
    · exact (List.Perm.cons y ih).trans (List.Perm.swap x y t)
    · exact List.Perm.refl _

theorem insertRev_pairwise {α : Type} (less : α → α → Bool) (hless : LessOrdering less)
    (x : α) (t : List α) (h : t.Pairwise (fun p q => less p q = false)) :
    (insertRev less x t).Pairwise (fun p q => less p q = false) := by
  induction t with
  | nil => simp [insertRev]
  | cons y t ih =>
    simp only [insertRev]
    have hy := List.pairwise_cons.mp h
    by_cases hxy : less x y = true
    · rw [if_pos hxy]
      refine List.pairwise_cons.mpr ⟨?_, ih hy.2⟩
      intro z hz
      rcases List.mem_cons.mp ((insertRev_perm less x t).subset hz) with rfl | hz2
      · -- asymmetry
        cases hyx : less y z with
        | false => rfl
        | true =>
          have := hless.trans z y z hxy hyx
          rw [hless.irrefl] at this
          cases this
      · exact hy.1 z hz2
    · rw [if_neg hxy]
      have hxy2 : less x y = false := by simpa using hxy
      refine List.pairwise_cons.mpr ⟨?_, h⟩
      intro z hz
      rcases List.mem_cons.mp hz with rfl | hz2
      · exact hxy2
      · exact hless.negTrans x y z hxy2 (hy.1 z hz2)

theorem insertRev_filter {α : Type} (less : α → α → Bool) (P : α → Bool) (x : α)
    (hP : ∀ y, less x y = true → P x = true → P y = true → False) (t : List α) :
    (insertRev less x t).filter P = (x :: t).filter P := by
  induction t with
  | nil => rfl
  | cons y t ih =>
    simp only [insertRev]
    by_cases hxy : less x y = true
    · rw [if_pos hxy]
      simp only [List.filter_cons, ih]
      cases hx : P x <;> cases hy : P y <;> simp
      exact (hP y hxy hx hy).elim
    · rw [if_neg hxy]

theorem insertBack_perm {α : Type} (less : α → α → Bool) (x : α) (l : List α) :
    (insertBack less x l).Perm (x :: l) := by
  unfold insertBack
  refine (List.reverse_perm _).trans ((insertRev_perm less x _).trans ?_)
  exact List.Perm.cons x (List.reverse_perm l)

theorem insertBack_pairwise {α : Type} (less : α → α → Bool) (hless : LessOrdering less)
    (x : α) (l : List α) (h : l.Pairwise (fun p q => less q p = false)) :
    (insertBack less x l).Pairwise (fun p q => less q p = false) := by
  unfold insertBack
  rw [List.pairwise_reverse]
  exact insertRev_pairwise less hless x _ (List.pairwise_reverse.mpr h)

theorem insertBack_filter {α : Type} (less : α → α → Bool) (P : α → Bool) (x : α)
    (hP : ∀ y, less x y = true → P x = true → P y = true → False) (l : List α) :
    (insertBack less x l).filter P = (l ++ [x]).filter P := by
  unfold insertBack
  rw [List.filter_reverse, insertRev_filter less P x hP, ← List.filter_reverse]
  simp

/-- Insertion sort rearranges the slice. -/
theorem insertionSlice_perm (less : BlogPost → BlogPost → Bool) (xs : List BlogPost) :
    (insertionSlice less xs).Perm xs := by
  rw [insertionSlice_eq]
  have gen : ∀ (rest front : List BlogPost),
      (rest.foldl (fun acc x => insertBack less x acc) front).Perm (front ++ rest) := by
    intro rest
    induction rest with
    | nil => intro front; simp
    | cons x rest ih =>
      intro front
      simp only [List.foldl_cons]
      refine (ih _).trans ?_
      have h1 := insertBack_perm less x front
      have h2 : (x :: front).Perm (front ++ [x]) :=
        (List.perm_append_comm : ([x] ++ front).Perm (front ++ [x]))
      have h3 := (h1.trans h2).append_right rest
      simpa using h3
  simpa using gen xs []

/-- Insertion sort leaves no element less than one before it. -/
theorem insertionSlice_sorted (less : BlogPost → BlogPost → Bool) (hless : LessOrdering less)
    (xs : List BlogPost) :
    (insertionSlice less xs).Pairwise (fun p q => less q p = false) := by
  rw [insertionSlice_eq]
  have gen : ∀ (rest front : List BlogPost),
      front.Pairwise (fun p q => less q p = false) →
      (rest.foldl (fun acc x => insertBack less x acc) front).Pairwise
        (fun p q => less q p = false) := by
    intro rest
    induction rest with
    | nil => intro front h; simpa using h
    | cons x rest ih =>
      intro front h
      simp only [List.foldl_cons]
      exact ih _ (insertBack_pairwise less hless x front h)
  exact gen xs [] List.Pairwise.nil

/-- Insertion sort keeps, in their order, the elements selected by a predicate
that never holds of two elements of which one is less than the other. -/
theorem insertionSlice_filter (less : BlogPost → BlogPost → Bool) (P : BlogPost → Bool)
    (hP : ∀ x y, less x y = true → P x = true → P y = true → False) (xs : List BlogPost) :
    (insertionSlice less xs).filter P = xs.filter P := by
  rw [insertionSlice_eq]
  have gen : ∀ (rest front : List BlogPost),
      (rest.foldl (fun acc x => insertBack less x acc) front).filter P
        = (front ++ rest).filter P := by
    intro rest
    induction rest with
    | nil => intro front; simp
    | cons x rest ih =>
      intro front
      simp only [List.foldl_cons]
      rw [ih, List.filter_append, insertBack_filter less P x (hP x)]
      simp only [List.filter_append, List.append_assoc]
      congr 1
      exact (List.filter_append [x] rest).symm
  simpa using gen xs []

/-- Insertion sort meets the contract of `sort.Slice`. -/
theorem insertionSlice_contract : SortSliceContract insertionSlice :=
  ⟨fun less xs _ => insertionSlice_perm less xs,
   fun less xs hless => insertionSlice_sorted less hless xs⟩

/-- The comparison by date meets Go's requirements on `Less`. -/
theorem dateAfter_ordering : LessOrdering dateAfter := by
  refine ⟨?_, ?_, ?_⟩
  · intro a
    simp [dateAfter, Time.After]
  · intro a b c h1 h2
    simp only [dateAfter, Time.After, decide_eq_true_eq] at h1 h2 ⊢
    exact Int.lt_trans h2 h1
  · intro a b c h1 h2
    simp only [dateAfter, Time.After, decide_eq_false_iff_not] at h1 h2 ⊢
    exact Int.not_lt.mpr (Int.le_trans (Int.not_lt.mp h1) (Int.not_lt.mp h2))

/-! ## Request classification -/

theorem upper_range_mem (c : Char) (h1 : 65 ≤ c.toNat) (h2 : c.toNat ≤ 90) :
    c ∈ "ABCDEFGHIJKLMNOPQRSTUVWXYZ".toList := by
  have hc := Char.ofNat_toNat c
  generalize c.toNat = n at hc h1 h2
  interval_cases n <;> (subst hc; decide)

theorem lower_range_mem (c : Char) (h1 : 97 ≤ c.toNat) (h2 : c.toNat ≤ 122) :
    c ∈ "abcdefghijklmnopqrstuvwxyz".toList := by
  have hc := Char.ofNat_toNat c
  generalize c.toNat = n at hc h1 h2
  interval_cases n <;> (subst hc; decide)

theorem toLower_of_not_upper (c : Char) (h : ¬ (65 ≤ c.toNat ∧ c.toNat ≤ 90)) :
    c.toLower = c := by
  unfold Char.toLower
  simp only [ge_iff_le]
  rw [if_neg h]

theorem toUpper_of_not_lower (c : Char) (h : ¬ (97 ≤ c.toNat ∧ c.toNat ≤ 122)) :
    c.toUpper = c := by
  unfold Char.toUpper
  simp only [ge_iff_le]
  rw [if_neg h]

theorem upper_letter_facts :
    ∀ c ∈ "ABCDEFGHIJKLMNOPQRSTUVWXYZ".toList,
      c.toLower.toUpper = c ∧ c.toUpper = c ∧ c.toLower.toLower = c.toLower ∧
        validHeaderFieldByte c.toLower = validHeaderFieldByte c := by
  decide

theorem lower_letter_facts :
    ∀ c ∈ "abcdefghijklmnopqrstuvwxyz".toList, c.toUpper.toLower = c ∧ c.toLower = c := by
  decide

theorem toLower_toLower (c : Char) : c.toLower.toLower = c.toLower := by
  by_cases h : 65 ≤ c.toNat ∧ c.toNat ≤ 90
  · exact (upper_letter_facts c (upper_range_mem c h.1 h.2)).2.2.1
  · rw [toLower_of_not_upper c h, toLower_of_not_upper c h]

theorem toUpper_toLower (c : Char) : c.toUpper.toLower = c.toLower := by
  by_cases h : 97 ≤ c.toNat ∧ c.toNat ≤ 122
  · have := lower_letter_facts c (lower_range_mem c h.1 h.2)
    rw [this.1, this.2]
  · rw [toUpper_of_not_lower c h]

theorem valid_toLower (c : Char) :
    validHeaderFieldByte c.toLower = validHeaderFieldByte c := by
  by_cases h : 65 ≤ c.toNat ∧ c.toNat ≤ 90
  · exact (upper_letter_facts c (upper_range_mem c h.1 h.2)).2.2.2
  · rw [toLower_of_not_upper c h]

theorem toUpper_eq_of_toLower_eq (c d : Char) (h : c.toLower = d.toLower) :
    c.toUpper = d.toUpper := by
  by_cases hc : 65 ≤ c.toNat ∧ c.toNat ≤ 90
  · have fc := upper_letter_facts c (upper_range_mem c hc.1 hc.2)
    by_cases hd : 65 ≤ d.toNat ∧ d.toNat ≤ 90
    · have fd := upper_letter_facts d (upper_range_mem d hd.1 hd.2)
      have : c = d := by rw [← fc.1, ← fd.1, h]
      rw [this]
    · rw [toLower_of_not_upper d hd] at h
      rw [← h, fc.1, fc.2.1]
  · rw [toLower_of_not_upper c hc] at h
    by_cases hd : 65 ≤ d.toNat ∧ d.toNat ≤ 90
    · have fd := upper_letter_facts d (upper_range_mem d hd.1 hd.2)
      rw [h, fd.1, fd.2.1]
    · rw [toLower_of_not_upper d hd] at h
      rw [h]

theorem canonicalLoop_map_toLower (u : Bool) (s : List Char) :
    (canonicalLoop u s).map Char.toLower = s.map Char.toLower := by
  induction s generalizing u with
  | nil => rfl
  | cons c s ih =>
    simp only [canonicalLoop, List.map_cons, ih]
    cases u <;> simp [toLower_toLower, toUpper_toLower]

theorem canonicalLoop_congr (u : Bool) (s t : List Char)
    (h : s.map Char.toLower = t.map Char.toLower) :
    canonicalLoop u s = canonicalLoop u t := by
  induction s generalizing u t with
  | nil =>
    cases t with
    | nil => rfl
    | cons d t => simp at h
  | cons c s ih =>
    cases t with
    | nil => simp at h
    | cons d t =>
      simp only [List.map_cons, List.cons.injEq] at h
      have hu := toUpper_eq_of_toLower_eq c d h.1
      simp only [canonicalLoop, h.1, hu]
      rw [ih _ t h.2]

theorem all_valid_congr (s t : List Char) (h : s.map Char.toLower = t.map Char.toLower) :
    s.all validHeaderFieldByte = t.all validHeaderFieldByte := by
  have e : ∀ l : List Char, l.all validHeaderFieldByte
      = (l.map Char.toLower).all validHeaderFieldByte := by
    intro l
    induction l with
    | nil => rfl
    | cons c l ih => simp only [List.all_cons, List.map_cons, valid_toLower, ih]
  rw [e s, e t, h]

/-- The canonical key of a name is `Hx-Request` exactly for the names that equal
`HX-Request` up to the case of letters. -/
theorem canonical_eq_hx_iff (name : List Char) :
    CanonicalMIMEHeaderKey name = CanonicalMIMEHeaderKey "HX-Request".toList ↔
      equalFold name "HX-Request".toList = true := by
  unfold equalFold
  rw [decide_eq_true_iff]
  constructor
  · intro h
    have hl : ∀ s, (CanonicalMIMEHeaderKey s).map Char.toLower = s.map Char.toLower := by
      intro s
      unfold CanonicalMIMEHeaderKey
      split
      · exact canonicalLoop_map_toLower _ _
      · rfl
    rw [← hl name, h, hl]
  · intro h
    have hv : "HX-Request".toList.all validHeaderFieldByte = true := by decide
    unfold CanonicalMIMEHeaderKey
    rw [all_valid_congr _ _ h, canonicalLoop_congr true _ _ h, if_pos hv, if_pos hv]

/-- What `Header.Get` reads from the header map of a received request: the value
of the first field whose name canonicalises like the key. -/
theorem Get_received_eq (key tv : List Char) (htv : tv ≠ [])
    (hcan : ∀ name, CanonicalMIMEHeaderKey name = CanonicalMIMEHeaderKey key ↔
      equalFold name key = true)
    (fs : List (List Char × List Char)) :
    (readMIMEHeader fs).Get key = tv ↔
      (fs.find? (fun f => equalFold f.1 key)).map (·.2) = some tv := by
  unfold Header.Get readMIMEHeader
  induction fs with
  | nil => simpa using htv
  | cons f fs ih =>
    by_cases hf : equalFold f.1 key = true
    · have hk := (hcan f.1).mpr hf
      simp [List.filter_cons, hk, List.find?_cons, hf]
    · have hk : ¬ CanonicalMIMEHeaderKey f.1 = CanonicalMIMEHeaderKey key :=
        fun h => hf ((hcan f.1).mp h)
      have hf2 : equalFold f.1 key = false := by simpa using hf
      simp only [List.filter_cons, hk, decide_False, List.find?_cons, hf2]
      exact ih

/-- C10. `IsHTMXRequest` holds exactly when the request carries an `HX-Request`
header, its name compared without regard to case, whose value (the value of the
first such field, which is what `Header.Get` reads) is the string `true`; any
other value, `TRUE` and `1` included, and a missing header give `false`. -/
theorem IsHTMXRequest_iff_header_true (path : List Char)
    (fields : List (List Char × List Char)) :
    (IsHTMXRequest (Request.received path fields) = true ↔
      (fields.find? (fun f => equalFold f.1 "HX-Request".toList)).map (·.2)
        = some "true".toList) ∧
    (∀ name value, equalFold name "HX-Request".toList = true →
      (IsHTMXRequest (Request.received path ((name, value) :: fields)) = true ↔
        value = "true".toList)) ∧
    (∀ name, equalFold name "HX-Request".toList = true →
      IsHTMXRequest (Request.received path ((name, "TRUE".toList) :: fields)) = false ∧
      IsHTMXRequest (Request.received path ((name, "1".toList) :: fields)) = false) ∧
    ((∀ f ∈ fields, equalFold f.1 "HX-Request".toList = false) →
      IsHTMXRequest (Request.received path fields) = false) := by
  have hT : "TRUE".toList ≠ "true".toList := by decide
  have h1 : "1".toList ≠ "true".toList := by decide
  have htv : "true".toList ≠ [] := by decide
  have main : ∀ fs : List (List Char × List Char),
      (IsHTMXRequest (Request.received path fs) = true ↔
        (fs.find? (fun f => equalFold f.1 "HX-Request".toList)).map (·.2)
          = some "true".toList) := by
    intro fs
    unfold IsHTMXRequest Request.received
    rw [decide_eq_true_iff]
    exact Get_received_eq _ _ htv canonical_eq_hx_iff fs
  generalize "HX-Request".toList = key at main ⊢
  generalize "true".toList = tv at hT h1 main ⊢
  generalize "TRUE".toList = tu at hT ⊢
  generalize "1".toList = t1 at h1 ⊢
  refine ⟨main fields, ?_, ?_, ?_⟩
  · intro name value hn
    rw [main]
    simp [List.find?_cons, hn]
  · intro name hn
    constructor
    · rw [← Bool.not_eq_true, main]
      simp [List.find?_cons, hn, hT]
    · rw [← Bool.not_eq_true, main]
      simp [List.find?_cons, hn, h1]
  · intro hall
    rw [← Bool.not_eq_true, main]
    have : fields.find? (fun f => equalFold f.1 key) = none := by
      rw [List.find?_eq_none]
      intro f hf
      simp [hall f hf]
    simp [this]


/-! ## Swaps and ranges -/

theorem swapAt_of_lt {α : Type} (data : List α) (i j : Nat) (hi : i < data.length)
    (hj : j < data.length) : swapAt data i j = (data.set i data[j]).set j data[i] := by
  unfold swapAt
  rw [List.getElem?_eq_getElem hi, List.getElem?_eq_getElem hj]

theorem swapAt_of_ge {α : Type} (data : List α) (i j : Nat)
    (h : data.length ≤ i ∨ data.length ≤ j) : swapAt data i j = data := by
  unfold swapAt
  rcases h with h | h
  · rw [List.getElem?_eq_none h]
  · rw [List.getElem?_eq_none h]
    cases data[i]? <;> rfl

theorem swapAt_length {α : Type} (data : List α) (i j : Nat) :
    (swapAt data i j).length = data.length := by
  unfold swapAt
  split <;> simp

theorem swapAt_getElem? {α : Type} (data : List α) (i j k : Nat) (hi : i < data.length)
    (hj : j < data.length) :
    (swapAt data i j)[k]? =
      if k = j then data[i]? else if k = i then data[j]? else data[k]? := by
  rw [swapAt_of_lt data i j hi hj]
  by_cases hkj : k = j
  · subst hkj
    simp [List.getElem?_eq_getElem hi, hi, hj]
  · by_cases hki : k = i
    · subst hki
      rw [if_neg hkj, if_pos rfl, List.getElem?_set_ne (Ne.symm hkj)]
      simp [List.getElem?_eq_getElem hj, hi]
    · rw [if_neg hkj, if_neg hki, List.getElem?_set_ne (Ne.symm hkj),
        List.getElem?_set_ne (Ne.symm hki)]

theorem set_perm_eraseIdx {α : Type} (t : List α) (k : Nat) (x y : α)
    (h : t[k]? = some y) :
    (t.set k x).Perm (x :: t.eraseIdx k) ∧ t.Perm (y :: t.eraseIdx k) := by
  induction t generalizing k with
  | nil => simp at h
  | cons z t ih =>
    cases k with
    | zero =>
      simp only [List.getElem?_cons_zero, Option.some.injEq] at h
      subst h
      exact ⟨List.Perm.refl _, List.Perm.refl _⟩
    | succ k =>
      simp only [List.getElem?_cons_succ] at h
      obtain ⟨h1, h2⟩ := ih k h
      simp only [List.set_cons_succ, List.eraseIdx_cons_succ]
      exact ⟨(List.Perm.cons z h1).trans (List.Perm.swap x z _),
        (List.Perm.cons z h2).trans (List.Perm.swap y z _)⟩

theorem set_set_perm_aux {α : Type} (l : List α) (i j : Nat) (x y : α)
    (hx : l[i]? = some x) (hy : l[j]? = some y) : ((l.set i y).set j x).Perm l := by
  induction l generalizing i j with
  | nil => simp at hx
  | cons h t ih =>
    cases i with
    | zero =>
      simp only [List.getElem?_cons_zero, Option.some.injEq] at hx
      subst hx
      cases j with
      | zero =>
        simp only [List.getElem?_cons_zero, Option.some.injEq] at hy
        subst hy
        exact List.Perm.refl _
      | succ j =>
        simp only [List.getElem?_cons_succ] at hy
        obtain ⟨h1, h2⟩ := set_perm_eraseIdx t j h y hy
        simp only [List.set_cons_zero, List.set_cons_succ]
        exact ((List.Perm.cons y h1).trans (List.Perm.swap h y _)).trans
          (List.Perm.cons h h2.symm)
    | succ i =>
      simp only [List.getElem?_cons_succ] at hx
      cases j with
      | zero =>
        simp only [List.getElem?_cons_zero, Option.some.injEq] at hy
        subst hy
        obtain ⟨h1, h2⟩ := set_perm_eraseIdx t i h x hx
        simp only [List.set_cons_zero, List.set_cons_succ]
        exact ((List.Perm.cons x h1).trans (List.Perm.swap h x _)).trans
          (List.Perm.cons h h2.symm)
      | succ j =>
        simp only [List.getElem?_cons_succ] at hy
        simp only [List.set_cons_succ]
        exact List.Perm.cons h (ih i j hx hy)

theorem swapAt_perm {α : Type} (data : List α) (i j : Nat) : (swapAt data i j).Perm data := by
  unfold swapAt
  cases hx : data[i]? with
  | none => exact List.Perm.refl _
  | some x =>
    cases hy : data[j]? with
    | none => exact List.Perm.refl _
    | some y => exact set_set_perm_aux data i j x y hx hy

theorem RangePerm.refl {α : Type} (data : List α) (a b : Nat) : RangePerm data data a b :=
  ⟨List.Perm.refl _, fun _ _ => rfl⟩

theorem RangePerm.trans {α : Type} {d1 d2 d3 : List α} {a b : Nat}
    (h1 : RangePerm d1 d2 a b) (h2 : RangePerm d2 d3 a b) : RangePerm d1 d3 a b :=
  ⟨h2.1.trans h1.1, fun i hi => (h2.2 i hi).trans (h1.2 i hi)⟩

theorem RangePerm.mono {α : Type} {d1 d2 : List α} {a b a2 b2 : Nat}
    (h : RangePerm d1 d2 a2 b2) (ha : a ≤ a2) (hb : b2 ≤ b) : RangePerm d1 d2 a b :=
  ⟨h.1, fun i hi => h.2 i (by omega)⟩

theorem RangePerm.length_eq {α : Type} {d1 d2 : List α} {a b : Nat}
    (h : RangePerm d1 d2 a b) : d2.length = d1.length := h.1.length_eq

theorem swapAt_rangePerm {α : Type} (data : List α) (a b i j : Nat)
    (hi : a ≤ i ∧ i < b) (hj : a ≤ j ∧ j < b) : RangePerm data (swapAt data i j) a b := by
  refine ⟨swapAt_perm data i j, ?_⟩
  intro k hk
  by_cases hl : i < data.length ∧ j < data.length
  · rw [swapAt_getElem? data i j k hl.1 hl.2, if_neg (by omega), if_neg (by omega)]
  · rw [swapAt_of_ge data i j (by omega)]

/-- The elements of a range, as a list. -/
theorem slice_eq {α : Type} (data : List α) (a b : Nat) (hab : a ≤ b) :
    data = data.take a ++ ((data.drop a).take (b - a) ++ data.drop b) := by
  have h1 : data.drop b = (data.drop a).drop (b - a) := by
    rw [List.drop_drop]
    congr 1
    omega
  rw [h1, List.take_append_drop, List.take_append_drop]

theorem RangePerm.slice_perm {α : Type} {d1 d2 : List α} {a b : Nat}
    (h : RangePerm d1 d2 a b) (hab : a ≤ b) :
    ((d2.drop a).take (b - a)).Perm ((d1.drop a).take (b - a)) := by
  have hlen := h.length_eq
  have ht : d2.take a = d1.take a := by
    apply List.ext_getElem?
    intro i
    by_cases hi : i < a
    · rw [List.getElem?_take_of_lt hi, List.getElem?_take_of_lt hi]
      exact h.2 i (Or.inl hi)
    · rw [List.getElem?_take_eq_none (by omega), List.getElem?_take_eq_none (by omega)]
  have hd : d2.drop b = d1.drop b := by
    apply List.ext_getElem?
    intro i
    rw [List.getElem?_drop, List.getElem?_drop]
    exact h.2 (b + i) (Or.inr (by omega))
  have e1 := slice_eq d1 a b hab
  have e2 := slice_eq d2 a b hab
  have hp := h.1
  rw [e1, e2, ht, hd] at hp
  exact (List.perm_append_right_iff _).mp ((List.perm_append_left_iff _).mp hp)

theorem mem_slice_iff {α : Type} (data : List α) (a b : Nat) (x : α) :
    x ∈ (data.drop a).take (b - a) ↔ ∃ i, a ≤ i ∧ i < b ∧ data[i]? = some x := by
  constructor
  · intro h
    obtain ⟨k, hk⟩ := List.mem_iff_getElem?.mp h
    have hkb : k < b - a := by
      by_contra hc
      rw [List.getElem?_take_eq_none (by omega)] at hk
      cases hk
    rw [List.getElem?_take_of_lt hkb, List.getElem?_drop] at hk
    exact ⟨a + k, by omega, by omega, hk⟩
  · rintro ⟨i, h1, h2, h3⟩
    apply List.mem_iff_getElem?.mpr
    refine ⟨i - a, ?_⟩
    rw [List.getElem?_take_of_lt (by omega), List.getElem?_drop]
    have : a + (i - a) = i := by omega
    rw [this]
    exact h3

theorem RangePerm.rangeAll {α : Type} {d1 d2 : List α} {a b : Nat} (P : α → Prop)
    (h : RangePerm d1 d2 a b) (hP : RangeAll P d1 a b) : RangeAll P d2 a b := by
  intro i x h1 h2 h3
  have hab : a ≤ b := by omega
  have hm : x ∈ (d2.drop a).take (b - a) := (mem_slice_iff d2 a b x).mpr ⟨i, h1, h2, h3⟩
  obtain ⟨k, k1, k2, k3⟩ := (mem_slice_iff d1 a b x).mp ((h.slice_perm hab).subset hm)
  exact hP k x k1 k2 k3

theorem RangePerm.lowerBound {α : Type} {less : α → α → Bool} {d1 d2 : List α} {a b : Nat}
    (h : RangePerm d1 d2 a b) (hL : LowerBound less d1 a b) : LowerBound less d2 a b := by
  intro w ha hw
  rw [h.2 (a - 1) (Or.inl (by omega))] at hw
  exact h.rangeAll _ (hL w ha hw)


/-! ## Insertion sort on a range -/

theorem insertionInner_range {α : Type} (less : α → α → Bool) (pre l : List α) (x : α)
    (r : List α) :
    insertionInner less pre.length (pre.length + l.length) (pre ++ (l ++ x :: r))
      = pre ++ (insertBack less x l ++ r) := by
  induction l using List.reverseRecOn generalizing r with
  | nil =>
    simp only [List.length_nil, Nat.add_zero, List.nil_append]
    have hb : insertBack less x [] = [x] := rfl
    rw [hb]
    cases hp : pre.length with
    | zero => rfl
    | succ n =>
      unfold insertionInner
      have : ¬ (n + 1 > n + 1) := by omega
      simp [this]
  | append_singleton l y ih =>
    have hlen : pre.length + (l ++ [y]).length = (pre ++ l).length + 1 := by
      simp [Nat.add_assoc]
    have hdata : pre ++ (l ++ [y] ++ x :: r) = (pre ++ l) ++ y :: x :: r := by simp
    rw [hlen, hdata, insertionInner, lessAt_adjacent, insertBack_snoc]
    by_cases hxy : less x y = true
    · have h0 : (decide ((pre ++ l).length + 1 > pre.length) && true) = true := by
        simp; omega
      simp only [hxy, h0, if_true]
      rw [swapAt_adjacent]
      have e1 : (pre ++ l).length = pre.length + l.length := by simp
      have e2 : pre ++ l ++ x :: y :: r = pre ++ (l ++ x :: (y :: r)) := by simp
      rw [e1, e2, ih]
      simp
    · have hxy2 : less x y = false := by simpa using hxy
      simp [hxy2]

theorem insertBack_length {α : Type} (less : α → α → Bool) (x : α) (l : List α) :
    (insertBack less x l).length = l.length + 1 := by
  have := (insertBack_perm less x l).length_eq
  simpa using this

theorem insertionOuter_range {α : Type} (less : α → α → Bool) (pre front rest post : List α) :
    insertionOuter less pre.length rest.length (pre.length + front.length)
        (pre ++ (front ++ (rest ++ post)))
      = pre ++ (rest.foldl (fun acc x => insertBack less x acc) front ++ post) := by
  induction rest generalizing front with
  | nil => simp [insertionOuter]
  | cons x rest ih =>
    simp only [List.length_cons, insertionOuter, List.foldl_cons]
    have e1 : pre ++ (front ++ (x :: rest ++ post)) = pre ++ (front ++ x :: (rest ++ post)) := by
      simp
    rw [e1, insertionInner_range]
    have e2 : pre.length + front.length + 1 = pre.length + (insertBack less x front).length := by
      rw [insertBack_length]; omega
    rw [e2]
    exact ih (insertBack less x front)

theorem foldl_insertBack_perm {α : Type} (less : α → α → Bool) (rest front : List α) :
    (rest.foldl (fun acc x => insertBack less x acc) front).Perm (front ++ rest) := by
  induction rest generalizing front with
  | nil => simp
  | cons x rest ih =>
    simp only [List.foldl_cons]
    refine (ih _).trans ?_
    have h1 := insertBack_perm less x front
    have h2 : (x :: front).Perm (front ++ [x]) :=
      (List.perm_append_comm : ([x] ++ front).Perm (front ++ [x]))
    have h3 := (h1.trans h2).append_right rest
    simpa using h3

theorem foldl_insertBack_pairwise {α : Type} (less : α → α → Bool) (hless : LessOrdering less)
    (rest front : List α) (h : front.Pairwise (fun p q => less q p = false)) :
    (rest.foldl (fun acc x => insertBack less x acc) front).Pairwise
      (fun p q => less q p = false) := by
  induction rest generalizing front with
  | nil => simpa using h
  | cons x rest ih =>
    simp only [List.foldl_cons]
    exact ih _ (insertBack_pairwise less hless x front h)

/-- A rewriting of the middle part of a slice is a rearrangement of its range. -/
theorem rangePerm_of_decomp {α : Type} (pre mid mid2 post : List α) (h : mid2.Perm mid) :
    RangePerm (pre ++ (mid ++ post)) (pre ++ (mid2 ++ post)) pre.length
      (pre.length + mid.length) := by
  refine ⟨List.Perm.append_left _ (List.Perm.append_right _ h), ?_⟩
  intro i hi
  have hl := h.length_eq
  rcases hi with hi | hi
  · rw [List.getElem?_append_left hi, List.getElem?_append_left hi]
  · rw [List.getElem?_append_right (by omega), List.getElem?_append_right (by omega),
      List.getElem?_append_right (by omega), List.getElem?_append_right (by omega), hl]

/-- A middle part in order is a sorted range. -/
theorem sortedRange_of_decomp {α : Type} (less : α → α → Bool) (pre mid post : List α)
    (h : mid.Pairwise (fun p q => less q p = false)) :
    SortedRange less (pre ++ (mid ++ post)) pre.length (pre.length + mid.length) := by
  intro i j x y hi hij hj hx hy
  rw [List.getElem?_append_right (by omega), List.getElem?_append_left (by omega)] at hx hy
  have hx2 := List.getElem?_eq_some.mp hx
  have hy2 := List.getElem?_eq_some.mp hy
  obtain ⟨hxl, hxe⟩ := hx2
  obtain ⟨hyl, hye⟩ := hy2
  have := List.pairwise_iff_getElem.mp h (i - pre.length) (j - pre.length) hxl hyl (by omega)
  rw [hxe, hye] at this
  exact this

/-- Go `insertionSort_func(data, a, b)` sorts `data[a:b]` in place. -/
theorem insertionSort_func_spec {α : Type} (less : α → α → Bool) (hless : LessOrdering less)
    (data : List α) (a b : Nat) (hab : a ≤ b) (hb : b ≤ data.length) :
    RangePerm data (insertionSort_func less data a b) a b ∧
      SortedRange less (insertionSort_func less data a b) a b := by
  have hd := slice_eq data a b hab
  have hpl : (data.take a).length = a := by simp; omega
  have hml : ((data.drop a).take (b - a)).length = b - a := by simp; omega
  generalize data.take a = pre at hd hpl
  generalize (data.drop a).take (b - a) = mid at hd hml
  generalize data.drop b = post at hd
  have key : insertionSort_func less data a b
      = pre ++ (mid.foldl (fun acc x => insertBack less x acc) [] ++ post) := by
    unfold insertionSort_func
    cases mid with
    | nil =>
      have : b - (a + 1) = 0 := by simp at hml; omega
      rw [this, hd]
      rfl
    | cons x rest =>
      have h1 : b - (a + 1) = rest.length := by simp at hml; omega
      have h2 : a + 1 = pre.length + [x].length := by simp [hpl]
      have h3 : data = pre ++ ([x] ++ (rest ++ post)) := by simpa using hd
      rw [h1, h2, h3, ← hpl, insertionOuter_range]
      rfl
  have hperm : (mid.foldl (fun acc x => insertBack less x acc) []).Perm mid := by
    simpa using foldl_insertBack_perm less mid []
  have hpw := foldl_insertBack_pairwise less hless mid [] List.Pairwise.nil
  have hb2 : b = pre.length + mid.length := by omega
  rw [key]
  subst hpl
  subst hb2
  constructor
  · rw [hd]
    exact rangePerm_of_decomp pre mid _ post hperm
  · have := sortedRange_of_decomp less pre _ post hpw
    rw [hperm.length_eq] at this
    exact this


/-! ## Partitioning -/

theorem lessAt_congr {α : Type} (less : α → α → Bool) (d1 d2 : List α) (k k2 a a2 : Nat)
    (hk : d2[k]? = d1[k2]?) (ha : d2[a]? = d1[a2]?) :
    lessAt less d2 k a = lessAt less d1 k2 a2 := by
  unfold lessAt
  rw [hk, ha]

theorem lessAt_eq {α : Type} (less : α → α → Bool) (d : List α) (k a : Nat) (x p : α)
    (hk : d[k]? = some x) (ha : d[a]? = some p) : lessAt less d k a = less x p := by
  unfold lessAt
  rw [hk, ha]

/-- The scan `for i <= j && data.Less(i, a) { i++ }`. -/
theorem scanLess_spec {α : Type} (less : α → α → Bool) (data : List α) (a j : Nat) :
    ∀ (fuel i : Nat), i ≤ j + 1 →
      i ≤ scanLess less a j fuel i data ∧
      scanLess less a j fuel i data ≤ j + 1 ∧
      (∀ k, i ≤ k → k < scanLess less a j fuel i data → lessAt less data k a = true) ∧
      (j + 1 - i ≤ fuel →
        j < scanLess less a j fuel i data ∨
          lessAt less data (scanLess less a j fuel i data) a = false) := by
  intro fuel
  induction fuel with
  | zero =>
    intro i hi
    simp only [scanLess]
    refine ⟨Nat.le_refl _, hi, fun k h1 h2 => by omega, fun h => Or.inl (by omega)⟩
  | succ fuel ih =>
    intro i hi
    simp only [scanLess]
    by_cases hc : (decide (i ≤ j) && lessAt less data i a) = true
    · rw [if_pos hc]
      simp only [Bool.and_eq_true, decide_eq_true_eq] at hc
      obtain ⟨h1, h2, h3, h4⟩ := ih (i + 1) (by omega)
      refine ⟨by omega, h2, ?_, fun h => h4 (by omega)⟩
      intro k hk1 hk2
      by_cases hki : k = i
      · rw [hki]; exact hc.2
      · exact h3 k (by omega) hk2
    · rw [if_neg hc]
      refine ⟨Nat.le_refl _, hi, fun k h1 h2 => by omega, fun _ => ?_⟩
      by_cases hij : i ≤ j
      · right
        simpa [hij] using hc
      · left; omega

/-- The scan `for i <= j && !data.Less(j, a) { j-- }`. -/
theorem scanNotLess_spec {α : Type} (less : α → α → Bool) (data : List α) (a i : Nat)
    (hi0 : 1 ≤ i) :
    ∀ (fuel j : Nat), i ≤ j + 1 →
      scanNotLess less a i fuel j data ≤ j ∧
      i ≤ scanNotLess less a i fuel j data + 1 ∧
      (∀ k, scanNotLess less a i fuel j data < k → k ≤ j → lessAt less data k a = false) ∧
      (j + 1 - i ≤ fuel →
        scanNotLess less a i fuel j data < i ∨
          lessAt less data (scanNotLess less a i fuel j data) a = true) := by
  intro fuel
  induction fuel with
  | zero =>
    intro j hj
    simp only [scanNotLess]
    refine ⟨Nat.le_refl _, hj, fun k h1 h2 => by omega, fun h => Or.inl (by omega)⟩
  | succ fuel ih =>
    intro j hj
    simp only [scanNotLess]
    by_cases hc : (decide (i ≤ j) && !lessAt less data j a) = true
    · rw [if_pos hc]
      simp only [Bool.and_eq_true, decide_eq_true_eq, Bool.not_eq_true'] at hc
      obtain ⟨h1, h2, h3, h4⟩ := ih (j - 1) (by omega)
      refine ⟨by omega, h2, ?_, fun h => h4 (by omega)⟩
      intro k hk1 hk2
      by_cases hkj : k = j
      · rw [hkj]; exact hc.2
      · exact h3 k hk1 (by omega)
    · rw [if_neg hc]
      refine ⟨Nat.le_refl _, hj, fun k h1 h2 => by omega, fun _ => ?_⟩
      by_cases hij : i ≤ j
      · right
        simpa [hij] using hc
      · left; omega

/-- The main loop of `partition_func`: with everything in `(a, i)` less than the
pivot `data[a]` and nothing in `(j, b)` less than it, the loop ends with the two
sides meeting at its result. -/
theorem partitionLoop_spec {α : Type} (less : α → α → Bool) (a b : Nat) :
    ∀ (fuel i j : Nat) (data : List α), a < i → i ≤ j + 1 → j < b → b ≤ data.length →
      j + 1 - i ≤ fuel →
      (∀ k, a < k → k < i → lessAt less data k a = true) →
      (∀ k, j < k → k < b → lessAt less data k a = false) →
      RangePerm data (partitionLoop less a b fuel i j data).1 (a + 1) b ∧
      a ≤ (partitionLoop less a b fuel i j data).2 ∧
      (partitionLoop less a b fuel i j data).2 < b ∧
      (∀ k, a < k → k ≤ (partitionLoop less a b fuel i j data).2 →
        lessAt less (partitionLoop less a b fuel i j data).1 k a = true) ∧
      (∀ k, (partitionLoop less a b fuel i j data).2 < k → k < b →
        lessAt less (partitionLoop less a b fuel i j data).1 k a = false) := by
  intro fuel
  induction fuel with
  | zero =>
    intro i j data hai hij hjb hb hf hL hR
    simp only [partitionLoop]
    exact ⟨RangePerm.refl _ _ _, by omega, hjb, fun k h1 h2 => hL k h1 (by omega), hR⟩
  | succ fuel ih =>
    intro i j data hai hij hjb hb hf hL hR
    simp only [partitionLoop]
    obtain ⟨s1, s2, s3, s4⟩ := scanLess_spec less data a j (b - a) i hij
    generalize scanLess less a j (b - a) i data = i1 at s1 s2 s3 s4 ⊢
    obtain ⟨t1, t2, t3, t4⟩ := scanNotLess_spec less data a i1 (by omega) (b - a) j s2
    generalize scanNotLess less a i1 (b - a) j data = j1 at t1 t2 t3 t4 ⊢
    have hL1 : ∀ k, a < k → k < i1 → lessAt less data k a = true := by
      intro k h1 h2
      by_cases hk : k < i
      · exact hL k h1 hk
      · exact s3 k (by omega) h2
    have hR1 : ∀ k, j1 < k → k < b → lessAt less data k a = false := by
      intro k h1 h2
      by_cases hk : j < k
      · exact hR k hk h2
      · exact t3 k h1 (by omega)
    by_cases hc : i1 > j1
    · rw [if_pos hc]
      exact ⟨RangePerm.refl _ _ _, by omega, by omega, fun k h1 h2 => hL1 k h1 (by omega), hR1⟩
    · rw [if_neg hc]
      have e1 : lessAt less data i1 a = false := by
        rcases s4 (by omega) with h | h
        · omega
        · exact h
      have e2 : lessAt less data j1 a = true := by
        rcases t4 (by omega) with h | h
        · omega
        · exact h
      have hne : i1 ≠ j1 := by
        intro h
        rw [h, e2] at e1
        cases e1
      have hi1 : i1 < data.length := by omega
      have hj1 : j1 < data.length := by omega
      have hsw : ∀ k, (swapAt data i1 j1)[k]? =
          if k = j1 then data[i1]? else if k = i1 then data[j1]? else data[k]? :=
        fun k => swapAt_getElem? data i1 j1 k hi1 hj1
      have hswa : (swapAt data i1 j1)[a]? = data[a]? := by
        rw [hsw, if_neg (by omega), if_neg (by omega)]
      obtain ⟨r1, r2, r3, r4, r5⟩ := ih (i1 + 1) (j1 - 1) (swapAt data i1 j1) (by omega)
        (by omega) (by omega) (by rw [swapAt_length]; exact hb) (by omega)
        (by
          intro k h1 h2
          by_cases hk : k = i1
          · rw [hk, lessAt_congr less data _ i1 j1 a a (by rw [hsw, if_neg hne, if_pos rfl]) hswa]
            exact e2
          · rw [lessAt_congr less data _ k k a a
              (by rw [hsw, if_neg (by omega), if_neg hk]) hswa]
            exact hL1 k h1 (by omega))
        (by
          intro k h1 h2
          by_cases hk : k = j1
          · rw [hk, lessAt_congr less data _ j1 i1 a a (by rw [hsw, if_pos rfl]) hswa]
            exact e1
          · rw [lessAt_congr less data _ k k a a
              (by rw [hsw, if_neg hk, if_neg (by omega)]) hswa]
            exact hR1 k (by omega) h2)
      exact ⟨(swapAt_rangePerm data (a + 1) b i1 j1 ⟨by omega, by omega⟩
        ⟨by omega, by omega⟩).trans r1, r2, r3, r4, r5⟩

/-- Go `partition_func(data, a, b, pivot)` rearranges `data[a:b]` around the
element that was at `pivot`. -/
theorem partition_func_spec {α : Type} (less : α → α → Bool) (data : List α)
    (a b pivot : Nat) (hap : a ≤ pivot) (hpb : pivot < b) (hb : b ≤ data.length) :
    RangePerm data (partition_func less data a b pivot).1 a b ∧
    a ≤ (partition_func less data a b pivot).2.1 ∧
    (partition_func less data a b pivot).2.1 < b ∧
    Partitioned less (partition_func less data a b pivot).1 a
      (partition_func less data a b pivot).2.1 b := by
  have hab : a < b := by omega
  have h0 := swapAt_rangePerm data a b a pivot ⟨Nat.le_refl _, hab⟩ ⟨hap, hpb⟩
  have hlen0 : (swapAt data a pivot).length = data.length := swapAt_length _ _ _
  generalize hd0 : swapAt data a pivot = d0 at h0 hlen0
  -- finishing: the pivot is swapped to where the sides meet
  have finish : ∀ (d : List α) (j : Nat), d.length = data.length → a ≤ j → j < b →
      (∀ k, a < k → k ≤ j → lessAt less d k a = true) →
      (∀ k, j < k → k < b → lessAt less d k a = false) →
      RangePerm d (swapAt d j a) a b ∧ Partitioned less (swapAt d j a) a j b := by
    intro d j hdl haj hjb hL hR
    have hjl : j < d.length := by omega
    have hal : a < d.length := by omega
    have hsw : ∀ k, (swapAt d j a)[k]? =
        if k = a then d[j]? else if k = j then d[a]? else d[k]? :=
      fun k => swapAt_getElem? d j a k hjl hal
    refine ⟨swapAt_rangePerm d a b j a ⟨haj, hjb⟩ ⟨Nat.le_refl _, hab⟩, ?_⟩
    refine ⟨d[a], ?_, ?_, ?_⟩
    · rw [hsw]
      by_cases hja : j = a
      · rw [if_pos hja, hja]; exact List.getElem?_eq_getElem hal
      · rw [if_neg hja, if_pos rfl]; exact List.getElem?_eq_getElem hal
    · intro k x h1 h2 h3
      rw [hsw] at h3
      by_cases hka : k = a
      · rw [if_pos hka] at h3
        have := hL j (by omega) (Nat.le_refl _)
        rw [lessAt_eq less d j a x d[a] h3 (List.getElem?_eq_getElem hal)] at this
        exact this
      · rw [if_neg hka, if_neg (by omega)] at h3
        have := hL k (by omega) (by omega)
        rw [lessAt_eq less d k a x d[a] h3 (List.getElem?_eq_getElem hal)] at this
        exact this
    · intro k x h1 h2 h3
      rw [hsw, if_neg (by omega), if_neg (by omega)] at h3
      have := hR k (by omega) h2
      rw [lessAt_eq less d k a x d[a] h3 (List.getElem?_eq_getElem hal)] at this
      exact this
  unfold partition_func
  simp only [hd0]
  obtain ⟨s1, s2, s3, s4⟩ := scanLess_spec less d0 a (b - 1) (b - a) (a + 1) (by omega)
  generalize scanLess less a (b - 1) (b - a) (a + 1) d0 = i1 at s1 s2 s3 s4 ⊢
  obtain ⟨t1, t2, t3, t4⟩ := scanNotLess_spec less d0 a i1 (by omega) (b - a) (b - 1) s2
  generalize scanNotLess less a i1 (b - a) (b - 1) d0 = j1 at t1 t2 t3 t4 ⊢
  have hL1 : ∀ k, a < k → k < i1 → lessAt less d0 k a = true :=
    fun k h1 h2 => s3 k (by omega) h2
  have hR1 : ∀ k, j1 < k → k < b → lessAt less d0 k a = false :=
    fun k h1 h2 => t3 k h1 (by omega)
  by_cases hc : i1 > j1
  · rw [if_pos hc]
    obtain ⟨f1, f2⟩ := finish d0 j1 hlen0 (by omega) (by omega)
      (fun k h1 h2 => hL1 k h1 (by omega)) hR1
    exact ⟨h0.trans f1, (by show a ≤ j1; omega), (by show j1 < b; omega), f2⟩
  · rw [if_neg hc]
    have e1 : lessAt less d0 i1 a = false := by
      rcases s4 (by omega) with h | h
      · omega
      · exact h
    have e2 : lessAt less d0 j1 a = true := by
      rcases t4 (by omega) with h | h
      · omega
      · exact h
    have hne : i1 ≠ j1 := by
      intro h
      rw [h, e2] at e1
      cases e1
    have hi1 : i1 < d0.length := by omega
    have hj1 : j1 < d0.length := by omega
    have hsw : ∀ k, (swapAt d0 i1 j1)[k]? =
        if k = j1 then d0[i1]? else if k = i1 then d0[j1]? else d0[k]? :=
      fun k => swapAt_getElem? d0 i1 j1 k hi1 hj1
    have hswa : (swapAt d0 i1 j1)[a]? = d0[a]? := by
      rw [hsw, if_neg (by omega), if_neg (by omega)]
    obtain ⟨r1, r2, r3, r4, r5⟩ := partitionLoop_spec less a b (b - a) (i1 + 1) (j1 - 1)
      (swapAt d0 i1 j1) (by omega) (by omega) (by omega)
      (by rw [swapAt_length]; omega) (by omega)
      (by
        intro k h1 h2
        by_cases hk : k = i1
        · rw [hk, lessAt_congr less d0 _ i1 j1 a a (by rw [hsw, if_neg hne, if_pos rfl]) hswa]
          exact e2
        · rw [lessAt_congr less d0 _ k k a a
            (by rw [hsw, if_neg (by omega), if_neg hk]) hswa]
          exact hL1 k h1 (by omega))
      (by
        intro k h1 h2
        by_cases hk : k = j1
        · rw [hk, lessAt_congr less d0 _ j1 i1 a a (by rw [hsw, if_pos rfl]) hswa]
          exact e1
        · rw [lessAt_congr less d0 _ k k a a
            (by rw [hsw, if_neg hk, if_neg (by omega)]) hswa]
          exact hR1 k (by omega) h2)
    generalize partitionLoop less a b (b - a) (i1 + 1) (j1 - 1) (swapAt d0 i1 j1) = res
      at r1 r2 r3 r4 r5 ⊢
    obtain ⟨d2, j2⟩ := res
    simp only at r1 r2 r3 r4 r5 ⊢
    have hl2 : d2.length = data.length := by
      rw [r1.length_eq, swapAt_length]; exact hlen0
    obtain ⟨f1, f2⟩ := finish d2 j2 hl2 r2 r3 r4 r5
    have hsw1 := swapAt_rangePerm d0 a b i1 j1 ⟨by omega, by omega⟩ ⟨by omega, by omega⟩
    exact ⟨(h0.trans (hsw1.trans (r1.mono (by omega) (Nat.le_refl _)))).trans f1, r2, r3, f2⟩


/-! ## Partitioning off the elements equal to the pivot -/

/-- The scan `for i <= j && !data.Less(a, i) { i++ }`. -/
theorem scanEqual_spec {α : Type} (less : α → α → Bool) (data : List α) (a j : Nat) :
    ∀ (fuel i : Nat), i ≤ j + 1 →
      i ≤ scanEqual less a j fuel i data ∧
      scanEqual less a j fuel i data ≤ j + 1 ∧
      (∀ k, i ≤ k → k < scanEqual less a j fuel i data → lessAt less data a k = false) ∧
      (j + 1 - i ≤ fuel →
        j < scanEqual less a j fuel i data ∨
          lessAt less data a (scanEqual less a j fuel i data) = true) := by
  intro fuel
  induction fuel with
  | zero =>
    intro i hi
    simp only [scanEqual]
    refine ⟨Nat.le_refl _, hi, fun k h1 h2 => by omega, fun h => Or.inl (by omega)⟩
  | succ fuel ih =>
    intro i hi
    simp only [scanEqual]
    by_cases hc : (decide (i ≤ j) && !lessAt less data a i) = true
    · rw [if_pos hc]
      simp only [Bool.and_eq_true, decide_eq_true_eq, Bool.not_eq_true'] at hc
      obtain ⟨h1, h2, h3, h4⟩ := ih (i + 1) (by omega)
      refine ⟨by omega, h2, ?_, fun h => h4 (by omega)⟩
      intro k hk1 hk2
      by_cases hki : k = i
      · rw [hki]; exact hc.2
      · exact h3 k (by omega) hk2
    · rw [if_neg hc]
      refine ⟨Nat.le_refl _, hi, fun k h1 h2 => by omega, fun _ => ?_⟩
      by_cases hij : i ≤ j
      · right
        simpa [hij] using hc
      · left; omega

/-- The scan `for i <= j && data.Less(a, j) { j-- }`. -/
theorem scanGreater_spec {α : Type} (less : α → α → Bool) (data : List α) (a i : Nat)
    (hi0 : 1 ≤ i) :
    ∀ (fuel j : Nat), i ≤ j + 1 →
      scanGreater less a i fuel j data ≤ j ∧
      i ≤ scanGreater less a i fuel j data + 1 ∧
      (∀ k, scanGreater less a i fuel j data < k → k ≤ j → lessAt less data a k = true) ∧
      (j + 1 - i ≤ fuel →
        scanGreater less a i fuel j data < i ∨
          lessAt less data a (scanGreater less a i fuel j data) = false) := by
  intro fuel
  induction fuel with
  | zero =>
    intro j hj
    simp only [scanGreater]
    refine ⟨Nat.le_refl _, hj, fun k h1 h2 => by omega, fun h => Or.inl (by omega)⟩
  | succ fuel ih =>
    intro j hj
    simp only [scanGreater]
    by_cases hc : (decide (i ≤ j) && lessAt less data a j) = true
    · rw [if_pos hc]
      simp only [Bool.and_eq_true, decide_eq_true_eq] at hc
      obtain ⟨h1, h2, h3, h4⟩ := ih (j - 1) (by omega)
      refine ⟨by omega, h2, ?_, fun h => h4 (by omega)⟩
      intro k hk1 hk2
      by_cases hkj : k = j
      · rw [hkj]; exact hc.2
      · exact h3 k hk1 (by omega)
    · rw [if_neg hc]
      refine ⟨Nat.le_refl _, hj, fun k h1 h2 => by omega, fun _ => ?_⟩
      by_cases hij : i ≤ j
      · right
        simpa [hij] using hc
      · left; omega

/-- The loop of `partitionEqual_func`. -/
theorem partitionEqualLoop_spec {α : Type} (less : α → α → Bool) (a b : Nat) :
    ∀ (fuel i j : Nat) (data : List α), a < i → i ≤ j + 1 → j < b → b ≤ data.length →
      j + 1 - i ≤ fuel →
      (∀ k, a < k → k < i → lessAt less data a k = false) →
      (∀ k, j < k → k < b → lessAt less data a k = true) →
      RangePerm data (partitionEqualLoop less a b fuel i j data).1 (a + 1) b ∧
      a < (partitionEqualLoop less a b fuel i j data).2 ∧
      (partitionEqualLoop less a b fuel i j data).2 ≤ b ∧
      (∀ k, a < k → k < (partitionEqualLoop less a b fuel i j data).2 →
        lessAt less (partitionEqualLoop less a b fuel i j data).1 a k = false) ∧
      (∀ k, (partitionEqualLoop less a b fuel i j data).2 ≤ k → k < b →
        lessAt less (partitionEqualLoop less a b fuel i j data).1 a k = true) := by
  intro fuel
  induction fuel with
  | zero =>
    intro i j data hai hij hjb hb hf hL hR
    simp only [partitionEqualLoop]
    exact ⟨RangePerm.refl _ _ _, hai, by omega, hL, fun k h1 h2 => hR k (by omega) h2⟩
  | succ fuel ih =>
    intro i j data hai hij hjb hb hf hL hR
    simp only [partitionEqualLoop]
    obtain ⟨s1, s2, s3, s4⟩ := scanEqual_spec less data a j (b - a) i hij
    generalize scanEqual less a j (b - a) i data = i1 at s1 s2 s3 s4 ⊢
    obtain ⟨t1, t2, t3, t4⟩ := scanGreater_spec less data a i1 (by omega) (b - a) j s2
    generalize scanGreater less a i1 (b - a) j data = j1 at t1 t2 t3 t4 ⊢
    have hL1 : ∀ k, a < k → k < i1 → lessAt less data a k = false := by
      intro k h1 h2
      by_cases hk : k < i
      · exact hL k h1 hk
      · exact s3 k (by omega) h2
    have hR1 : ∀ k, j1 < k → k < b → lessAt less data a k = true := by
      intro k h1 h2
      by_cases hk : j < k
      · exact hR k hk h2
      · exact t3 k h1 (by omega)
    by_cases hc : i1 > j1
    · rw [if_pos hc]
      exact ⟨RangePerm.refl _ _ _, by show a < i1; omega, by show i1 ≤ b; omega, hL1,
        fun k h1 h2 => hR1 k (by omega) h2⟩
    · rw [if_neg hc]
      have e1 : lessAt less data a i1 = true := by
        rcases s4 (by omega) with h | h
        · omega
        · exact h
      have e2 : lessAt less data a j1 = false := by
        rcases t4 (by omega) with h | h
        · omega
        · exact h
      have hne : i1 ≠ j1 := by
        intro h
        rw [h, e2] at e1
        cases e1
      have hi1 : i1 < data.length := by omega
      have hj1 : j1 < data.length := by omega
      have hsw : ∀ k, (swapAt data i1 j1)[k]? =
          if k = j1 then data[i1]? else if k = i1 then data[j1]? else data[k]? :=
        fun k => swapAt_getElem? data i1 j1 k hi1 hj1
      have hswa : (swapAt data i1 j1)[a]? = data[a]? := by
        rw [hsw, if_neg (by omega), if_neg (by omega)]
      obtain ⟨r1, r2, r3, r4, r5⟩ := ih (i1 + 1) (j1 - 1) (swapAt data i1 j1) (by omega)
        (by omega) (by omega) (by rw [swapAt_length]; exact hb) (by omega)
        (by
          intro k h1 h2
          by_cases hk : k = i1
          · rw [hk, lessAt_congr less data _ a a i1 j1 hswa (by rw [hsw, if_neg hne, if_pos rfl])]
            exact e2
          · rw [lessAt_congr less data _ a a k k hswa
              (by rw [hsw, if_neg (by omega), if_neg hk])]
            exact hL1 k h1 (by omega))
        (by
          intro k h1 h2
          by_cases hk : k = j1
          · rw [hk, lessAt_congr less data _ a a j1 i1 hswa (by rw [hsw, if_pos rfl])]
            exact e1
          · rw [lessAt_congr less data _ a a k k hswa
              (by rw [hsw, if_neg hk, if_neg (by omega)])]
            exact hR1 k (by omega) h2)
      exact ⟨(swapAt_rangePerm data (a + 1) b i1 j1 ⟨by omega, by omega⟩
        ⟨by omega, by omega⟩).trans r1, r2, r3, r4, r5⟩

/-- Go `partitionEqual_func(data, a, b, pivot)`: the elements not greater than
the pivot come first, the greater ones after them, from the returned
position on. -/
theorem partitionEqual_func_spec {α : Type} (less : α → α → Bool) (hless : LessOrdering less)
    (data : List α) (a b pivot : Nat) (hap : a ≤ pivot) (hpb : pivot < b)
    (hb : b ≤ data.length) :
    RangePerm data (partitionEqual_func less data a b pivot).1 a b ∧
    a < (partitionEqual_func less data a b pivot).2 ∧
    (partitionEqual_func less data a b pivot).2 ≤ b ∧
    ∃ p, data[pivot]? = some p ∧
      RangeAll (fun x => less p x = false) (partitionEqual_func less data a b pivot).1 a
        (partitionEqual_func less data a b pivot).2 ∧
      RangeAll (fun x => less p x = true) (partitionEqual_func less data a b pivot).1
        (partitionEqual_func less data a b pivot).2 b := by
  have hab : a < b := by omega
  have hpl : pivot < data.length := by omega
  have hal : a < data.length := by omega
  have h0 := swapAt_rangePerm data a b a pivot ⟨Nat.le_refl _, hab⟩ ⟨hap, hpb⟩
  have hlen0 : (swapAt data a pivot).length = data.length := swapAt_length _ _ _
  have ha0 : (swapAt data a pivot)[a]? = some data[pivot] := by
    rw [swapAt_getElem? data a pivot a hal hpl]
    by_cases h : a = pivot
    · rw [if_pos h]
      simp [h]
    · rw [if_neg h, if_pos rfl]
      exact List.getElem?_eq_getElem hpl
  generalize hd0 : swapAt data a pivot = d0 at h0 hlen0 ha0
  unfold partitionEqual_func
  simp only [hd0]
  obtain ⟨r1, r2, r3, r4, r5⟩ := partitionEqualLoop_spec less a b (b - a) (a + 1) (b - 1) d0
    (by omega) (by omega) (by omega) (by omega) (by omega)
    (fun k h1 h2 => by omega) (fun k h1 h2 => by omega)
  generalize partitionEqualLoop less a b (b - a) (a + 1) (b - 1) d0 = res at r1 r2 r3 r4 r5 ⊢
  obtain ⟨d2, mid⟩ := res
  simp only at r1 r2 r3 r4 r5 ⊢
  have ha2 : d2[a]? = some data[pivot] := by
    rw [r1.2 a (Or.inl (by omega))]; exact ha0
  refine ⟨h0.trans (r1.mono (by omega) (Nat.le_refl _)), r2, r3, data[pivot],
    List.getElem?_eq_getElem hpl, ?_, ?_⟩
  · intro k x h1 h2 h3
    by_cases hk : k = a
    · rw [hk, ha2] at h3
      cases h3
      exact hless.irrefl _
    · have := r4 k (by omega) h2
      rw [lessAt_eq less d2 a k _ x ha2 h3] at this
      exact this
  · intro k x h1 h2 h3
    have := r5 k h1 h2
    rw [lessAt_eq less d2 a k _ x ha2 h3] at this
    exact this


/-! ## Pivot choice, reversal and pattern breaking -/

theorem reverseLoop_rangePerm {α : Type} (a b : Nat) :
    ∀ (fuel i j : Nat) (data : List α), a ≤ i → j < b →
      RangePerm data (reverseLoop fuel i j data) a b := by
  intro fuel
  induction fuel with
  | zero => intro i j data _ _; exact RangePerm.refl _ _ _
  | succ fuel ih =>
    intro i j data hi hj
    simp only [reverseLoop]
    by_cases hc : i < j
    · rw [if_pos hc]
      exact (swapAt_rangePerm data a b i j ⟨hi, by omega⟩ ⟨by omega, hj⟩).trans
        (ih (i + 1) (j - 1) _ (by omega) (by omega))
    · rw [if_neg hc]
      exact RangePerm.refl _ _ _

theorem reverseRange_func_rangePerm {α : Type} (data : List α) (a b : Nat) (hab : a < b) :
    RangePerm data (reverseRange_func data a b) a b :=
  reverseLoop_rangePerm a b (b - a) a (b - 1) data (Nat.le_refl _) (by omega)

theorem two_pow_bitsLen_le (fuel x : Nat) (hx : 0 < x) : 2 ^ bitsLen fuel x ≤ 2 * x := by
  induction fuel generalizing x with
  | zero => simp [bitsLen]; omega
  | succ fuel ih =>
    simp only [bitsLen]
    rw [if_neg (by omega)]
    have h2 : 2 ^ (1 + bitsLen fuel (x / 2)) = 2 * 2 ^ bitsLen fuel (x / 2) := by
      rw [Nat.add_comm, Nat.pow_succ, Nat.mul_comm]
    rw [h2]
    by_cases h0 : x / 2 = 0
    · have hb : bitsLen fuel 0 = 0 := by cases fuel <;> simp [bitsLen]
      rw [h0, hb]
      omega
    · have := ih (x / 2) (by omega)
      omega

theorem breakPatterns_func_rangePerm {α : Type} (data : List α) (a b : Nat) :
    RangePerm data (breakPatterns_func data a b) a b := by
  unfold breakPatterns_func
  by_cases hl : b - a ≥ 8
  · simp only [hl, if_true]
    have hm := two_pow_bitsLen_le (b - a + 1) (b - a) (by omega)
    have hmpos : 0 < 2 ^ bitsLen (b - a + 1) (b - a) := Nat.pow_pos (by omega)
    generalize 2 ^ bitsLen (b - a + 1) (b - a) = modulus at hm hmpos
    have hother : ∀ random : Nat,
        a ≤ a + (if random % modulus ≥ b - a then random % modulus - (b - a)
                 else random % modulus) ∧
        a + (if random % modulus ≥ b - a then random % modulus - (b - a)
                 else random % modulus) < b := by
      intro random
      have hr : random % modulus < 2 * (b - a) := by
        have := Nat.mod_lt random hmpos
        omega
      split <;> omega
    have hq : (b - a) / 4 * 2 ≥ 4 ∧ (b - a) / 4 * 2 < b - a := by
      constructor <;> omega
    have hidx : ∀ i, i < 3 →
        a ≤ a + (b - a) / 4 * 2 - 1 - 1 + i ∧ a + (b - a) / 4 * 2 - 1 - 1 + i < b := by
      intro i hi
      constructor <;> omega
    have h3 : List.range 3 = [0, 1, 2] := by decide
    rw [h3]
    simp only [List.foldl_cons, List.foldl_nil]
    exact ((swapAt_rangePerm _ a b _ _ (hidx 0 (by omega)) (hother _)).trans
      (swapAt_rangePerm _ a b _ _ (hidx 1 (by omega)) (hother _))).trans
      (swapAt_rangePerm _ a b _ _ (hidx 2 (by omega)) (hother _))
  · simp only [hl, if_false]
    exact RangePerm.refl _ _ _

theorem order2_func_cases {α : Type} (less : α → α → Bool) (data : List α) (x y s : Nat) :
    ((order2_func less data x y s).1 = x ∧ (order2_func less data x y s).2.1 = y) ∨
    ((order2_func less data x y s).1 = y ∧ (order2_func less data x y s).2.1 = x) := by
  unfold order2_func
  split
  · right; exact ⟨rfl, rfl⟩
  · left; exact ⟨rfl, rfl⟩

theorem median_func_mem {α : Type} (less : α → α → Bool) (data : List α) (x y z s : Nat) :
    (median_func less data x y z s).1 = x ∨ (median_func less data x y z s).1 = y ∨
      (median_func less data x y z s).1 = z := by
  unfold median_func
  rcases h1 : order2_func less data x y s with ⟨a1, b1, s1⟩
  have c1 := order2_func_cases less data x y s
  rw [h1] at c1
  simp only at c1 ⊢
  rcases h2 : order2_func less data b1 z s1 with ⟨b2, c2, s2⟩
  have d1 := order2_func_cases less data b1 z s1
  rw [h2] at d1
  simp only at d1 ⊢
  rcases h3 : order2_func less data a1 b2 s2 with ⟨a3, b3, s3⟩
  have e1 := order2_func_cases less data a1 b2 s2
  rw [h3] at e1
  simp only at e1 ⊢
  rcases c1 with ⟨ca, cb⟩ | ⟨ca, cb⟩ <;> rcases d1 with ⟨da, db⟩ | ⟨da, db⟩ <;>
    rcases e1 with ⟨ea, eb⟩ | ⟨ea, eb⟩ <;> subst_vars <;> simp

theorem median_func_bounds {α : Type} (less : α → α → Bool) (data : List α)
    (x y z s lo hi : Nat) (hx : lo ≤ x ∧ x < hi) (hy : lo ≤ y ∧ y < hi) (hz : lo ≤ z ∧ z < hi) :
    lo ≤ (median_func less data x y z s).1 ∧ (median_func less data x y z s).1 < hi := by
  rcases median_func_mem less data x y z s with h | h | h <;> rw [h] <;> assumption

/-- Go `choosePivot_func(data, a, b)` picks a position inside the range. -/
theorem choosePivot_func_bounds {α : Type} (less : α → α → Bool) (data : List α) (a b : Nat)
    (hl : 8 ≤ b - a) :
    a ≤ (choosePivot_func less data a b).1 ∧ (choosePivot_func less data a b).1 < b := by
  have hq : 2 ≤ (b - a) / 4 ∧ (b - a) / 4 * 4 ≤ b - a := by
    constructor <;> omega
  unfold choosePivot_func
  simp only [show b - a ≥ 8 from hl, if_true]
  by_cases h50 : b - a ≥ 50
  · simp only [h50, if_true, nintherStep, medianAdjacent_func]
    apply median_func_bounds
    · apply median_func_bounds <;> constructor <;> omega
    · apply median_func_bounds <;> constructor <;> omega
    · apply median_func_bounds <;> constructor <;> omega
  · simp only [h50, if_false]
    apply median_func_bounds <;> constructor <;> omega


/-! ## Partial insertion sort -/

theorem shiftSmaller_eq {α : Type} (less : α → α → Bool) (j : Nat) (data : List α) :
    shiftSmaller less j data = insertionInner less 0 j data := by
  induction j generalizing data with
  | zero => rfl
  | succ j ih =>
    simp only [shiftSmaller, insertionInner]
    by_cases h : lessAt less data (j + 1) j = true
    · simp [h, ih]
    · have h2 : lessAt less data (j + 1) j = false := by simpa using h
      simp [h2]

/-- Shifting `x` towards the front of the slice stops at the start of the range
when the element before the range is not greater than `x`. -/
theorem insertionInner_zero_range {α : Type} (less : α → α → Bool) (pre l : List α) (x : α)
    (r : List α) (hw : ∀ w, pre.getLast? = some w → less x w = false) :
    insertionInner less 0 (pre.length + l.length) (pre ++ (l ++ x :: r))
      = pre ++ (insertBack less x l ++ r) := by
  induction l using List.reverseRecOn generalizing r with
  | nil =>
    simp only [List.length_nil, Nat.add_zero, List.nil_append]
    have hb : insertBack less x [] = [x] := rfl
    rw [hb]
    induction pre using List.reverseRecOn with
    | nil => rfl
    | append_singleton pre w _ =>
      have hlen : (pre ++ [w]).length = pre.length + 1 := by simp
      have hdata : pre ++ [w] ++ ([x] ++ r) = pre ++ w :: x :: r := by simp
      have hdata2 : pre ++ [w] ++ x :: r = pre ++ w :: x :: r := by simp
      rw [hlen, hdata2, insertionInner, lessAt_adjacent, hw w (by simp)]
      simp
  | append_singleton l y ih =>
    have hlen : pre.length + (l ++ [y]).length = (pre ++ l).length + 1 := by
      simp [Nat.add_assoc]
    have hdata : pre ++ (l ++ [y] ++ x :: r) = (pre ++ l) ++ y :: x :: r := by simp
    rw [hlen, hdata, insertionInner, lessAt_adjacent, insertBack_snoc]
    by_cases hxy : less x y = true
    · have h0 : (decide ((pre ++ l).length + 1 > 0) && true) = true := by simp
      simp only [hxy, h0, if_true]
      rw [swapAt_adjacent]
      have e1 : (pre ++ l).length = pre.length + l.length := by simp
      have e2 : pre ++ l ++ x :: y :: r = pre ++ (l ++ x :: (y :: r)) := by simp
      rw [e1, e2, ih]
      simp
    · have hxy2 : less x y = false := by simpa using hxy
      simp [hxy2]

/-- The scan `for i < b && !data.Less(i, i-1) { i++ }`. -/
theorem scanSorted_spec {α : Type} (less : α → α → Bool) (data : List α) (b : Nat) :
    ∀ (fuel i : Nat), i ≤ b →
      i ≤ scanSorted less b fuel i data ∧
      scanSorted less b fuel i data ≤ b ∧
      (∀ k, i ≤ k → k < scanSorted less b fuel i data → lessAt less data k (k - 1) = false) ∧
      (b - i ≤ fuel →
        scanSorted less b fuel i data = b ∨
          lessAt less data (scanSorted less b fuel i data)
            (scanSorted less b fuel i data - 1) = true) := by
  intro fuel
  induction fuel with
  | zero =>
    intro i hi
    simp only [scanSorted]
    refine ⟨Nat.le_refl _, hi, fun k h1 h2 => by omega, fun h => Or.inl (by omega)⟩
  | succ fuel ih =>
    intro i hi
    simp only [scanSorted]
    by_cases hc : (decide (i < b) && !lessAt less data i (i - 1)) = true
    · rw [if_pos hc]
      simp only [Bool.and_eq_true, decide_eq_true_eq, Bool.not_eq_true'] at hc
      obtain ⟨h1, h2, h3, h4⟩ := ih (i + 1) (by omega)
      refine ⟨by omega, h2, ?_, fun h => h4 (by omega)⟩
      intro k hk1 hk2
      by_cases hki : k = i
      · rw [hki]; exact hc.2
      · exact h3 k (by omega) hk2
    · rw [if_neg hc]
      refine ⟨Nat.le_refl _, hi, fun k h1 h2 => by omega, fun _ => ?_⟩
      by_cases hib : i < b
      · right
        simpa [hib] using hc
      · left; omega

/-- A sorted range grows by one element that is not less than its predecessor. -/
theorem sortedRange_extend {α : Type} (less : α → α → Bool) (hless : LessOrdering less)
    (data : List α) (a k : Nat) (hak : a < k) (hk : k < data.length)
    (hs : SortedRange less data a k) (hadj : lessAt less data k (k - 1) = false) :
    SortedRange less data a (k + 1) := by
  intro i j x y hi hij hj hx hy
  by_cases hjk : j = k
  · subst hjk
    have hk1 : j - 1 < data.length := by omega
    have e := lessAt_eq less data j (j - 1) y data[j - 1] hy (List.getElem?_eq_getElem hk1)
    rw [e] at hadj
    by_cases hi1 : i = j - 1
    · subst hi1
      rw [List.getElem?_eq_getElem hk1] at hx
      cases hx
      exact hadj
    · have h2 := hs i (j - 1) x data[j - 1] hi (by omega) (by omega) hx
        (List.getElem?_eq_getElem hk1)
      exact hless.negTrans y _ x hadj h2
  · exact hs i j x y hi hij (by omega) hx hy

theorem sortedRange_of_adjacent {α : Type} (less : α → α → Bool) (hless : LessOrdering less)
    (data : List α) (a i : Nat) (hai : a < i) (hs : SortedRange less data a i) :
    ∀ n, i + n ≤ data.length →
      (∀ k, i ≤ k → k < i + n → lessAt less data k (k - 1) = false) →
      SortedRange less data a (i + n) := by
  intro n
  induction n with
  | zero => intro _ _; exact hs
  | succ n ih =>
    intro hl hadj
    have h1 := ih (by omega) (fun k h1 h2 => hadj k h1 (by omega))
    exact sortedRange_extend less hless data a (i + n) (by omega) (by omega) h1
      (hadj (i + n) (by omega) (by omega))

theorem shiftGreater_rangePerm {α : Type} (less : α → α → Bool) (lo b : Nat) :
    ∀ (fuel j : Nat) (data : List α), lo + 1 ≤ j →
      RangePerm data (shiftGreater less b fuel j data) lo b := by
  intro fuel
  induction fuel with
  | zero => intro j data _; exact RangePerm.refl _ _ _
  | succ fuel ih =>
    intro j data hj
    simp only [shiftGreater]
    by_cases hjb : j < b
    · rw [if_pos hjb]
      by_cases hc : (!lessAt less data j (j - 1)) = true
      · rw [if_pos hc]
        exact RangePerm.refl _ _ _
      · rw [if_neg hc]
        exact (swapAt_rangePerm data lo b j (j - 1) ⟨by omega, hjb⟩ ⟨by omega, by omega⟩).trans
          (ih (j + 1) _ (by omega))
    · rw [if_neg hjb]
      exact RangePerm.refl _ _ _

/-- A sorted range stays sorted when only positions after it change. -/
theorem sortedRange_frame {α : Type} (less : α → α → Bool) (d1 d2 : List α) (a i lo hi : Nat)
    (h : RangePerm d1 d2 lo hi) (hlo : i ≤ lo) (hs : SortedRange less d1 a i) :
    SortedRange less d2 a i := by
  intro p q x y hp hpq hq hx hy
  rw [h.2 p (Or.inl (by omega))] at hx
  rw [h.2 q (Or.inl (by omega))] at hy
  exact hs p q x y hp hpq hq hx hy

/-- The elements of a sorted range, as a list in order. -/
theorem pairwise_of_sortedRange {α : Type} (less : α → α → Bool) (pre mid post : List α)
    (n : Nat) (hn : pre.length + mid.length ≤ n)
    (h : SortedRange less (pre ++ (mid ++ post)) pre.length n) :
    mid.Pairwise (fun p q => less q p = false) := by
  rw [List.pairwise_iff_getElem]
  intro i j hi hj hij
  apply h (pre.length + i) (pre.length + j) mid[i] mid[j] (by omega) (by omega) (by omega)
  · rw [List.getElem?_append_right (by omega), List.getElem?_append_left (by simpa using hi)]
    simp [List.getElem?_eq_getElem hi]
  · rw [List.getElem?_append_right (by omega), List.getElem?_append_left (by simpa using hj)]
    simp [List.getElem?_eq_getElem hj]

/-- A slice with two positions `k` and `k + 1` splits around them. -/
theorem exists_adjacent_decomp {α : Type} (data : List α) (a k : Nat) (hak : a ≤ k)
    (hk : k + 1 < data.length) :
    ∃ pre l y x r, data = pre ++ (l ++ y :: x :: r) ∧ pre.length = a ∧
      pre.length + l.length = k := by
  have h1 : data = data.take k ++ data.drop k := (List.take_append_drop k data).symm
  have hlen : (data.drop k).length = data.length - k := by simp
  rcases hd : data.drop k with _ | ⟨y, _ | ⟨x, r⟩⟩
  · rw [hd] at hlen; simp at hlen; omega
  · rw [hd] at hlen; simp at hlen; omega
  · refine ⟨(data.take k).take a, (data.take k).drop a, y, x, r, ?_, ?_, ?_⟩
    · rw [← List.append_assoc, List.take_append_drop, ← hd]
      exact h1
    · simp; omega
    · simp; omega

/-- The loop of `partialInsertionSort_func`: it rearranges the range and, when
it reports success, the range is sorted. -/
theorem partialInsertionLoop_spec {α : Type} (less : α → α → Bool) (hless : LessOrdering less)
    (a b : Nat) :
    ∀ (steps i : Nat) (data : List α), a < i → i ≤ b → b ≤ data.length →
      SortedRange less data a i → LowerBound less data a b →
      RangePerm data (partialInsertionLoop less a b steps i data).1 a b ∧
      ((partialInsertionLoop less a b steps i data).2 = true →
        SortedRange less (partialInsertionLoop less a b steps i data).1 a b) := by
  intro steps
  induction steps with
  | zero =>
    intro i data _ _ _ _ _
    simp only [partialInsertionLoop]
    exact ⟨RangePerm.refl _ _ _, fun h => by cases h⟩
  | succ steps ih =>
    intro i data hai hib hb hs hL
    simp only [partialInsertionLoop]
    obtain ⟨s1, s2, s3, s4⟩ := scanSorted_spec less data b b i hib
    generalize scanSorted less b b i data = i1 at s1 s2 s3 s4 ⊢
    have hs1 : SortedRange less data a i1 := by
      have := sortedRange_of_adjacent less hless data a i hai hs (i1 - i) (by omega)
        (fun k h1 h2 => s3 k h1 (by omega))
      have e : i + (i1 - i) = i1 := by omega
      rw [e] at this
      exact this
    by_cases hc : i1 = b
    · rw [if_pos hc]
      refine ⟨RangePerm.refl _ _ _, fun _ => ?_⟩
      rw [← hc]; exact hs1
    · rw [if_neg hc]
      by_cases h50 : b - a < 50
      · rw [if_pos h50]
        exact ⟨RangePerm.refl _ _ _, fun h => by cases h⟩
      · rw [if_neg h50]
        have hi1b : i1 < b := by omega
        obtain ⟨pre, l, y, x, r, hd, hpl, hll⟩ :=
          exists_adjacent_decomp data a (i1 - 1) (by omega) (by omega)
        -- the slice after the swap and the shift towards the front
        have hsw : swapAt data i1 (i1 - 1) = pre ++ (l ++ x :: y :: r) := by
          have e1 : i1 = (pre ++ l).length + 1 := by simp; omega
          have e2 : i1 - 1 = (pre ++ l).length := by simp; omega
          have e3 : data = (pre ++ l) ++ y :: x :: r := by simpa using hd
          conv_lhs => rw [e2]
          conv_lhs => arg 2; rw [e1]
          rw [e3, swapAt_adjacent]
          simp
        have hx : data[i1]? = some x := by
          rw [hd, List.getElem?_append_right (by omega),
            List.getElem?_append_right (by omega)]
          have : i1 - pre.length - l.length = 1 := by omega
          rw [this]
          simp
        have hxw : ∀ w, pre.getLast? = some w → less x w = false := by
          intro w hw
          have hpos : 0 < a := by
            rcases pre with _ | ⟨p, ps⟩
            · simp at hw
            · simp at hpl; omega
          have hwa : data[a - 1]? = some w := by
            rw [hd, List.getElem?_append_left (by omega)]
            rw [List.getLast?_eq_getElem?] at hw
            rw [← hpl]
            exact hw
          exact hL w hpos hwa i1 x (by omega) hi1b hx
        have hshift : (if i1 - a ≥ 2 then shiftSmaller less (i1 - 1) (swapAt data i1 (i1 - 1))
            else swapAt data i1 (i1 - 1)) = pre ++ (insertBack less x l ++ y :: r) := by
          rw [hsw]
          by_cases h2 : i1 - a ≥ 2
          · rw [if_pos h2, shiftSmaller_eq, ← hll]
            exact insertionInner_zero_range less pre l x (y :: r) hxw
          · rw [if_neg h2]
            have hl0 : l = [] := by
              apply List.eq_nil_of_length_eq_zero
              omega
            subst hl0
            rfl
        rw [hshift]
        generalize hd2 : pre ++ (insertBack less x l ++ y :: r) = d2
        have hlpw : l.Pairwise (fun p q => less q p = false) := by
          apply pairwise_of_sortedRange less pre l (y :: x :: r) i1 (by omega)
          rw [← hd, hpl]
          exact hs1
        have hperm2 : (insertBack less x l ++ [y]).Perm (l ++ [y, x]) := by
          have h1 := insertBack_perm less x l
          have h2 : (x :: l).Perm (l ++ [x]) :=
            (List.perm_append_comm : ([x] ++ l).Perm (l ++ [x]))
          have h3 := (h1.trans h2).append_right [y]
          refine h3.trans ?_
          simp only [List.append_assoc]
          exact List.Perm.append_left l (List.Perm.swap y x [])
        have hrp : RangePerm data d2 a b := by
          have := rangePerm_of_decomp pre (l ++ [y, x]) (insertBack less x l ++ [y]) r hperm2
          have e1 : pre ++ (l ++ [y, x] ++ r) = data := by rw [hd]; simp
          have e2 : pre ++ (insertBack less x l ++ [y] ++ r) = d2 := by rw [← hd2]; simp
          rw [e1, e2] at this
          exact this.mono (by omega) (by simp; omega)
        have hs2 : SortedRange less d2 a i1 := by
          have := sortedRange_of_decomp less pre (insertBack less x l) (y :: r)
            (insertBack_pairwise less hless x l hlpw)
          rw [hd2, insertBack_length] at this
          have e : pre.length + (l.length + 1) = i1 := by omega
          rw [e, hpl] at this
          exact this
        have hlen2 : d2.length = data.length := hrp.length_eq
        -- the shift towards the back touches positions from `i1` on
        have hrp3 : RangePerm d2
            (if b - i1 ≥ 2 then shiftGreater less b b (i1 + 1) d2 else d2) i1 b := by
          split
          · exact shiftGreater_rangePerm less i1 b b (i1 + 1) d2 (Nat.le_refl _)
          · exact RangePerm.refl _ _ _
        generalize (if b - i1 ≥ 2 then shiftGreater less b b (i1 + 1) d2 else d2) = d3 at hrp3 ⊢
        have hrp13 : RangePerm data d3 a b := hrp.trans (hrp3.mono (by omega) (Nat.le_refl _))
        obtain ⟨r1, r2⟩ := ih i1 d3 (by omega) (by omega)
          (by rw [hrp13.length_eq]; exact hb)
          (sortedRange_frame less d2 d3 a i1 i1 b hrp3 (Nat.le_refl _) hs2)
          (hrp13.lowerBound hL)
        exact ⟨hrp13.trans r1, r2⟩

/-- Go `partialInsertionSort_func(data, a, b)`. -/
theorem partialInsertionSort_func_spec {α : Type} (less : α → α → Bool)
    (hless : LessOrdering less) (data : List α) (a b : Nat) (hab : a < b)
    (hb : b ≤ data.length) (hL : LowerBound less data a b) :
    RangePerm data (partialInsertionSort_func less data a b).1 a b ∧
      ((partialInsertionSort_func less data a b).2 = true →
        SortedRange less (partialInsertionSort_func less data a b).1 a b) := by
  unfold partialInsertionSort_func
  apply partialInsertionLoop_spec less hless a b 5 (a + 1) data (by omega) (by omega) hb _ hL
  intro i j x y hi hij hj _ _
  omega


/-! ## Heap sort -/

theorem lessAt_irrefl {α : Type} (less : α → α → Bool) (hless : LessOrdering less)
    (d : List α) (k : Nat) : lessAt less d k k = false := by
  unfold lessAt
  cases d[k]? with
  | none => rfl
  | some x => exact hless.irrefl x

theorem less_asymm {α : Type} (less : α → α → Bool) (hless : LessOrdering less) (x y : α)
    (h : less x y = true) : less y x = false := by
  cases hyx : less y x with
  | false => rfl
  | true =>
    have := hless.trans x y x h hyx
    rw [hless.irrefl] at this
    cases this

theorem lessAt_asymm {α : Type} (less : α → α → Bool) (hless : LessOrdering less)
    (d : List α) (i j : Nat) (h : lessAt less d i j = true) : lessAt less d j i = false := by
  unfold lessAt at h ⊢
  cases hi : d[i]? with
  | none => rw [hi] at h; cases h
  | some x =>
    cases hj : d[j]? with
    | none => rfl
    | some y =>
      rw [hi, hj] at h
      exact less_asymm less hless x y h

theorem lessAt_negTrans {α : Type} (less : α → α → Bool) (hless : LessOrdering less)
    (d : List α) (i j k : Nat) (hj : j < d.length) (h1 : lessAt less d i j = false)
    (h2 : lessAt less d j k = false) : lessAt less d i k = false := by
  unfold lessAt at h1 h2 ⊢
  rw [List.getElem?_eq_getElem hj] at h1 h2
  cases hi : d[i]? with
  | none => rfl
  | some x =>
    cases hk : d[k]? with
    | none => rfl
    | some z =>
      rw [hi] at h1
      rw [hk] at h2
      exact hless.negTrans x d[j] z h1 h2

theorem lessAt_swapAt {α : Type} (less : α → α → Bool) (d : List α) (P Q u v : Nat)
    (hP : P < d.length) (hQ : Q < d.length) :
    lessAt less (swapAt d P Q) u v =
      lessAt less d (if u = Q then P else if u = P then Q else u)
        (if v = Q then P else if v = P then Q else v) := by
  apply lessAt_congr
  · rw [swapAt_getElem? d P Q u hP hQ]
    split
    · rfl
    · split <;> rfl
  · rw [swapAt_getElem? d P Q v hP hQ]
    split
    · rfl
    · split <;> rfl

/-- Go `siftDown_func(data, lo, hi, first)`: when every node from `lo` on but
`root` dominates its children, and the parent of `root` dominates the children
of `root`, sifting `root` down makes every node from `lo` on dominate its
children. -/
theorem siftDown_func_spec {α : Type} (less : α → α → Bool) (hless : LessOrdering less)
    (hi first lo : Nat) :
    ∀ (fuel root : Nat) (data : List α), first + hi ≤ data.length → lo ≤ root →
      hi - root ≤ fuel →
      (∀ i, lo ≤ i → i < hi → i ≠ root → HeapAt less data first hi i) →
      (∀ p c, lo ≤ p → (root = 2 * p + 1 ∨ root = 2 * p + 2) →
        (c = 2 * root + 1 ∨ c = 2 * root + 2) → c < hi →
        lessAt less data (first + p) (first + c) = false) →
      RangePerm data (siftDown_func less hi first fuel root data) (first + root) (first + hi) ∧
      ∀ i, lo ≤ i → i < hi → HeapAt less (siftDown_func less hi first fuel root data) first hi i := by
  intro fuel
  induction fuel with
  | zero =>
    intro root data hlen hlo hf h1 h2
    simp only [siftDown_func]
    exact ⟨RangePerm.refl _ _ _, fun i hi1 hi2 => h1 i hi1 hi2 (by omega)⟩
  | succ fuel ih =>
    intro root data hlen hlo hf h1 h2
    simp only [siftDown_func]
    by_cases hc : 2 * root + 1 ≥ hi
    · rw [if_pos hc]
      refine ⟨RangePerm.refl _ _ _, ?_⟩
      intro i hi1 hi2
      by_cases hir : i = root
      · subst hir
        intro c hcc hch
        omega
      · exact h1 i hi1 hi2 hir
    · rw [if_neg hc]
      -- the larger child
      generalize hchild : (if (decide (2 * root + 1 + 1 < hi) &&
          lessAt less data (first + (2 * root + 1)) (first + (2 * root + 1) + 1)) = true
          then 2 * root + 1 + 1 else 2 * root + 1) = child
      have hchild_cases : child = 2 * root + 1 ∨ child = 2 * root + 2 := by
        rw [← hchild]; split <;> omega
      have hchild_lt : child < hi := by
        rw [← hchild]
        split
        · rename_i h
          simp only [Bool.and_eq_true, decide_eq_true_eq] at h
          exact h.1
        · omega
      have hmax : ∀ c, (c = 2 * root + 1 ∨ c = 2 * root + 2) → c < hi →
          lessAt less data (first + child) (first + c) = false := by
        intro c hcc hch
        by_cases hb : (decide (2 * root + 1 + 1 < hi) &&
            lessAt less data (first + (2 * root + 1)) (first + (2 * root + 1) + 1)) = true
        · rw [if_pos hb] at hchild
          simp only [Bool.and_eq_true, decide_eq_true_eq] at hb
          rcases hcc with rfl | rfl
          · rw [← hchild]
            exact lessAt_asymm less hless data _ _ hb.2
          · rw [← hchild]
            exact lessAt_irrefl less hless data _
        · rw [if_neg hb] at hchild
          rcases hcc with rfl | rfl
          · rw [← hchild]
            exact lessAt_irrefl less hless data _
          · rw [← hchild]
            have hlt : 2 * root + 1 + 1 < hi := by omega
            simpa [hlt] using hb
      by_cases hstop : (!lessAt less data (first + root) (first + child)) = true
      · rw [if_pos hstop]
        refine ⟨RangePerm.refl _ _ _, ?_⟩
        intro i hi1 hi2
        by_cases hir : i = root
        · subst hir
          intro c hcc hch
          have hs : lessAt less data (first + i) (first + child) = false := by
            simpa using hstop
          exact lessAt_negTrans less hless data _ (first + child) _ (by omega) hs
            (hmax c hcc hch)
        · exact h1 i hi1 hi2 hir
      · rw [if_neg hstop]
        have hgo : lessAt less data (first + root) (first + child) = true := by
          simpa using hstop
        have hP : first + root < data.length := by omega
        have hQ : first + child < data.length := by omega
        have hsw := fun u v => lessAt_swapAt less data (first + root) (first + child) u v hP hQ
        obtain ⟨r1, r2⟩ := ih child (swapAt data (first + root) (first + child))
          (by rw [swapAt_length]; exact hlen) (by omega) (by omega)
          (by
            intro i hi1 hi2 hic c hcc hch
            rw [hsw]
            by_cases hir : i = root
            · subst hir
              rw [if_neg (by omega), if_pos rfl]
              by_cases hcch : c = child
              · subst hcch
                rw [if_pos rfl]
                exact lessAt_asymm less hless data _ _ hgo
              · rw [if_neg (by omega), if_neg (by omega)]
                exact hmax c hcc hch
            · rw [if_neg (by omega), if_neg (by omega)]
              by_cases hcr : c = root
              · subst hcr
                rw [if_neg (by omega), if_pos rfl]
                rcases hchild_cases with hch1 | hch1
                · exact h2 i child hi1 hcc (Or.inl hch1) hchild_lt
                · exact h2 i child hi1 hcc (Or.inr hch1) hchild_lt
              · rw [if_neg (by omega), if_neg (by omega)]
                exact h1 i hi1 hi2 hir c hcc hch)
          (by
            intro p c hp hpc hcc hch
            have hpr : p = root := by omega
            subst hpr
            rw [hsw, if_neg (by omega), if_pos rfl, if_neg (by omega), if_neg (by omega)]
            exact h1 child (by omega) hchild_lt (by omega) c hcc hch)
        exact ⟨(swapAt_rangePerm data (first + root) (first + hi) _ _ ⟨Nat.le_refl _, by omega⟩
          ⟨by omega, by omega⟩).trans (r1.mono (by omega) (Nat.le_refl _)), r2⟩


theorem range_succ_reverse (n : Nat) :
    (List.range (n + 1)).reverse = n :: (List.range n).reverse := by
  rw [List.range_succ, List.reverse_append]
  rfl

/-- The first loop of `heapSort_func` builds the heap from the last parent down
to the root. -/
theorem heapify_spec {α : Type} (less : α → α → Bool) (hless : LessOrdering less)
    (hi first : Nat) :
    ∀ (n : Nat) (data : List α), first + hi ≤ data.length →
      (∀ i, n ≤ i → i < hi → HeapAt less data first hi i) →
      RangePerm data
        ((List.range n).reverse.foldl (fun d i => siftDown_func less hi first hi i d) data)
        first (first + hi) ∧
      ∀ i, i < hi → HeapAt less
        ((List.range n).reverse.foldl (fun d i => siftDown_func less hi first hi i d) data)
        first hi i := by
  intro n
  induction n with
  | zero =>
    intro data _ h
    exact ⟨RangePerm.refl _ _ _, fun i hi2 => h i (Nat.zero_le _) hi2⟩
  | succ n ih =>
    intro data hlen h
    rw [range_succ_reverse, List.foldl_cons]
    obtain ⟨s1, s2⟩ := siftDown_func_spec less hless hi first n hi n data hlen
      (Nat.le_refl _) (by omega)
      (fun i h1 h2 h3 => h i (by omega) h2)
      (fun p c hp hpc _ _ => by omega)
    obtain ⟨r1, r2⟩ := ih (siftDown_func less hi first hi n data)
      (by rw [s1.length_eq]; exact hlen) s2
    exact ⟨(s1.mono (by omega) (Nat.le_refl _)).trans r1, r2⟩

/-- The root of a heap is not less than any of its elements. -/
theorem heap_root_max {α : Type} (less : α → α → Bool) (hless : LessOrdering less)
    (data : List α) (first m : Nat) (hlen : first + m ≤ data.length)
    (h : ∀ i, i < m → HeapAt less data first m i) :
    ∀ j, j < m → lessAt less data first (first + j) = false := by
  intro j
  induction j using Nat.strong_induction_on with
  | _ j ih =>
    intro hj
    cases j with
    | zero => exact lessAt_irrefl less hless data _
    | succ k =>
      have hp := ih (k / 2) (by omega) (by omega)
      have hc := h (k / 2) (by omega) (k + 1) (by omega) hj
      exact lessAt_negTrans less hless data _ (first + k / 2) _ (by omega) hp hc

/-- The second loop of `heapSort_func` moves the root behind the heap and
restores the heap, until the range is sorted. -/
theorem heapExtract_spec {α : Type} (less : α → α → Bool) (hless : LessOrdering less)
    (hi first : Nat) :
    ∀ (m : Nat) (data : List α), m ≤ hi → first + hi ≤ data.length →
      (∀ i, i < m → HeapAt less data first m i) →
      SortedRange less data (first + m) (first + hi) →
      RangeLe less data first (first + m) (first + hi) →
      RangePerm data
        ((List.range m).reverse.foldl
          (fun d i => siftDown_func less i first hi 0 (swapAt d first (first + i))) data)
        first (first + hi) ∧
      SortedRange less
        ((List.range m).reverse.foldl
          (fun d i => siftDown_func less i first hi 0 (swapAt d first (first + i))) data)
        first (first + hi) := by
  intro m
  induction m with
  | zero =>
    intro data _ _ _ hs _
    exact ⟨RangePerm.refl _ _ _, hs⟩
  | succ m ih =>
    intro data hm hlen hheap hs hle
    rw [range_succ_reverse, List.foldl_cons]
    have hF : first < data.length := by omega
    have hM : first + m < data.length := by omega
    have hsw := fun u v => lessAt_swapAt less data first (first + m) u v hF hM
    have hswg := fun k => swapAt_getElem? data first (first + m) k hF hM
    have hrp1 : RangePerm data (swapAt data first (first + m)) first (first + hi) :=
      swapAt_rangePerm data first (first + hi) _ _ ⟨Nat.le_refl _, by omega⟩
        ⟨by omega, by omega⟩
    generalize hd1 : swapAt data first (first + m) = d1 at hsw hswg hrp1
    have hlen1 : first + hi ≤ d1.length := by rw [hrp1.length_eq]; exact hlen
    obtain ⟨s1, s2⟩ := siftDown_func_spec less hless m first 0 hi 0 d1 (by omega)
      (Nat.le_refl _) (by omega)
      (by
        intro i _ hi2 hi0 c hcc hch
        rw [hsw, if_neg (by omega), if_neg (by omega), if_neg (by omega), if_neg (by omega)]
        exact hheap i (by omega) c hcc (by omega))
      (fun p c _ hpc _ _ => by omega)
    generalize hd2 : siftDown_func less m first hi 0 d1 = d2 at s1 s2
    have hmax := heap_root_max less hless data first (m + 1) (by omega) hheap
    -- positions from `first + m` on after the two steps
    have hget : ∀ k, first + m ≤ k → d2[k]? = if k = first + m then data[first]? else data[k]? := by
      intro k hk
      rw [s1.2 k (Or.inr (by omega)), hswg]
      by_cases hkm : k = first + m
      · rw [if_pos hkm, if_pos hkm]
      · rw [if_neg hkm, if_neg hkm, if_neg (by omega)]
    -- every element of the shrunk heap is below the old root and the old tail
    have hall : RangeAll (fun x => less data[first] x = false ∧
        ∀ j y, first + m < j → j < first + hi → data[j]? = some y → less y x = false)
        d2 first (first + m) := by
      apply s1.rangeAll
      intro i x h1 h2 h3
      rw [hswg, if_neg (by omega)] at h3
      have key : ∀ i2, first ≤ i2 → i2 < first + (m + 1) → data[i2]? = some x →
          less data[first] x = false ∧
          ∀ j y, first + m < j → j < first + hi → data[j]? = some y → less y x = false := by
        intro i2 g1 g2 g3
        constructor
        · have := hmax (i2 - first) (by omega)
          have e : first + (i2 - first) = i2 := by omega
          rw [e, lessAt_eq less data first i2 data[first] x
            (List.getElem?_eq_getElem hF) g3] at this
          exact this
        · intro j y j1 j2 j3
          exact hle i2 j x y g1 (by omega) (by omega) j2 g3 j3
      by_cases hif : i = first
      · rw [if_pos hif] at h3
        exact key (first + m) (by omega) (by omega) h3
      · rw [if_neg hif] at h3
        exact key i h1 (by omega) h3
    obtain ⟨r1, r2⟩ := ih d2 (by omega) (by rw [s1.length_eq]; exact hlen1)
      (fun i h => s2 i (Nat.zero_le _) h)
      (by
        intro i j x y h1 h2 h3 h4 h5
        rw [hget i (by omega)] at h4
        rw [hget j (by omega), if_neg (by omega)] at h5
        by_cases him : i = first + m
        · rw [if_pos him, List.getElem?_eq_getElem hF] at h4
          cases h4
          exact hle first j _ y (Nat.le_refl _) (by omega) (by omega) h3
            (List.getElem?_eq_getElem hF) h5
        · rw [if_neg him] at h4
          exact hs i j x y (by omega) h2 h3 h4 h5)
      (by
        intro i j x y h1 h2 h3 h4 h5 h6
        have hx := hall i x h1 h2 h5
        rw [hget j h3] at h6
        by_cases hjm : j = first + m
        · rw [if_pos hjm, List.getElem?_eq_getElem hF] at h6
          cases h6
          exact hx.1
        · rw [if_neg hjm] at h6
          exact hx.2 j y (by omega) h4 h6)
    exact ⟨(hrp1.trans (s1.mono (by omega) (by omega))).trans r1, r2⟩

/-- Go `heapSort_func(data, a, b)` sorts `data[a:b]` in place. -/
theorem heapSort_func_spec {α : Type} (less : α → α → Bool) (hless : LessOrdering less)
    (data : List α) (a b : Nat) (hab : a ≤ b) (hb : b ≤ data.length) :
    RangePerm data (heapSort_func less data a b) a b ∧
      SortedRange less (heapSort_func less data a b) a b := by
  unfold heapSort_func
  simp only
  have e : a + (b - a) = b := by omega
  obtain ⟨s1, s2⟩ := heapify_spec less hless (b - a) a ((b - a - 1) / 2 + 1) data
    (by omega) (by
      intro i h1 h2 c hcc hch
      omega)
  generalize (List.range ((b - a - 1) / 2 + 1)).reverse.foldl
    (fun d i => siftDown_func less (b - a) a (b - a) i d) data = d1 at s1 s2 ⊢
  obtain ⟨r1, r2⟩ := heapExtract_spec less hless (b - a) a (b - a) d1 (Nat.le_refl _)
    (by rw [s1.length_eq]; omega) s2
    (by intro i j x y h1 h2 h3 _ _; omega)
    (by intro i j x y h1 h2 h3 h4 _ _; omega)
  rw [e] at s1 r1 r2
  exact ⟨s1.trans r1, r2⟩


/-! ## Pattern-defeating quicksort -/

/-- Two sorted ranges around a pivot that separates them make one sorted range. -/
theorem sortedRange_join {α : Type} (less : α → α → Bool) (hless : LessOrdering less)
    (d : List α) (a mid b : Nat) (p : α)
    (h1 : SortedRange less d a mid) (h2 : SortedRange less d (mid + 1) b)
    (hp : d[mid]? = some p)
    (hl : RangeAll (fun x => less x p = true) d a mid)
    (hr : RangeAll (fun x => less x p = false) d (mid + 1) b) :
    SortedRange less d a b := by
  intro i j x y hi hij hj hx hy
  by_cases hjm : j < mid
  · exact h1 i j x y hi hij hjm hx hy
  · by_cases hje : j = mid
    · subst hje
      rw [hp] at hy
      cases hy
      exact less_asymm less hless x _ (hl i x hi hij hx)
    · have hyp := hr j y (by omega) hj hy
      by_cases him : i < mid
      · have hxp := hl i x hi him hx
        cases hyx : less y x with
        | false => rfl
        | true =>
          have := hless.trans y x p hyx hxp
          rw [hyp] at this
          cases this
      · by_cases hie : i = mid
        · subst hie
          rw [hp] at hx
          cases hx
          exact hyp
        · exact h2 i j x y (by omega) hij hj hx hy

/-- A block of elements equal to the pivot followed by a sorted range of greater
elements is a sorted range. -/
theorem sortedRange_join_equal {α : Type} (less : α → α → Bool) (hless : LessOrdering less)
    (d : List α) (a mid b : Nat) (p : α)
    (h2 : SortedRange less d mid b)
    (he : RangeAll (fun x => less p x = false) d a mid)
    (hge : RangeAll (fun x => less x p = false) d a mid)
    (hgt : RangeAll (fun x => less p x = true) d mid b) :
    SortedRange less d a b := by
  intro i j x y hi hij hj hx hy
  by_cases him : i < mid
  · have hpx := he i x hi him hx
    by_cases hjm : j < mid
    · exact hless.negTrans y p x (hge j y (by omega) hjm hy) hpx
    · have hpy := hgt j y (by omega) hj hy
      cases hyx : less y x with
      | false => rfl
      | true =>
        have := hless.trans p y x hpy hyx
        rw [hpx] at this
        cases this
  · exact h2 i j x y (by omega) hij hj hx hy

theorem LowerBound.sub {α : Type} {less : α → α → Bool} {d : List α} {a b b2 : Nat}
    (h : LowerBound less d a b) (hb : b2 ≤ b) : LowerBound less d a b2 :=
  fun w ha hw i x h1 h2 h3 => h w ha hw i x h1 (by omega) h3

/-- Go `pdqsort_func(data, a, b, limit)` sorts `data[a:b]` in place, for every
`limit` and every state of its two flags, when the element before the range is
not greater than those in it. -/
theorem pdqsort_func_spec {α : Type} (less : α → α → Bool) (hless : LessOrdering less) :
    ∀ (fuel : Nat) (data : List α) (a b limit : Nat) (wb wp : Bool),
      a ≤ b → b ≤ data.length → b - a < fuel → LowerBound less data a b →
      RangePerm data (pdqsort_func less fuel data a b limit wb wp) a b ∧
        SortedRange less (pdqsort_func less fuel data a b limit wb wp) a b := by
  intro fuel
  induction fuel with
  | zero => intro data a b limit wb wp _ _ hf; omega
  | succ fuel ih =>
    intro data a b limit wb wp hab hb hf hL
    simp only [pdqsort_func]
    by_cases h12 : b - a ≤ 12
    · rw [if_pos h12]
      exact insertionSort_func_spec less hless data a b hab hb
    · rw [if_neg h12]
      by_cases hlim : limit = 0
      · rw [if_pos hlim]
        exact heapSort_func_spec less hless data a b hab hb
      · rw [if_neg hlim]
        -- pattern breaking
        have hrp1 : RangePerm data (if (!wb) = true then breakPatterns_func data a b else data)
            a b := by
          split
          · exact breakPatterns_func_rangePerm data a b
          · exact RangePerm.refl _ _ _
        generalize (if (!wb) = true then breakPatterns_func data a b else data) = d1 at hrp1 ⊢
        generalize (if (!wb) = true then limit - 1 else limit) = limit1
        have hlen1 : b ≤ d1.length := by rw [hrp1.length_eq]; exact hb
        -- pivot choice
        have hcb := choosePivot_func_bounds less d1 a b (by omega)
        generalize choosePivot_func less d1 a b = choice at hcb ⊢
        have hrp2 : RangePerm d1
            (if decide (choice.2 = SortedHint.decreasingHint) = true
              then reverseRange_func d1 a b else d1) a b := by
          split
          · exact reverseRange_func_rangePerm d1 a b (by omega)
          · exact RangePerm.refl _ _ _
        generalize (if decide (choice.2 = SortedHint.decreasingHint) = true
              then reverseRange_func d1 a b else d1) = d2 at hrp2 ⊢
        have hpb : a ≤ (if decide (choice.2 = SortedHint.decreasingHint) = true
              then b - 1 - (choice.1 - a) else choice.1) ∧
            (if decide (choice.2 = SortedHint.decreasingHint) = true
              then b - 1 - (choice.1 - a) else choice.1) < b := by
          split <;> constructor <;> omega
        generalize (if decide (choice.2 = SortedHint.decreasingHint) = true
              then b - 1 - (choice.1 - a) else choice.1) = pivot at hpb ⊢
        generalize (if decide (choice.2 = SortedHint.decreasingHint) = true
              then SortedHint.increasingHint else choice.2) = hint
        have hrp12 : RangePerm data d2 a b := hrp1.trans hrp2
        have hlen2 : b ≤ d2.length := by rw [hrp12.length_eq]; exact hb
        have hL2 : LowerBound less d2 a b := hrp12.lowerBound hL
        -- partial insertion sort
        have hat : RangePerm d2
            (if (wb && wp && decide (hint = SortedHint.increasingHint)) = true
              then partialInsertionSort_func less d2 a b else (d2, false)).1 a b ∧
            ((if (wb && wp && decide (hint = SortedHint.increasingHint)) = true
              then partialInsertionSort_func less d2 a b else (d2, false)).2 = true →
              SortedRange less
                (if (wb && wp && decide (hint = SortedHint.increasingHint)) = true
                  then partialInsertionSort_func less d2 a b else (d2, false)).1 a b) := by
          split
          · exact partialInsertionSort_func_spec less hless d2 a b (by omega) hlen2 hL2
          · exact ⟨RangePerm.refl _ _ _, fun h => by cases h⟩
        generalize (if (wb && wp && decide (hint = SortedHint.increasingHint)) = true
              then partialInsertionSort_func less d2 a b else (d2, false)) = attempt at hat ⊢
        obtain ⟨d3, done⟩ := attempt
        simp only at hat ⊢
        obtain ⟨hrp3, hdone⟩ := hat
        have hrp13 : RangePerm data d3 a b := hrp12.trans hrp3
        have hlen3 : b ≤ d3.length := by rw [hrp13.length_eq]; exact hb
        have hL3 : LowerBound less d3 a b := hrp13.lowerBound hL
        by_cases hd : done = true
        · rw [if_pos hd]
          exact ⟨hrp13, hdone hd⟩
        · rw [if_neg hd]
          by_cases heq : (decide (a > 0) && !lessAt less d3 (a - 1) pivot) = true
          · rw [if_pos heq]
            simp only [Bool.and_eq_true, decide_eq_true_eq, Bool.not_eq_true'] at heq
            obtain ⟨ha0, hnl⟩ := heq
            obtain ⟨e1, e2, e3, p, e4, e5, e6⟩ :=
              partitionEqual_func_spec less hless d3 a b pivot hpb.1 hpb.2 hlen3
            generalize partitionEqual_func less d3 a b pivot = equal at e1 e2 e3 e5 e6 ⊢
            obtain ⟨d4, mid⟩ := equal
            simp only at e1 e2 e3 e5 e6 ⊢
            have hrp14 : RangePerm data d4 a b := hrp13.trans e1
            have hlen4 : b ≤ d4.length := by rw [hrp14.length_eq]; exact hb
            -- nothing in the range is less than the pivot
            have hw : a - 1 < d3.length := by omega
            have hwp : less d3[a - 1] p = false := by
              rw [lessAt_eq less d3 (a - 1) pivot d3[a - 1] p
                (List.getElem?_eq_getElem hw) e4] at hnl
              exact hnl
            have hge3 : RangeAll (fun x => less x p = false) d3 a b := by
              intro i x h1 h2 h3
              exact hless.negTrans x d3[a - 1] p
                (hL3 d3[a - 1] ha0 (List.getElem?_eq_getElem hw) i x h1 h2 h3) hwp
            have hge4 : RangeAll (fun x => less x p = false) d4 a b := e1.rangeAll _ hge3
            have hL4 : LowerBound less d4 mid b := by
              intro w hm hw4 i x h1 h2 h3
              have hwe := e5 (mid - 1) w (by omega) (by omega) hw4
              have hxg := e6 i x h1 h2 h3
              cases hxw : less x w with
              | false => rfl
              | true =>
                have := hless.trans p x w hxg hxw
                rw [hwe] at this
                cases this
            obtain ⟨r1, r2⟩ := ih d4 mid b limit1 wb wp e3 hlen4 (by omega) hL4
            generalize pdqsort_func less fuel d4 mid b limit1 wb wp = d5 at r1 r2 ⊢
            refine ⟨hrp14.trans (r1.mono (by omega) (Nat.le_refl _)), ?_⟩
            apply sortedRange_join_equal less hless d5 a mid b p r2
            · intro i x h1 h2 h3
              rw [r1.2 i (Or.inl h2)] at h3
              exact e5 i x h1 h2 h3
            · intro i x h1 h2 h3
              rw [r1.2 i (Or.inl h2)] at h3
              exact hge4 i x h1 (by omega) h3
            · exact r1.rangeAll _ e6
          · rw [if_neg heq]
            obtain ⟨q1, q2, q3, p, q4, q5, q6⟩ :=
              partition_func_spec less d3 a b pivot hpb.1 hpb.2 hlen3
            generalize partition_func less d3 a b pivot = parted at q1 q2 q3 q4 q5 q6 ⊢
            obtain ⟨d4, mid, ap⟩ := parted
            simp only at q1 q2 q3 q4 q5 q6 ⊢
            have hrp14 : RangePerm data d4 a b := hrp13.trans q1
            have hlen4 : b ≤ d4.length := by rw [hrp14.length_eq]; exact hb
            have hL4 : LowerBound less d4 a b := hrp14.lowerBound hL
            by_cases hside : mid - a < b - mid
            · rw [if_pos hside]
              obtain ⟨r1, r2⟩ := ih d4 a mid limit1 true true q2 (by omega) (by omega)
                (hL4.sub (by omega))
              generalize pdqsort_func less fuel d4 a mid limit1 true true = d5 at r1 r2 ⊢
              have hp5 : d5[mid]? = some p := by
                rw [r1.2 mid (Or.inr (Nat.le_refl _))]; exact q4
              have hr5 : RangeAll (fun x => less x p = false) d5 (mid + 1) b := by
                intro i x h1 h2 h3
                rw [r1.2 i (Or.inr (by omega))] at h3
                exact q6 i x h1 h2 h3
              have hL5 : LowerBound less d5 (mid + 1) b := by
                intro w _ hw5 i x h1 h2 h3
                rw [Nat.add_sub_cancel, hp5] at hw5
                cases hw5
                exact hr5 i x h1 h2 h3
              obtain ⟨t1, t2⟩ := ih d5 (mid + 1) b limit1
                (decide (mid - a ≥ (b - a) / 8)) ap (by omega)
                (by rw [r1.length_eq]; exact hlen4) (by omega) hL5
              generalize pdqsort_func less fuel d5 (mid + 1) b limit1
                (decide (mid - a ≥ (b - a) / 8)) ap = d6 at t1 t2 ⊢
              refine ⟨hrp14.trans ((r1.mono (Nat.le_refl _) (by omega)).trans
                (t1.mono (by omega) (Nat.le_refl _))), ?_⟩
              apply sortedRange_join less hless d6 a mid b p
              · exact sortedRange_frame less d5 d6 a mid (mid + 1) b t1 (by omega) r2
              · exact t2
              · rw [t1.2 mid (Or.inl (by omega))]; exact hp5
              · intro i x h1 h2 h3
                rw [t1.2 i (Or.inl (by omega))] at h3
                exact r1.rangeAll _ q5 i x h1 h2 h3
              · exact t1.rangeAll _ hr5
            · rw [if_neg hside]
              have hL4r : LowerBound less d4 (mid + 1) b := by
                intro w _ hw4 i x h1 h2 h3
                rw [Nat.add_sub_cancel, q4] at hw4
                cases hw4
                exact q6 i x h1 h2 h3
              obtain ⟨r1, r2⟩ := ih d4 (mid + 1) b limit1 true true (by omega) hlen4
                (by omega) hL4r
              generalize pdqsort_func less fuel d4 (mid + 1) b limit1 true true = d5 at r1 r2 ⊢
              have hp5 : d5[mid]? = some p := by
                rw [r1.2 mid (Or.inl (by omega))]; exact q4
              have hl5 : RangeAll (fun x => less x p = true) d5 a mid := by
                intro i x h1 h2 h3
                rw [r1.2 i (Or.inl (by omega))] at h3
                exact q5 i x h1 h2 h3
              have hrp15 : RangePerm data d5 a b :=
                hrp14.trans (r1.mono (by omega) (Nat.le_refl _))
              obtain ⟨t1, t2⟩ := ih d5 a mid limit1
                (decide (b - mid ≥ (b - a) / 8)) ap q2
                (by rw [r1.length_eq]; omega) (by omega)
                ((hrp15.lowerBound hL).sub (by omega))
              generalize pdqsort_func less fuel d5 a mid limit1
                (decide (b - mid ≥ (b - a) / 8)) ap = d6 at t1 t2 ⊢
              refine ⟨hrp15.trans (t1.mono (Nat.le_refl _) (by omega)), ?_⟩
              apply sortedRange_join less hless d6 a mid b p
              · exact t2
              · intro i j x y h1 h2 h3 h4 h5
                rw [t1.2 i (Or.inr (by omega))] at h4
                rw [t1.2 j (Or.inr (by omega))] at h5
                exact r2 i j x y h1 h2 h3 h4 h5
              · rw [t1.2 mid (Or.inr (Nat.le_refl _))]; exact hp5
              · exact t1.rangeAll _ hl5
              · intro i x h1 h2 h3
                rw [t1.2 i (Or.inr (by omega))] at h3
                exact r1.rangeAll _ q6 i x h1 h2 h3

/-! ## `sort.Slice` meets its contract -/

/-- A range that covers the whole slice and is sorted is a list in order. -/
theorem pairwise_of_sortedRange_all {α : Type} (less : α → α → Bool) (d : List α)
    (h : SortedRange less d 0 d.length) : d.Pairwise (fun p q => less q p = false) := by
  rw [List.pairwise_iff_getElem]
  intro i j hi hj hij
  exact h i j d[i] d[j] (Nat.zero_le _) hij hj (List.getElem?_eq_getElem hi)
    (List.getElem?_eq_getElem hj)

/-- Go `sort.Slice` rearranges the slice and leaves it in order, for every
comparison that meets the requirements on `Less`. -/
theorem goSortSlice_spec {α : Type} (less : α → α → Bool) (hless : LessOrdering less)
    (x : List α) :
    (goSortSlice less x).Perm x ∧
      (goSortSlice less x).Pairwise (fun p q => less q p = false) := by
  unfold goSortSlice
  obtain ⟨h1, h2⟩ := pdqsort_func_spec less hless (x.length + 1) x 0 x.length
    (bitsLen (x.length + 1) x.length) true true (Nat.zero_le _) (Nat.le_refl _) (by omega)
    (fun w h0 _ => absurd h0 (Nat.lt_irrefl 0))
  refine ⟨h1.1, ?_⟩
  apply pairwise_of_sortedRange_all
  rw [h1.length_eq]
  exact h2

/-- Go `sort.Slice`, as modelled, meets the contract of `sort.Slice`. -/
theorem goSortSlice_contract : SortSliceContract goSortSlice :=
  ⟨fun less xs hless => (goSortSlice_spec less hless xs).1,
   fun less xs hless => (goSortSlice_spec less hless xs).2⟩

/-! ## The order of the listing -/

/-- The posts a successful `BlogListHandler` hands to the templates are the
loaded posts as `sort.Slice` leaves them. -/
theorem BlogListHandler_posts (Y : Yaml) (md : Markdown) (T : Templates)
    (sortSlice : SliceSort) (node : FsNode) (r : Request) (data : ViewData)
    (h : (BlogListHandler Y md T sortSlice node r).viewData = some data) :
    ∃ posts, LoadBlogPosts Y md node "posts".toList = (posts, none) ∧
      data.lookup "Posts" = some (.posts (sortSlice dateAfter posts)) := by
  rcases hl : LoadBlogPosts Y md node "posts".toList with ⟨posts, _ | e⟩
  · rw [BlogListHandler_loaded Y md T sortSlice node r posts hl] at h
    by_cases hp : T.parseFiles listTemplates = false
    · rw [if_pos hp] at h
      cases h
    · rw [if_neg hp, execute_viewData] at h
      have hd := Option.some.inj h
      exact ⟨posts, rfl, by rw [← hd]; rfl⟩
  · rw [BlogListHandler_load_error Y md T sortSlice node r posts e hl] at h
    cases h

/-- A list in which no element is dated after one before it has, at any two
positions `i < j`, a date at `i` that is not before the date at `j`. -/
theorem dates_descending_of_pairwise (sorted : List BlogPost)
    (h : sorted.Pairwise (fun p q => dateAfter q p = false)) :
    ∀ (i j : Nat) (hij : i < j) (hj : j < sorted.length),
      (sorted.get ⟨i, Nat.lt_trans hij hj⟩).Date.Before (sorted.get ⟨j, hj⟩).Date = false := by
  intro i j hij hj
  have h2 := List.pairwise_iff_get.mp h ⟨i, Nat.lt_trans hij hj⟩ ⟨j, hj⟩ hij
  simp only [dateAfter, Time.After, decide_eq_false_iff_not] at h2
  simp only [Time.Before, decide_eq_false_iff_not]
  exact h2

/-- C6. For every `sort.Slice` that meets its contract, as Go's does
(`goSortSlice_contract`), whenever `BlogListHandler` reaches the templates, the
sequence it passes under `Posts` is a permutation of the loaded posts in which,
for all positions `i < j`, the date at `i` is not before the date at `j`. -/
theorem BlogListHandler_posts_by_date_descending (Y : Yaml) (md : Markdown) (T : Templates)
    (sortSlice : SliceSort) (hS : SortSliceContract sortSlice) (node : FsNode) (r : Request)
    (data : ViewData)
    (h : (BlogListHandler Y md T sortSlice node r).viewData = some data) :
    ∃ posts sorted, LoadBlogPosts Y md node "posts".toList = (posts, none) ∧
      data.lookup "Posts" = some (.posts sorted) ∧
      sorted.Perm posts ∧
      ∀ (i j : Nat) (hij : i < j) (hj : j < sorted.length),
        (sorted.get ⟨i, Nat.lt_trans hij hj⟩).Date.Before (sorted.get ⟨j, hj⟩).Date
          = false := by
  obtain ⟨posts, hl, hd⟩ := BlogListHandler_posts Y md T sortSlice node r data h
  exact ⟨posts, sortSlice dateAfter posts, hl, hd, hS.perm dateAfter posts dateAfter_ordering,
    dates_descending_of_pairwise _ (hS.sorted dateAfter posts dateAfter_ordering)⟩

/-- An instance of C6 with Go's `sort.Slice`, which meets the contract
(`goSortSlice_contract`): the thirteen posts of `thirteenPostsTree` reach the
view newest first. -/
theorem BlogListHandler_posts_by_date_descending_example :
    SortSliceContract goSortSlice ∧
    ∃ data,
      (BlogListHandler flatYaml plainMarkdown quietTemplates goSortSlice thirteenPostsTree
          (Request.received "/blog".toList [])).viewData = some data ∧
      ∃ posts sorted,
        LoadBlogPosts flatYaml plainMarkdown thirteenPostsTree "posts".toList
          = (posts, none) ∧
        data.lookup "Posts" = some (.posts sorted) ∧
        sorted.Perm posts ∧
        ∀ (i j : Nat) (hij : i < j) (hj : j < sorted.length),
          (sorted.get ⟨i, Nat.lt_trans hij hj⟩).Date.Before (sorted.get ⟨j, hj⟩).Date
            = false :=
  ⟨goSortSlice_contract,
   (BlogListHandler flatYaml plainMarkdown quietTemplates goSortSlice thirteenPostsTree
      (Request.received "/blog".toList [])).viewData.getD [],
   by rfl,
   BlogListHandler_posts_by_date_descending flatYaml plainMarkdown quietTemplates
     goSortSlice goSortSlice_contract thirteenPostsTree (Request.received "/blog".toList [])
     _ (by rfl)⟩

/-- C7, as the claim states it, fails: the thirteen posts of `thirteenPostsTree`
are scanned in the order `P01` to `P13`; `sort.Slice` picks `P07` as pivot and
swaps it to the front, and the list handed to the view has `P07` before `P03`
and `P02` before `P01`, although each pair has equal dates and was scanned in
the other order. -/
theorem BlogListHandler_reorders_equal_dates :
    (LoadBlogPosts flatYaml plainMarkdown thirteenPostsTree "posts".toList).1.map
        (fun p => (p.Title, p.Date))
      = [("P01".toList, 1672531200), ("P02".toList, 1672531200),
         ("P03".toList, 1717200000), ("P04".toList, 1717200000),
         ("P05".toList, 1717200000), ("P06".toList, 1717200000),
         ("P07".toList, 1717200000), ("P08".toList, 1717200000),
         ("P09".toList, 1717200000), ("P10".toList, 1717200000),
         ("P11".toList, 1717200000), ("P12".toList, 1717200000),
         ("P13".toList, 1717200000)] ∧
    (BlogListHandler flatYaml plainMarkdown quietTemplates goSortSlice thirteenPostsTree
        (Request.received "/blog".toList [])).postTitles
      = some ["P07".toList, "P03".toList, "P04".toList, "P05".toList, "P06".toList,
              "P08".toList, "P09".toList, "P10".toList, "P11".toList, "P12".toList,
              "P13".toList, "P02".toList, "P01".toList] := by
  refine ⟨by rfl, by rfl⟩

/-- Two posts of which one is dated after the other do not share a date. -/
theorem dateAfter_not_same_date (d : Time) (x y : BlogPost) (h : dateAfter x y = true)
    (hx : decide (x.Date = d) = true) (hy : decide (y.Date = d) = true) : False := by
  simp only [dateAfter, Time.After, decide_eq_true_eq] at h hx hy
  rw [hx, hy] at h
  exact Int.lt_irrefl d h

/-- C7, as the code has it. With Go's `sort.Slice` (insertion sort up to twelve
elements, quicksort partitioning beyond), a listing of at most twelve loaded
posts reaches the view as a date-descending permutation in which the posts of
every date keep the order in which they were scanned. -/
theorem BlogListHandler_stable_up_to_twelve (Y : Yaml) (md : Markdown) (T : Templates)
    (node : FsNode) (r : Request) (posts : List BlogPost) (data : ViewData)
    (hl : LoadBlogPosts Y md node "posts".toList = (posts, none))
    (hn : posts.length ≤ 12)
    (h : (BlogListHandler Y md T goSortSlice node r).viewData = some data) :
    ∃ sorted, data.lookup "Posts" = some (.posts sorted) ∧
      (∀ d : Time, sorted.filter (fun p => decide (p.Date = d))
        = posts.filter (fun p => decide (p.Date = d))) ∧
      sorted.Perm posts ∧
      ∀ (i j : Nat) (hij : i < j) (hj : j < sorted.length),
        (sorted.get ⟨i, Nat.lt_trans hij hj⟩).Date.Before (sorted.get ⟨j, hj⟩).Date
          = false := by
  obtain ⟨posts2, hl2, hd⟩ := BlogListHandler_posts Y md T goSortSlice node r data h
  have hp : posts2 = posts := by
    rw [hl] at hl2
    exact ((Prod.mk.injEq _ _ _ _).mp hl2).1.symm
  subst hp
  rw [goSortSlice_short dateAfter posts2 hn] at hd
  refine ⟨insertionSlice dateAfter posts2, hd, ?_, insertionSlice_perm _ _,
    dates_descending_of_pairwise _ (insertionSlice_sorted _ dateAfter_ordering _)⟩
  intro d
  exact insertionSlice_filter dateAfter _ (dateAfter_not_same_date d) posts2

/-- An instance of the amended C7, the example of the specification: dates
2023-01-01, 2024-06-01, 2024-06-01, 2020-01-01 in scan order `A`, `B`, `C`, `D`
reach the view as `B`, `C`, `A`, `D`. -/
theorem BlogListHandler_stable_up_to_twelve_example :
    (BlogListHandler flatYaml plainMarkdown quietTemplates goSortSlice fourPostsTree
        (Request.received "/blog".toList [])).postTitles
      = some ["B".toList, "C".toList, "A".toList, "D".toList] ∧
    ∃ sorted,
      List.lookup "Posts"
          [("Title", Value.str "Blog Posts".toList),
           ("Posts", Value.posts (goSortSlice dateAfter
              [postDoc "A" 1672531200 "a", postDoc "B" 1717200000 "b",
               postDoc "C" 1717200000 "c", postDoc "D" 1577836800 "d"])),
           ("PageType", Value.str "bloglist".toList),
           ("IsHTMX", Value.bool false)]
        = some (.posts sorted) ∧
      (∀ d : Time, sorted.filter (fun p => decide (p.Date = d))
        = [postDoc "A" 1672531200 "a", postDoc "B" 1717200000 "b",
           postDoc "C" 1717200000 "c", postDoc "D" 1577836800 "d"].filter
            (fun p => decide (p.Date = d))) ∧
      sorted.Perm [postDoc "A" 1672531200 "a", postDoc "B" 1717200000 "b",
           postDoc "C" 1717200000 "c", postDoc "D" 1577836800 "d"] ∧
      ∀ (i j : Nat) (hij : i < j) (hj : j < sorted.length),
        (sorted.get ⟨i, Nat.lt_trans hij hj⟩).Date.Before (sorted.get ⟨j, hj⟩).Date
          = false :=
  ⟨by rfl,
   BlogListHandler_stable_up_to_twelve flatYaml plainMarkdown quietTemplates fourPostsTree
     (Request.received "/blog".toList []) _ _ (by rfl) (by decide) (by rfl)⟩

end HtmxPortfolio
